import Mathlib

/-!
Verification development for the `llm-translation-extension` page-translation
engine.

The definitions below are a shallow embedding of the TypeScript source:

* `Terms`, `Category` — the glossary data model (`src/translator/llm/translator.ts`).
* `PageTranslator.addNewTerms` — idempotent term merging into the `"General"`
  category (the page-translator class, lines 285–320 of the main source file).
* `OpenAILLMTranslator.translateTerms` — the merge of a term-translation
  response back into a category (`src/translator/llm/translator.ts`,
  lines 159–217).  The LLM response itself is external input, so the merge is
  modelled as a pure function of the category and the response list.
* `RegexRenderer.render` — the placeholder-substitution renderer
  (`src/translator/renderer`), with the default `\x7b\x7b name \x7d\x7d`
  pattern, non-strict/strict modes and optional HTML escaping.
* A DOM model (`DNode`) with the tree-walking collector
  (`collectTextNodes` / `acceptTextNodeFilter`), the mutation and marking layer
  (`updateTextNode`), restoration (`restoreOriginalTextFromDataAttributes`),
  the end-of-session glossary re-application
  (`applyTermsReplacementToAllNodes`) and the batched `translate` session.

Conventions of the embedding:

* DOM `innerHTML` capture/assignment is modelled by storing the child forest
  itself (the browser's serialize/parse pair is treated as the identity on
  well-formed content).  An attribute value of `""` for the stored original
  corresponds to a forest whose serialization is empty, i.e. one consisting
  solely of empty text nodes (`serializedEmpty`); JavaScript truthiness of
  `getAttribute("data-original-text")` is `origTruthy`.
* JavaScript string truthiness is emptiness of the string; `trim` is modelled
  by `String.trim`; the Unicode-letter test `\p\x7bL\x7d` is modelled on the
  ASCII fragment by `Char.isAlpha`.
* The external HTML fragment parser used when translated text carries the
  rich-markup `<span class="translated-term"` signature is a parameter `pf`
  of the session model (it is a browser capability, not program code).
* The `AbortSignal`/timeout plumbing only decides whether an external call
  settles successfully or rejects; translator calls are therefore modelled as
  `Except String`-valued functions (the payload is the error message used for
  the per-node progress entry).
-/
/-- A glossary entry (`Terms` in `translator.ts`): original text, its
translation (empty string = pending), a description and the placeholder
template such as `\x7b\x7bAPI\x7d\x7d`. -/
structure Terms where
  original : String
  translated : String
  description : String
  template : String
deriving DecidableEq, Repr

/-- A named category of glossary entries (`Category` in `translator.ts`). -/
structure Category where
  name : String
  terms : List Terms
deriving DecidableEq, Repr

/-- Token usage accumulated over translator calls. -/
structure TokenUsage where
  promptTokens : Nat
  completionTokens : Nat
  totalTokens : Nat
deriving DecidableEq, Repr

def TokenUsage.zero : TokenUsage := ⟨0, 0, 0⟩

def TokenUsage.add (a b : TokenUsage) : TokenUsage :=
  ⟨a.promptTokens + b.promptTokens, a.completionTokens + b.completionTokens,
   a.totalTokens + b.totalTokens⟩

namespace Glossary

/-- One step of `PageTranslator.addNewTerms`'s `forEach` body: insert `t` into
the category at index `gIdx` unless an entry with the same `original` already
exists there; the boolean records whether an insertion happened
(`hasNewTerms`). -/
def insertTerm (gIdx : Nat) (acc : List Category × Bool)
    (t : Terms) : List Category × Bool :=
  match acc.1[gIdx]? with
  | none => acc
  | some g =>
    if g.terms.any (fun u => u.original = t.original) then acc
    else (acc.1.set gIdx { g with terms := g.terms ++ [t] }, true)

/-- `PageTranslator.addNewTerms`: find or create the `"General"` category,
then insert each new entry unless its `original` is already present
(case-sensitive exact match).  Returns the updated category list and whether
any insertion occurred; the persistence callback fires exactly when the
boolean is `true` (and a callback was supplied). -/
def addNewTerms (cats : List Category) (newTerms : List Terms) :
    List Category × Bool :=
  if newTerms = [] then (cats, false)
  else
    let base : List Category × Nat :=
      match cats.findIdx? (fun c => c.name = "General") with
      | some i => (cats, i)
      | none => (cats ++ [{ name := "General", terms := [] }], cats.length)
    newTerms.foldl (insertTerm base.2) (base.1, false)

/-- Count of all entries over all categories. -/
def totalCount (cats : List Category) : Nat :=
  (cats.map (fun c => c.terms.length)).sum

/-- Every category's `original` texts are pairwise distinct. -/
def UniqueOriginals (cats : List Category) : Prop :=
  ∀ c ∈ cats, (c.terms.map Terms.original).Nodup

end Glossary

namespace LLM

/-! ### The LLM translator's term-reconciliation merge

`OpenAILLMTranslator.translateTerms` filters the entries lacking a
translation, sends them to the model, builds a `Map` from the response
(`Map.set`, so a later response entry for the same `original` overwrites an
earlier one) and merges by
`translated: translations.get(term.original) || term.translated`.
The structured response is external input, so the merge is a pure function of
the category and the response list. -/
/-- One entry of the structured term-translation response
(`TranslateTermsSchema`). -/
structure RTerm where
  original : String
  translated : String
  description : String
deriving DecidableEq, Repr

/-- The `translations` map: the value stored for `orig` is the `translated`
field of the **last** response entry with that `original` (later `Map.set`
calls overwrite earlier ones). -/
def lastTranslation (resp : List RTerm) (orig : String) : Option String :=
  (resp.reverse.find? (fun r => r.original = orig)).map (fun r => r.translated)

/-- `translated: translations.get(term.original) || term.translated` for one
entry: an absent or empty response value falls back to the previous value. -/
def mergeTerm (resp : List RTerm) (t : Terms) : Terms :=
  { t with
    translated :=
      match lastTranslation resp t.original with
      | some v => if v = "" then t.translated else v
      | none => t.translated }

/-- `OpenAILLMTranslator.translateTerms`: if no entry lacks a translation the
category is returned unchanged (no model call is made); otherwise every entry
is mapped through `mergeTerm` against the model's response. -/
def translateTermsMerge (category : Category) (resp : List RTerm) : Category :=
  if category.terms.filter (fun t => t.translated = "") = [] then category
  else { category with terms := category.terms.map (mergeTerm resp) }

end LLM

namespace Renderer

/-! ### The placeholder-substitution renderer (`RegexRenderer.render`)

The default pattern is `\x7b\x7b([^\x7d]+)\x7d\x7d` applied globally:
at each position the scanner tries to match two open braces, a nonempty run
of non-close-brace characters, and two close braces; on failure it advances
one character.  A matched identifier is trimmed and looked up in the context;
a hit is replaced by the context value (HTML-escaped when `escapeValues`),
a miss leaves the matched text verbatim and, in strict mode, records the
identifier.  Strict mode fails with one aggregated error listing every
missing identifier. -/
/-- The open-brace character. -/
def obrace : Char := Char.ofNat 123

/-- The close-brace character. -/
def cbrace : Char := Char.ofNat 125

/-- The apostrophe character. -/
def apos : Char := Char.ofNat 39

/-- JavaScript whitespace test for `trim`, modelled on the ASCII fragment. -/
def isWS (c : Char) : Bool :=
  c = ' ' ∨ c = Char.ofNat 9 ∨ c = Char.ofNat 10 ∨ c = Char.ofNat 13

/-- `String.prototype.trim`: strip leading and trailing whitespace. -/
def jsTrim (s : String) : String :=
  ⟨(((s.data.dropWhile isWS).reverse.dropWhile isWS).reverse)⟩

/-- The renderer context, a JavaScript object with string values; keys are
unique by construction (`ctxInsert`). -/
abbrev Ctx : Type := List (String × String)

/-- Own-property lookup on the context object. -/
def ctxLookup (ctx : Ctx) (k : String) : Option String :=
  (List.find? (fun p => p.1 = k) ctx).map (fun p => p.2)

/-- JavaScript property assignment `ctx[k] = v`: overwrite if present,
append otherwise. -/
def ctxInsert (ctx : Ctx) (k v : String) : Ctx :=
  if List.any ctx (fun p => p.1 = k) then
    List.map (fun p => if p.1 = k then (k, v) else p) ctx
  else ctx ++ [(k, v)]

/-- `escapeHtml`'s per-character replacement table. -/
def escapeChar (c : Char) : List Char :=
  if c = '&' then "&amp;".data
  else if c = '<' then "&lt;".data
  else if c = '>' then "&gt;".data
  else if c = '"' then "&quot;".data
  else if c = apos then ("&#" ++ "39;").data
  else [c]

/-- `RegexRenderer.escapeHtml`. -/
def escapeHtml (s : String) : String :=
  ⟨s.data.flatMap escapeChar⟩

/-- Attempt the `([^\x7d]+)\x7d\x7d` part of the default pattern on the
input following two open braces: a nonempty run of non-close-brace characters
followed by two close braces.  Returns the inner run and the rest. -/
def splitVar (cs : List Char) : Option (List Char × List Char) :=
  if cs.takeWhile (fun c => c ≠ cbrace) = [] then none
  else
    match cs.drop (cs.takeWhile (fun c => c ≠ cbrace)).length with
    | c1 :: c2 :: rest2 =>
      if c1 = cbrace ∧ c2 = cbrace then
        some (cs.takeWhile (fun c => c ≠ cbrace), rest2)
      else none
    | _ => none

/-- A fragment of the template as the global regex scan sees it: a literal
character outside any match, or one full placeholder match with its raw
matched text and the trimmed identifier. -/
inductive Tok where
  | lit (c : Char)
  | ph (raw : List Char) (name : String)
deriving DecidableEq, Repr

/-- Fuel-indexed scanner (the fuel is only a structural-recursion device;
`scanT` supplies `cs.length`, which is always sufficient since every step
consumes at least one character). -/
def scanTF : Nat → List Char → List Tok
  | 0, _ => []
  | _ + 1, [] => []
  | _ + 1, [c] => [.lit c]
  | fuel + 1, c1 :: c2 :: rest =>
    if c1 = obrace ∧ c2 = obrace then
      match splitVar rest with
      | some (inner, rest2) =>
        .ph (obrace :: obrace :: (inner ++ [cbrace, cbrace]))
            (jsTrim ⟨inner⟩) :: scanTF fuel rest2
      | none => .lit c1 :: scanTF fuel (c2 :: rest)
    else .lit c1 :: scanTF fuel (c2 :: rest)

/-- The decomposition of a character list into literal characters and
placeholder matches, following the global-regex scan: try a match at the
current position; on success consume it, otherwise emit one character and
rescan from the next position. -/
def scanT (cs : List Char) : List Tok := scanTF cs.length cs

/-- The raw text a token stands for. -/
def tokText : Tok → List Char
  | .lit c => [c]
  | .ph raw _ => raw

/-- How `render` treats one token: context hit → value (escaped when
configured); miss → the raw matched text. -/
def renderTok (escape : Bool) (ctx : Ctx) : Tok → List Char
  | .lit c => [c]
  | .ph raw name =>
    match ctxLookup ctx name with
    | some v => if escape then (escapeHtml v).data else v.data
    | none => raw

/-- The missing-identifier contribution of one token. -/
def missingTok (ctx : Ctx) : Tok → List String
  | .lit _ => []
  | .ph _ name =>
    match ctxLookup ctx name with
    | some _ => []
    | none => [name]

/-- Fuel-indexed version of the replace pass (fuel is a structural-recursion
device; `renderScan` supplies the input length). -/
def renderScanF (strict escape : Bool) (ctx : Ctx) :
    Nat → List Char → List Char × List String
  | 0, _ => ([], [])
  | _ + 1, [] => ([], [])
  | _ + 1, [c] => ([c], [])
  | fuel + 1, c1 :: c2 :: rest =>
    if c1 = obrace ∧ c2 = obrace then
      match splitVar rest with
      | some (inner, rest2) =>
        let name := jsTrim ⟨inner⟩
        let raw := obrace :: obrace :: (inner ++ [cbrace, cbrace])
        let tail := renderScanF strict escape ctx fuel rest2
        match ctxLookup ctx name with
        | some v =>
          ((if escape then (escapeHtml v).data else v.data) ++ tail.1, tail.2)
        | none =>
          (raw ++ tail.1, (if strict then [name] else []) ++ tail.2)
      | none =>
        let tail := renderScanF strict escape ctx fuel (c2 :: rest)
        (c1 :: tail.1, tail.2)
    else
      let tail := renderScanF strict escape ctx fuel (c2 :: rest)
      (c1 :: tail.1, tail.2)

/-- The single pass of `template.replace(pattern, cb)` together with the
`missingVariables` accumulator (which the callback only pushes to in strict
mode). -/
def renderScan (strict escape : Bool) (ctx : Ctx) (cs : List Char) :
    List Char × List String :=
  renderScanF strict escape ctx cs.length cs

/-- `RegexRenderer.render`: empty templates are returned as-is; otherwise one
global replace pass runs, and strict mode throws one aggregated error when
identifiers were missing. -/
def render (strict escape : Bool) (template : String) (ctx : Ctx) :
    Except String String :=
  if template = "" then .ok template
  else
    let r := renderScan strict escape ctx template.data
    if strict ∧ r.2 ≠ [] then
      .error ("Missing variables in template: " ++ String.intercalate ", " r.2)
    else .ok ⟨r.1⟩

end Renderer

/-! ### The DOM model

The live tree is a rose tree of elements and text nodes.  Per the conventions
above, an element's `data-original-text` attribute is modelled by the `orig`
field holding the captured child forest (`innerHTML` capture/assignment is
serialize/parse, treated as the identity); all other attributes (in
particular `data-translation`) live in the string-valued `attrs` list.
Shadow roots are not modelled, so `collectTextNodesShadowDOM` contributes
nothing; a text node's `nodeValue` is never `null`. -/
inductive DNode where
  | text (s : String)
  | elem (tag : String) (attrs : List (String × String)) (orig : Option (List DNode))
      (children : List DNode)

namespace Dom

/-- A position in the tree: the list of child indices from the root. -/
abbrev Path := List Nat

/-- `getAttribute`: `none` models `null`. -/
def getAttr (attrs : List (String × String)) (k : String) : Option String :=
  (List.find? (fun a => a.1 = k) attrs).map (fun a => a.2)

/-- `setAttribute`: overwrite the existing attribute or append a new one. -/
def setAttr (attrs : List (String × String)) (k v : String) :
    List (String × String) :=
  if List.any attrs (fun a => a.1 = k) then
    List.map (fun a => if a.1 = k then (k, v) else a) attrs
  else attrs ++ [(k, v)]

/-- Whether a node serializes to the empty string: only an empty text node
does (an element always serializes to at least its tags). -/
def serializedEmptyNode : DNode → Bool
  | .text s => s = ""
  | .elem _ _ _ _ => false

/-- Whether a forest's `innerHTML` serialization is the empty string. -/
def serializedEmpty (ns : List DNode) : Bool := ns.all serializedEmptyNode

/-- JavaScript truthiness of `getAttribute("data-original-text")` under the
forest-valued modelling: `null` and `""` are falsy. -/
def origTruthy : Option (List DNode) → Bool
  | none => false
  | some f => !(serializedEmpty f)

/-- Resolve a path to the node it denotes, if any. -/
def getNode (t : DNode) : Path → Option DNode
  | [] => some t
  | i :: p =>
    match t with
    | .text _ => none
    | .elem _ _ _ cs =>
      match cs[i]? with
      | some c => getNode c p
      | none => none

/-- Replace the list entry at an index (identity when out of bounds). -/
def listModify (f : DNode → DNode) : List DNode → Nat → List DNode
  | [], _ => []
  | x :: xs, 0 => f x :: xs
  | x :: xs, n + 1 => x :: listModify f xs n

/-- Apply `f` to the node at a path (identity when the path is invalid). -/
def updateAt (f : DNode → DNode) : DNode → Path → DNode
  | t, [] => f t
  | .text s, _ :: _ => .text s
  | .elem tg a o cs, i :: p => .elem tg a o (listModify (updateAt f · p) cs i)

/-- The text value at a path, when it denotes a text node. -/
def textVal (t : DNode) (p : Path) : Option String :=
  match getNode t p with
  | some (.text s) => some s
  | _ => none

/-- The element-local data at a path: tag, attributes, stored original and
child count (the children themselves are reachable through longer paths). -/
def elemInfo (t : DNode) (p : Path) :
    Option (String × List (String × String) × Option (List DNode) × Nat) :=
  match getNode t p with
  | some (.elem tg a o cs) => some (tg, a, o, cs.length)
  | _ => none

/-- The child forest at a path, when it denotes an element. -/
def childrenAt (t : DNode) (p : Path) : Option (List DNode) :=
  match getNode t p with
  | some (.elem _ _ _ cs) => some cs
  | _ => none

/-- Whether the element at a path carries `data-translation="true"`. -/
def isMarkedAt (t : DNode) (p : Path) : Bool :=
  match getNode t p with
  | some (.elem _ a _ _) => getAttr a "data-translation" = some "true"
  | _ => false

mutual
/-- `textContent`: the concatenation of all text-node values in document
order. -/
def textContent : DNode → String
  | .text s => s
  | .elem _ _ _ cs => textContentF cs
def textContentF : List DNode → String
  | [] => ""
  | n :: ns => textContent n ++ textContentF ns
end

/-- Assign `nodeValue` at a text path. -/
def setTextAt (t : DNode) (p : Path) (v : String) : DNode :=
  updateAt (fun n => match n with | .text _ => .text v | n => n) t p

/-- Overwrite one attribute of the element at a path. -/
def setAttrAt (t : DNode) (p : Path) (k v : String) : DNode :=
  updateAt (fun n => match n with
    | .elem tg a o cs => .elem tg (setAttr a k v) o cs
    | n => n) t p

/-- Replace the child forest of the element at a path (`innerHTML`
assignment). -/
def setChildrenAt (t : DNode) (p : Path) (ns : List DNode) : DNode :=
  updateAt (fun n => match n with
    | .elem tg a o _ => .elem tg a o ns
    | n => n) t p

/-- `replaceChild(fragment, node)`: replace the `i`-th child of the element
at `pp` by a parsed fragment forest. -/
def spliceChildAt (t : DNode) (pp : Path) (i : Nat) (forest : List DNode) :
    DNode :=
  updateAt (fun n => match n with
    | .elem tg a o cs => .elem tg a o (cs.take i ++ forest ++ cs.drop (i + 1))
    | n => n) t pp

/-- The marking step of `updateTextNode` on the owning element: capture the
original child forest unless a truthy original is already stored, and set
`data-translation="true"`. -/
def markElemAt (t : DNode) (p : Path) : DNode :=
  updateAt (fun n => match n with
    | .elem tg a o cs =>
      .elem tg (setAttr a "data-translation" "true")
        (if origTruthy o then o else some cs) cs
    | n => n) t p

/-- List prefix test on paths. -/
def isPfxOfN : List Nat → List Nat → Bool
  | [], _ => true
  | _ :: _, [] => false
  | a :: as, b :: bs => a = b && isPfxOfN as bs

/-- Character-list prefix test. -/
def isPfxOfC : List Char → List Char → Bool
  | [], _ => true
  | _ :: _, [] => false
  | a :: as, b :: bs => a = b && isPfxOfC as bs

/-- Substring containment on character lists (`String.prototype.includes`). -/
def containsSub (pat : List Char) : List Char → Bool
  | [] => isPfxOfC pat []
  | c :: rest => isPfxOfC pat (c :: rest) || containsSub pat rest

/-- The rich-markup signature `updateTextNode` looks for. -/
def spanSig : String := "<span class=\"translated-term\""

/-- `translatedText.includes(spanSig)`. -/
def hasSpanSig (s : String) : Bool := containsSub spanSig.data s.data

/-- `PageTranslator.updateTextNode`: when the node has a parent and the new
text differs, first (unless `isTranslated`) capture the parent's original
content and mark it translated, then write the content — splicing a parsed
fragment in place of the text node when the text carries the rich-markup
signature, else assigning `nodeValue`.  `pf` is the browser's HTML-fragment
parser. -/
def updateTextNode (pf : String → List DNode) (t : DNode) (p : Path)
    (translatedText : String) (isTranslated : Bool) : DNode :=
  match textVal t p with
  | some old =>
    if p ≠ [] ∧ old ≠ translatedText then
      let t1 := if isTranslated then t else markElemAt t p.dropLast
      if hasSpanSig translatedText then
        spliceChildAt t1 p.dropLast (p.getLastD 0) (pf translatedText)
      else setTextAt t1 p translatedText
    else t
  | none => t

/-- The skip set of container tags whose text is never translated. -/
def SKIP_TAGS : List String :=
  ["SCRIPT", "STYLE", "NOSCRIPT", "TEXTAREA", "CODE", "PRE", "INPUT",
   "BUTTON", "SELECT", "OPTION"]

/-- The `\p\x7bL\x7d` letter test, modelled on the ASCII fragment. -/
def hasLetter (s : String) : Bool := s.data.any Char.isAlpha

/-- `PageTranslator.normalizeText`. -/
def normalizeStr (s : String) : String := Renderer.jsTrim s

/-- `PageTranslator.acceptTextNodeFilter`, as a predicate on the owning
element's tag and attributes and the node's text: reject skip-listed tags,
reject owners currently marked `data-translation="true"` (an explicit
`"false"` is eligible again), and require trimmed text that is nonempty and
contains a letter. -/
def acceptTextNodeFilter (tag : String) (attrs : List (String × String))
    (s : String) : Bool :=
  if SKIP_TAGS.contains tag then false
  else if getAttr attrs "data-translation" = some "true" then false
  else
    (normalizeStr s ≠ "") && hasLetter (normalizeStr s)

mutual
/-- `collectTextNodes`' tree walk: visit every text node in document order
and keep those accepted relative to their immediate owning element.  (The
shadow-DOM pass contributes nothing in this model.) -/
def collectNode (pfx : Path) (i : Nat) (ptag : String)
    (pattrs : List (String × String)) : DNode → List Path
  | .text s => if acceptTextNodeFilter ptag pattrs s then [pfx ++ [i]] else []
  | .elem tg a _ cs => collectForest (pfx ++ [i]) 0 tg a cs
def collectForest (pfx : Path) (i : Nat) (ptag : String)
    (pattrs : List (String × String)) : List DNode → List Path
  | [] => []
  | n :: ns => collectNode pfx i ptag pattrs n ++ collectForest pfx (i + 1) ptag pattrs ns
end

/-- `PageTranslator.collectTextNodes` on a root element. -/
def collectTextNodes (root : DNode) : List Path :=
  match root with
  | .text _ => []
  | .elem tg a _ cs => collectForest [] 0 tg a cs

mutual
/-- The `querySelectorAll` walk selecting elements with
`data-translation="true"`, in document (pre-)order. -/
def markedNode (pfx : Path) (i : Nat) : DNode → List Path
  | .text _ => []
  | .elem _ a _ cs =>
    (if getAttr a "data-translation" = some "true" then [pfx ++ [i]] else [])
      ++ markedForest (pfx ++ [i]) 0 cs
def markedForest (pfx : Path) (i : Nat) : List DNode → List Path
  | [] => []
  | n :: ns => markedNode pfx i n ++ markedForest pfx (i + 1) ns
end

/-- The marked strict descendants of the root (the root element itself is
never selected by `querySelectorAll` on itself). -/
def markedDescPaths (root : DNode) : List Path :=
  match root with
  | .text _ => []
  | .elem _ _ _ cs => markedForest [] 0 cs

mutual
/-- `findTextNodeInElement`'s walker: the first text node inside a forest,
in document order, as a relative path. -/
def firstTextNode (i : Nat) : DNode → Option Path
  | .text _ => some [i]
  | .elem _ _ _ cs => (firstTextForest 0 cs).map (fun q => i :: q)
def firstTextForest (i : Nat) : List DNode → Option Path
  | [] => none
  | n :: ns =>
    match firstTextNode i n with
    | some q => some q
    | none => firstTextForest (i + 1) ns
end

/-- `term.template.replaceAll("\x7b\x7b", "")`. -/
def stripOpen : List Char → List Char
  | c1 :: c2 :: rest =>
    if c1 = Renderer.obrace ∧ c2 = Renderer.obrace then stripOpen rest
    else c1 :: stripOpen (c2 :: rest)
  | [c] => [c]
  | [] => []

/-- `.replaceAll("\x7d\x7d", "")` applied to the result of `stripOpen`. -/
def stripClose : List Char → List Char
  | c1 :: c2 :: rest =>
    if c1 = Renderer.cbrace ∧ c2 = Renderer.cbrace then stripClose rest
    else c1 :: stripClose (c2 :: rest)
  | [c] => [c]
  | [] => []

/-- The context key derived from an entry's placeholder template:
`term.template.replaceAll("\x7b\x7b", "").replaceAll("\x7d\x7d", "")`. -/
def templateKey (s : String) : String := ⟨stripClose (stripOpen s.data)⟩

/-- The substitution context built by `applyTermsReplacement`: for every
entry over every category whose translation is nonempty and differs from the
original, bind the stripped template key to the translation (later bindings
overwrite earlier ones, as JavaScript object assignment does). -/
def buildContext (cats : List Category) : Renderer.Ctx :=
  cats.foldl (fun ctx c =>
    c.terms.foldl (fun ctx t =>
      if t.translated ≠ "" ∧ t.translated ≠ t.original then
        Renderer.ctxInsert ctx (templateKey t.template) t.translated
      else ctx) ctx) []

/-- `PageTranslator.applyTermsReplacement`: render the text as a template
against the glossary context with the default (non-strict, non-escaping)
renderer; any rendering failure falls back to the unmodified text. -/
def applyTermsReplacement (cats : List Category) (text : String) : String :=
  match Renderer.render false false text (buildContext cats) with
  | .ok s => s
  | .error _ => text

/-- One iteration of `applyTermsReplacementToAllNodes`' `forEach`: find the
first text node inside the marked element and rewrite it (as
already-translated content, so no re-marking) with the glossary
substitution applied to its current value. -/
def applyReplacementStep (pf : String → List DNode) (cats : List Category)
    (t : DNode) (q : Path) : DNode :=
  match childrenAt t q with
  | some cs =>
    match firstTextForest 0 cs with
    | some rel =>
      updateTextNode pf t (q ++ rel)
        (applyTermsReplacement cats ((textVal t (q ++ rel)).getD "")) true
    | none => t
  | none => t

/-- `PageTranslator.applyTermsReplacementToAllNodes`: over the static list of
currently marked elements, apply the glossary substitution to each one's
first text node. -/
def applyTermsReplacementToAllNodes (pf : String → List DNode)
    (cats : List Category) (root : DNode) : DNode :=
  (markedDescPaths root).foldl (applyReplacementStep pf cats) root

/-- One iteration of `restoreOriginalTextFromDataAttributes`' `forEach` over
the static marked-element list: an element below an already-restored one was
detached by that restore, so mutating it does not affect the tree; otherwise,
when the stored original is truthy, assign it back as the element's content
and flip the flag to `"false"` (the stored original is retained). -/
def restoreStep (acc : DNode × List Path) (p : Path) : DNode × List Path :=
  if acc.2.any (fun q => q ≠ p ∧ isPfxOfN q p) then acc
  else
    match getNode acc.1 p with
    | some (.elem _ _ o _) =>
      if origTruthy o then
        (setAttrAt (setChildrenAt acc.1 p (o.getD [])) p "data-translation"
          "false", p :: acc.2)
      else acc
    | _ => acc

/-- `PageTranslator.restoreOriginalTextFromDataAttributes` on a root: restore
every marked strict descendant from its stored original content. -/
def restoreFromDataAttributes (root : DNode) : DNode :=
  ((markedDescPaths root).foldl restoreStep (root, [])).1

/-- `PageTranslator.restoreOriginalText` (public entry). -/
def restoreOriginalText (root : DNode) : DNode :=
  restoreFromDataAttributes root

/-! ### The translation session -/
/-- `Translator.translateText`'s result: translated text, newly discovered
terms and usage (an absent usage is the zero usage). -/
structure TransOut where
  translatedText : String
  terms : List Terms
  usage : TokenUsage

/-- The external translator capability.  The contextual arguments of
`translateText` (sibling texts, the full-page text list, the glossary
snapshot) only feed the external model, so behaviour is modelled as a
function of the node's text; a rejected promise is `.error` carrying the
error message. -/
structure MTranslator where
  translateText : String → Except String TransOut
  translateTerms : Category → Except String (Category × TokenUsage)

/-- The engine's mutable state during one session. -/
structure SessState where
  tree : DNode
  terms : List Category
  usage : TokenUsage

/-- The value of one settled per-node promise in a batch. -/
structure NodeResult where
  success : Bool
  currentText : String
  translatedText : Option String
  error : Option String
  usage : TokenUsage

/-- One progress snapshot (`TranslationProgress`). -/
structure Progress where
  current : Nat
  total : Nat
  currentText : Option String
  translatedText : Option String
  usage : TokenUsage
  error : Option String
deriving DecidableEq, Repr

/-- The terminal result of a session (`TranslationResult`). -/
structure TransResult where
  terms : List Category
  totalUsage : TokenUsage

def MIN_TEXT_LENGTH : Nat := 2

def DEFAULT_BATCH_SIZE : Nat := 5

/-- `PageTranslator.translateNewTerms`: immediately translate the just-added,
still-untranslated terms of the `"General"` category; on success replace the
category with the translator's update, accumulate usage and re-apply the
glossary to all translated nodes.  Failures are caught and ignored. -/
def translateNewTermsStep (pf : String → List DNode) (tr : MTranslator)
    (st : SessState) (newTerms : List Terms) : SessState :=
  if newTerms = [] then st
  else
    match st.terms.findIdx? (fun c => c.name = "General") with
    | none => st
    | some gi =>
      match st.terms[gi]? with
      | none => st
      | some g =>
        if g.terms.filter (fun t =>
            (newTerms.any (fun n => n.original = t.original)) &&
              (t.translated = "")) = [] then st
        else
          match tr.translateTerms g with
          | .error _ => st
          | .ok (upd, u) =>
            let terms2 := st.terms.set gi upd
            { tree := applyTermsReplacementToAllNodes pf terms2 st.tree,
              terms := terms2, usage := st.usage.add u }

/-- Processing of one node inside a batch (the per-node async closure of
`translate`): skip short texts; otherwise call the translator and, on
success, merge discovered terms (re-rendering marked nodes when the glossary
grew, then immediately translating the new terms), accumulate usage and
write the translated text into the DOM; on rejection leave all state
untouched and record the error message. -/
def processNode (pf : String → List DNode) (tr : MTranslator)
    (st : SessState) (p : Path) : SessState × NodeResult :=
  let currentText := Renderer.jsTrim ((textVal st.tree p).getD "")
  if currentText = "" ∨ currentText.length < MIN_TEXT_LENGTH then
    (st, { success := true, currentText, translatedText := some currentText,
           error := none, usage := TokenUsage.zero })
  else
    match tr.translateText currentText with
    | .error e =>
      (st, { success := false, currentText, translatedText := none,
             error := some e, usage := TokenUsage.zero })
    | .ok out =>
      let st1 :=
        if out.terms ≠ [] then
          let r := Glossary.addNewTerms st.terms out.terms
          let stA : SessState := { st with terms := r.1 }
          let stB :=
            if r.2 then
              { stA with
                tree := applyTermsReplacementToAllNodes pf stA.terms stA.tree }
            else stA
          translateNewTermsStep pf tr stB out.terms
        else st
      let st2 : SessState := { st1 with usage := st1.usage.add out.usage }
      let st3 : SessState :=
        { st2 with tree := updateTextNode pf st2.tree p out.translatedText false }
      (st3, { success := true, currentText,
              translatedText := some out.translatedText, error := none,
              usage := out.usage })

/-- Settle one batch: the per-node closures run between the event loop's
interleaving points, which serializes their state effects in batch order;
`Promise.allSettled` preserves input order in its result list. -/
def processBatch (pf : String → List DNode) (tr : MTranslator)
    (st : SessState) (batch : List Path) : SessState × List NodeResult :=
  batch.foldl (fun acc p =>
    let r := processNode pf tr acc.1 p
    (r.1, acc.2 ++ [r.2])) (st, [])

/-- Fuel-indexed batch splitting (`for (let i = 0; i < n; i += batchSize)`),
fuel being a structural-recursion device; meaningful for positive batch
sizes. -/
def chunkListF : Nat → Nat → List Path → List (List Path)
  | 0, _, _ => []
  | _ + 1, _, [] => []
  | fuel + 1, B, x :: xs => (x :: xs).take B :: chunkListF fuel B ((x :: xs).drop B)

/-- Split the node list into consecutive batches of size `B`. -/
def chunkList (B : Nat) (l : List Path) : List (List Path) :=
  chunkListF l.length B l

/-- Run the batches in order, yielding one snapshot per node after each batch
settles, in the batch's input order, with the running `completedCount` and
the usage accumulated up to the end of that batch. -/
def runBatches (pf : String → List DNode) (tr : MTranslator) (total : Nat) :
    SessState → Nat → List (List Path) → SessState × List Progress
  | st, _, [] => (st, [])
  | st, c, b :: bs =>
    let pr := processBatch pf tr st b
    let snaps := pr.2.enum.map (fun ir =>
      { current := c + ir.1 + 1, total := total,
        currentText := some ir.2.currentText,
        translatedText := ir.2.translatedText, usage := pr.1.usage,
        error := ir.2.error : Progress })
    let rest := runBatches pf tr total pr.1 (c + pr.2.length) bs
    (rest.1, snaps ++ rest.2)

/-- `PageTranslator.translateAllTerms`: for every category still holding an
untranslated entry, call the term translator; on success overwrite the
category in place and accumulate usage; a per-category failure is logged and
skipped. -/
def translateAllTerms (tr : MTranslator) (st : SessState) : SessState :=
  (List.range st.terms.length).foldl (fun st i =>
    match st.terms[i]? with
    | none => st
    | some cat =>
      if cat.terms.filter (fun t => t.translated = "") = [] then st
      else
        match tr.translateTerms cat with
        | .error _ => st
        | .ok (upd, u) =>
          ({ st with
             terms := st.terms.set i upd,
             usage := st.usage.add u } : SessState)) st

/-- `PageTranslator.translate`, run to completion: collect the nodes, emit
the initial snapshot, process all batches, reconcile the remaining terms,
re-apply the glossary to every marked element, and return the final glossary
and total usage. -/
def translate (pf : String → List DNode) (tr : MTranslator)
    (seed : List Category) (B : Nat) (root : DNode) :
    SessState × List Progress × TransResult :=
  let refs := collectTextNodes root
  let st0 : SessState := { tree := root, terms := seed, usage := TokenUsage.zero }
  let init : Progress :=
    { current := 0, total := refs.length, currentText := none,
      translatedText := none, usage := st0.usage, error := none }
  let br := runBatches pf tr refs.length st0 0 (chunkList B refs)
  let st2 := translateAllTerms tr br.1
  let stF : SessState :=
    { st2 with tree := applyTermsReplacementToAllNodes pf st2.terms st2.tree }
  (stF, init :: br.2, { terms := stF.terms, totalUsage := stF.usage })

/-- A session stopped by its consumer after `j` per-node snapshots were
consumed: the generator is suspended at a yield inside the batch containing
node `j - 1`, whose effects have already settled, and `generator.return()`
finishes it there — so exactly the first `⌈j / B⌉` batches run and neither
the term-reconciliation pass nor the final re-application pass is reached. -/
def translateCancelled (pf : String → List DNode) (tr : MTranslator)
    (seed : List Category) (B : Nat) (root : DNode) (j : Nat) :
    SessState × List Progress :=
  let refs := collectTextNodes root
  let st0 : SessState := { tree := root, terms := seed, usage := TokenUsage.zero }
  let init : Progress :=
    { current := 0, total := refs.length, currentText := none,
      translatedText := none, usage := st0.usage, error := none }
  let br := runBatches pf tr refs.length st0 0
    ((chunkList B refs).take ((j + B - 1) / B))
  (br.1, init :: br.2)

/-- The owning element's tag and attributes for the node at a path. -/
def ownerData (root : DNode) (q : Path) :
    Option (String × List (String × String)) :=
  match elemInfo root q.dropLast with
  | some (tg, a, _, _) => some (tg, a)
  | none => none

/-- The collector postcondition carried through the tree walk. -/
def CollectOk (root : DNode) (q : Path) : Prop :=
  ∃ s tg a, textVal root q = some s ∧ ownerData root q = some (tg, a) ∧
    acceptTextNodeFilter tg a s = true

/-- Validity of a selected marked element: it denotes an element carrying
`data-translation="true"`. -/
def MarkedOk (root : DNode) (q : Path) : Prop :=
  ∃ tg a o cs, getNode root q = some (.elem tg a o cs) ∧
    getAttr a "data-translation" = some "true"

/-- Path prefix as a proposition. -/
def PIsPfx (p q : Path) : Prop := ∃ r, q = p ++ r

/-- Element-local attribute updates (the updaters of `markElemAt` and
`setAttrAt`): text nodes fixed, elements keep tag and children. -/
def AttrsLocal (f : DNode → DNode) : Prop :=
  (∀ s, f (.text s) = .text s) ∧
  (∀ tg a o cs, ∃ a2 o2, f (.elem tg a o cs) = .elem tg a2 o2 cs)

mutual
/-- Structural (tag/skeleton) equality of trees, ignoring attributes, stored
originals and text values. -/
def shapeEqB : DNode → DNode → Bool
  | .text _, .text _ => true
  | .elem tg _ _ cs, .elem tg2 _ _ cs2 => tg = tg2 && shapeForestB cs cs2
  | _, _ => false
def shapeForestB : List DNode → List DNode → Bool
  | [], [] => true
  | n :: ns, m :: ms => shapeEqB n m && shapeForestB ns ms
  | _, _ => false
end

/-- No `<` character occurs in the string: such text never triggers the
rich-markup splice branch of `updateTextNode`. -/
def NoLt (s : String) : Prop := ∀ c ∈ s.data, c ≠ '<'

/-- Every glossary translation value is `<`-free. -/
def TermsNoLt (cats : List Category) : Prop :=
  ∀ cat ∈ cats, ∀ tm ∈ cat.terms, NoLt tm.translated

mutual
/-- A node fit for translation: no `data-translation` attribute anywhere and
no stored original content (the document as the content script first sees
it). -/
def cleanNode : DNode → Bool
  | .text _ => true
  | .elem _ a o cs =>
    (getAttr a "data-translation" = none : Bool) && o.isNone && cleanForest cs
def cleanForest : List DNode → Bool
  | [] => true
  | n :: ns => cleanNode n && cleanForest ns
end

mutual
/-- No text anywhere in the tree contains `<`. -/
def noLtNode : DNode → Bool
  | .text s => s.data.all (fun c => c ≠ '<')
  | .elem _ _ _ cs => noLtForest cs
def noLtForest : List DNode → Bool
  | [] => true
  | n :: ns => noLtNode n && noLtForest ns
end

/-- The owning-element paths of the collected text nodes. -/
def Owners (t : DNode) : List Path := (collectTextNodes t).map (fun p => p.dropLast)

/-- No owning element is an ancestor of (or equal to) a distinct owning
element: each translated text has a private owner. -/
def HNN (t : DNode) : Prop :=
  ∀ q ∈ Owners t, ∀ q2 ∈ Owners t, q ≠ q2 → isPfxOfN q q2 = false

/-- No collected text node is owned by the root element itself. -/
def HNR (t : DNode) : Prop := ∀ q ∈ Owners t, q ≠ []

/-- The well-behaved class of pages for which the spec's session round-trip
properties hold: a clean tree (no leftover markers), `<`-free text, no
root-owned text node and non-nested owners. -/
def SessionOk (t : DNode) : Prop :=
  cleanNode t = true ∧ noLtNode t = true ∧ HNR t ∧ HNN t

/-- A translator whose outputs never introduce raw markup: the translated
texts and the discovered/updated glossary translations are `<`-free. -/
def TrOk (tr : MTranslator) : Prop :=
  (∀ s out, tr.translateText s = Except.ok out →
    NoLt out.translatedText ∧ ∀ tm ∈ out.terms, NoLt tm.translated) ∧
  (∀ c r, tr.translateTerms c = Except.ok r →
    ∀ tm ∈ r.1.terms, NoLt tm.translated)

/-- The session invariant tying the engine's working tree `T` back to the
original document `t0`: `M` is the set of elements marked so far (owners of
already-processed text nodes, listed in `pOwn`); marked elements carry the
flag and the captured original children, every other element is untouched,
and only texts below a marked element may have changed (to `<`-free
values). -/
structure Inv (t0 : DNode) (pOwn : List Path) (M : List Path) (T : DNode) :
    Prop where
  shape : shapeEqB T t0 = true
  omem : ∀ q ∈ M, q ∈ pOwn
  mark : ∀ q ∈ M, ∀ tg a o k, elemInfo t0 q = some (tg, a, o, k) →
    elemInfo T q =
      some (tg, setAttr a "data-translation" "true", childrenAt t0 q, k)
  unmark : ∀ e, e ∉ M → elemInfo T e = elemInfo t0 e
  texts : ∀ r s, textVal t0 r = some s →
    textVal T r = some s ∨
      ∃ q ∈ M, isPfxOfN q r = true ∧ ∃ s2, textVal T r = some s2 ∧ NoLt s2

/-- The session state reached by `translate` after the batches and the final
term reconciliation, just before the closing re-application pass (the
`this.translateAllTerms()` call site). -/
def translatePre (pf : String → List DNode) (tr : MTranslator)
    (seed : List Category) (B : Nat) (root : DNode) : SessState :=
  translateAllTerms tr
    (runBatches pf tr (collectTextNodes root).length
      { tree := root, terms := seed, usage := TokenUsage.zero } 0
      (chunkList B (collectTextNodes root))).1

/-- The partial-restore invariant: elements in `done` have been restored to
their original children with the flag set `"false"`, the rest of `M` still
carries the translated marking, everything outside `M` is untouched, and
texts differ from the original only below a not-yet-restored marked
element. -/
structure RInv (t0 : DNode) (M : List Path) (done : List Path) (C : DNode) :
    Prop where
  shape : shapeEqB C t0 = true
  rest : ∀ q ∈ done, ∀ tg a o cs, getNode t0 q = some (.elem tg a o cs) →
    getNode C q =
      some (.elem tg (setAttr a "data-translation" "false") (some cs) cs)
  unrest : ∀ q ∈ M, q ∉ done → ∀ tg a o k,
    elemInfo t0 q = some (tg, a, o, k) →
    elemInfo C q =
      some (tg, setAttr a "data-translation" "true", childrenAt t0 q, k)
  outside : ∀ e, e ∉ M → elemInfo C e = elemInfo t0 e
  texts : ∀ r s, textVal t0 r = some s →
    textVal C r = some s ∨
      ∃ q ∈ M, q ∉ done ∧ isPfxOfN q r = true ∧ (textVal C r).isSome = true
  doneM : ∀ q ∈ done, q ∈ M

end Dom

namespace Renderer

theorem splitVar_length {cs : List Char} {p : List Char × List Char}
    (h : splitVar cs = some p) : p.2.length + 2 ≤ cs.length := by
  unfold splitVar at h
  by_cases hi : cs.takeWhile (fun c => c ≠ cbrace) = []
  · rw [if_pos hi] at h; exact absurd h (by simp)
  · rw [if_neg hi] at h
    cases hd : cs.drop (cs.takeWhile (fun c => c ≠ cbrace)).length with
    | nil => rw [hd] at h; exact absurd h (by simp)
    | cons c1 tl =>
      cases tl with
      | nil => rw [hd] at h; exact absurd h (by simp)
      | cons c2 rest2 =>
        rw [hd] at h
        dsimp only at h
        by_cases hb : c1 = cbrace ∧ c2 = cbrace
        · rw [if_pos hb] at h
          have hp : p.2 = rest2 := by
            have := Option.some.inj h
            rw [← this]
          have hlen := congrArg List.length hd
          rw [List.length_drop] at hlen
          simp only [List.length_cons] at hlen
          have htw : (cs.takeWhile (fun c => c ≠ cbrace)).length ≤ cs.length :=
            (List.takeWhile_sublist _).length_le
          rw [hp]
          omega
        · rw [if_neg hb] at h; exact absurd h (by simp)

theorem scanTF_eq_of_le (f g : Nat) (cs : List Char)
    (hf : cs.length ≤ f) (hg : cs.length ≤ g) : scanTF f cs = scanTF g cs := by
  induction f generalizing g cs with
  | zero =>
    have : cs = [] := List.length_eq_zero.mp (Nat.le_zero.mp hf)
    subst this
    cases g <;> rfl
  | succ f ih =>
    cases g with
    | zero =>
      have : cs = [] := List.length_eq_zero.mp (Nat.le_zero.mp hg)
      subst this; rfl
    | succ g =>
      match cs with
      | [] => rfl
      | [c] => rfl
      | c1 :: c2 :: rest =>
        simp at hf hg
        unfold scanTF
        by_cases hb : c1 = obrace ∧ c2 = obrace
        · rw [if_pos hb, if_pos hb]
          cases hs : splitVar rest with
          | some p =>
            obtain ⟨inner, rest2⟩ := p
            have hl := splitVar_length hs
            simp at hl
            dsimp only
            rw [ih g rest2 (by omega) (by omega)]
          | none =>
            dsimp only
            rw [ih g (c2 :: rest) (by simp; omega) (by simp; omega)]
        · rw [if_neg hb, if_neg hb]
          rw [ih g (c2 :: rest) (by simp; omega) (by simp; omega)]

theorem scanTF_fuel (f : Nat) (cs : List Char) (h : cs.length ≤ f) :
    scanTF f cs = scanT cs :=
  scanTF_eq_of_le f cs.length cs h le_rfl

theorem scanT_nil : scanT [] = [] := rfl

theorem scanT_single (c : Char) : scanT [c] = [.lit c] := rfl

theorem scanT_cons2 (c1 c2 : Char) (rest : List Char) :
    scanT (c1 :: c2 :: rest) =
      if c1 = obrace ∧ c2 = obrace then
        match splitVar rest with
        | some (inner, rest2) =>
          .ph (obrace :: obrace :: (inner ++ [cbrace, cbrace]))
              (jsTrim ⟨inner⟩) :: scanT rest2
        | none => .lit c1 :: scanT (c2 :: rest)
      else .lit c1 :: scanT (c2 :: rest) := by
  show scanTF (rest.length + 2) _ = _
  unfold scanTF
  by_cases hb : c1 = obrace ∧ c2 = obrace
  · rw [if_pos hb, if_pos hb]
    cases hs : splitVar rest with
    | some p =>
      obtain ⟨inner, rest2⟩ := p
      have hl := splitVar_length hs
      simp at hl
      dsimp only
      rw [scanTF_fuel _ _ (by omega)]
    | none =>
      dsimp only
      rw [scanTF_fuel _ _ (by simp)]
  · rw [if_neg hb, if_neg hb]
    rw [scanTF_fuel _ _ (by simp)]

theorem renderScanF_eq_of_le (strict escape : Bool) (ctx : Ctx) (f g : Nat)
    (cs : List Char) (hf : cs.length ≤ f) (hg : cs.length ≤ g) :
    renderScanF strict escape ctx f cs = renderScanF strict escape ctx g cs := by
  induction f generalizing g cs with
  | zero =>
    have : cs = [] := List.length_eq_zero.mp (Nat.le_zero.mp hf)
    subst this
    cases g <;> rfl
  | succ f ih =>
    cases g with
    | zero =>
      have : cs = [] := List.length_eq_zero.mp (Nat.le_zero.mp hg)
      subst this; rfl
    | succ g =>
      match cs with
      | [] => rfl
      | [c] => rfl
      | c1 :: c2 :: rest =>
        simp at hf hg
        unfold renderScanF
        by_cases hb : c1 = obrace ∧ c2 = obrace
        · rw [if_pos hb, if_pos hb]
          cases hs : splitVar rest with
          | some p =>
            obtain ⟨inner, rest2⟩ := p
            have hl := splitVar_length hs
            simp at hl
            dsimp only
            rw [ih g rest2 (by omega) (by omega)]
          | none =>
            dsimp only
            rw [ih g (c2 :: rest) (by simp; omega) (by simp; omega)]
        · rw [if_neg hb, if_neg hb]
          rw [ih g (c2 :: rest) (by simp; omega) (by simp; omega)]

theorem renderScanF_fuel (strict escape : Bool) (ctx : Ctx) (f : Nat)
    (cs : List Char) (h : cs.length ≤ f) :
    renderScanF strict escape ctx f cs = renderScan strict escape ctx cs :=
  renderScanF_eq_of_le strict escape ctx f cs.length cs h le_rfl

theorem renderScan_nil (strict escape : Bool) (ctx : Ctx) :
    renderScan strict escape ctx [] = ([], []) := rfl

theorem renderScan_single (strict escape : Bool) (ctx : Ctx) (c : Char) :
    renderScan strict escape ctx [c] = ([c], []) := rfl

theorem renderScan_cons2 (strict escape : Bool) (ctx : Ctx) (c1 c2 : Char)
    (rest : List Char) :
    renderScan strict escape ctx (c1 :: c2 :: rest) =
      if c1 = obrace ∧ c2 = obrace then
        match splitVar rest with
        | some (inner, rest2) =>
          let name := jsTrim ⟨inner⟩
          let raw := obrace :: obrace :: (inner ++ [cbrace, cbrace])
          let tail := renderScan strict escape ctx rest2
          match ctxLookup ctx name with
          | some v =>
            ((if escape then (escapeHtml v).data else v.data) ++ tail.1, tail.2)
          | none =>
            (raw ++ tail.1, (if strict then [name] else []) ++ tail.2)
        | none =>
          let tail := renderScan strict escape ctx (c2 :: rest)
          (c1 :: tail.1, tail.2)
      else
        let tail := renderScan strict escape ctx (c2 :: rest)
        (c1 :: tail.1, tail.2) := by
  show renderScanF strict escape ctx (rest.length + 2) _ = _
  unfold renderScanF
  by_cases hb : c1 = obrace ∧ c2 = obrace
  · rw [if_pos hb, if_pos hb]
    cases hs : splitVar rest with
    | some p =>
      obtain ⟨inner, rest2⟩ := p
      have hl := splitVar_length hs
      simp at hl
      dsimp only
      rw [renderScanF_fuel _ _ _ _ _ (by omega)]
    | none =>
      dsimp only
      rw [renderScanF_fuel _ _ _ _ _ (by simp)]
  · rw [if_neg hb, if_neg hb]
    rw [renderScanF_fuel _ _ _ _ _ (by simp)]

end Renderer

namespace Glossary

theorem totalCount_nil : totalCount [] = 0 := rfl

theorem totalCount_append (a b : List Category) :
    totalCount (a ++ b) = totalCount a + totalCount b := by
  simp [totalCount]

theorem totalCount_set (cs : List Category) (i : Nat) (g g2 : Category)
    (h : cs[i]? = some g) :
    totalCount (cs.set i g2) + g.terms.length
      = totalCount cs + g2.terms.length := by
  induction cs generalizing i with
  | nil => simp at h
  | cons c cs ih =>
    cases i with
    | zero =>
      simp at h
      subst h
      simp [totalCount, List.set]
      omega
    | succ n =>
      simp at h
      have := ih n h
      simp [totalCount, List.set] at this ⊢
      omega

theorem unique_set (cs : List Category) (i : Nat) (g2 : Category)
    (h : UniqueOriginals cs) (h2 : (g2.terms.map Terms.original).Nodup) :
    UniqueOriginals (cs.set i g2) := by
  intro c hc
  rcases List.mem_or_eq_of_mem_set hc with h3 | h3
  · exact h c h3
  · subst h3; exact h2

theorem insertTerm_unique (gIdx : Nat) (acc : List Category × Bool) (t : Terms)
    (h : UniqueOriginals acc.1) :
    UniqueOriginals (insertTerm gIdx acc t).1 := by
  unfold insertTerm
  cases hg : acc.1[gIdx]? with
  | none => exact h
  | some g =>
    by_cases hex : g.terms.any (fun u => u.original = t.original)
    · simp [hex]; exact h
    · simp [hex]
      refine unique_set _ _ _ h ?_
      have hmem : g ∈ acc.1 := List.getElem?_mem hg
      have hnd := h g hmem
      simp [List.any_eq_true] at hex
      simp [List.nodup_append, hnd]
      intro u hu hue
      exact hex u hu hue

theorem insertTerm_count (gIdx : Nat) (acc : List Category × Bool) (t : Terms)
    (h : (acc.2 = true) ↔ totalCount acc.1 > n)
    (h2 : totalCount acc.1 ≥ n) :
    ((insertTerm gIdx acc t).2 = true
        ↔ totalCount (insertTerm gIdx acc t).1 > n) ∧
      totalCount (insertTerm gIdx acc t).1 ≥ n := by
  unfold insertTerm
  cases hg : acc.1[gIdx]? with
  | none => exact ⟨h, h2⟩
  | some g =>
    by_cases hex : g.terms.any (fun u => u.original = t.original)
    · simp [hex]; exact ⟨h, h2⟩
    · simp [hex]
      have hcnt := totalCount_set acc.1 gIdx g
        { g with terms := g.terms ++ [t] } hg
      simp at hcnt
      omega

theorem foldl_insertTerm_unique (ts : List Terms) (gIdx : Nat)
    (acc : List Category × Bool) (h : UniqueOriginals acc.1) :
    UniqueOriginals (ts.foldl (insertTerm gIdx) acc).1 := by
  induction ts generalizing acc with
  | nil => exact h
  | cons t ts ih => exact ih _ (insertTerm_unique gIdx acc t h)

theorem foldl_insertTerm_count (ts : List Terms) (gIdx : Nat) (n : Nat)
    (acc : List Category × Bool)
    (h : (acc.2 = true) ↔ totalCount acc.1 > n)
    (h2 : totalCount acc.1 ≥ n) :
    ((ts.foldl (insertTerm gIdx) acc).2 = true
        ↔ totalCount (ts.foldl (insertTerm gIdx) acc).1 > n) := by
  induction ts generalizing acc with
  | nil => exact h
  | cons t ts ih =>
    have := insertTerm_count gIdx acc t h h2
    exact ih _ this.1 this.2

theorem addNewTerms_unique (cats : List Category) (ts : List Terms)
    (h : UniqueOriginals cats) :
    UniqueOriginals (addNewTerms cats ts).1 := by
  unfold addNewTerms
  by_cases hts : ts = []
  · simp [hts]; exact h
  · simp [hts]
    cases hidx : cats.findIdx? (fun c => c.name = "General") with
    | some i =>
      simp
      exact foldl_insertTerm_unique ts i (cats, false) h
    | none =>
      simp
      refine foldl_insertTerm_unique ts cats.length _ ?_
      intro c hc
      simp at hc
      rcases hc with hc | hc
      · exact h c hc
      · subst hc; simp

theorem addNewTerms_callback (cats : List Category) (ts : List Terms) :
    (addNewTerms cats ts).2 = true
      ↔ totalCount cats < totalCount (addNewTerms cats ts).1 := by
  unfold addNewTerms
  by_cases hts : ts = []
  · simp [hts]
  · simp [hts]
    cases hidx : cats.findIdx? (fun c => c.name = "General") with
    | some i =>
      simp
      exact foldl_insertTerm_count ts i (totalCount cats) (cats, false)
        (by simp) (by simp)
    | none =>
      simp
      refine foldl_insertTerm_count ts cats.length (totalCount cats) _ ?_ ?_
      · simp [totalCount_append, totalCount]
      · simp [totalCount_append, totalCount]

end Glossary

/-! ### Claim theorems -/
/-- C3 — Glossary uniqueness invariant: starting from a glossary in which no
category holds two entries with the same `original`, any sequence of
`addNewTerms` calls preserves that invariant (so adding the same `original`
in any two calls inserts at most one entry); and a call reports
`hasNewTerms = true` — the only condition under which the persistence
callback is invoked — exactly when it actually inserted at least one new
entry. -/
theorem c3_glossary_uniqueness (cats : List Category)
    (h : Glossary.UniqueOriginals cats) (calls : List (List Terms)) :
    Glossary.UniqueOriginals
      (calls.foldl (fun cs ts => (Glossary.addNewTerms cs ts).1) cats) ∧
    ∀ cs : List Category, ∀ ts : List Terms,
      ((Glossary.addNewTerms cs ts).2 = true ↔
        Glossary.totalCount cs < Glossary.totalCount (Glossary.addNewTerms cs ts).1) := by
  constructor
  · induction calls generalizing cats with
    | nil => exact h
    | cons ts calls ih =>
      exact ih _ (Glossary.addNewTerms_unique cats ts h)
  · intro cs ts
    exact Glossary.addNewTerms_callback cs ts

/-- Witness for C3 at a concrete glossary and call sequence (the same term
added in two successive calls). -/
theorem c3_glossary_uniqueness_witness :
    Glossary.UniqueOriginals [] ∧
    (Glossary.UniqueOriginals
      ([[{ original := "API", translated := "", description := "d",
           template := "t" }],
        [{ original := "API", translated := "", description := "d",
           template := "t" }]].foldl
        (fun cs ts => (Glossary.addNewTerms cs ts).1) []) ∧
    ∀ cs : List Category, ∀ ts : List Terms,
      ((Glossary.addNewTerms cs ts).2 = true ↔
        Glossary.totalCount cs < Glossary.totalCount (Glossary.addNewTerms cs ts).1)) :=
  ⟨by intro c hc; simp at hc,
   c3_glossary_uniqueness [] (by intro c hc; simp at hc) _⟩

theorem lastTranslation_some_mem {resp : List LLM.RTerm} {o : String}
    {v : String} (h : LLM.lastTranslation resp o = some v) :
    ∃ r ∈ resp, r.original = o := by
  unfold LLM.lastTranslation at h
  cases hf : resp.reverse.find? (fun r => r.original = o) with
  | none => rw [hf] at h; exact absurd h (by simp)
  | some r =>
    refine ⟨r, ?_, ?_⟩
    · have := List.mem_of_find?_eq_some hf
      exact List.mem_reverse.mp this
    · have := List.find?_some hf
      simpa using this

/-- C8 (as stated) is refuted: on the category
`[⟨"A", translated := "X"⟩, ⟨"B", translated := ""⟩]` — which does contain an
entry lacking a translation, so the merge path runs — a response mentioning
`"A"` with `"Y"` overwrites `"A"`'s previously filled translation `"X"`,
although `"A"` did not lack a translation. -/
theorem c8_reconciliation_counterexample :
    ((LLM.translateTermsMerge
      { name := "C",
        terms := [{ original := "A", translated := "X", description := "",
                    template := "" },
                  { original := "B", translated := "", description := "",
                    template := "" }] }
      [{ original := "A", translated := "Y", description := "" }]).terms.map
        Terms.translated) = ["Y", ""] ∧ ("Y" : String) ≠ "X" := by
  exact ⟨rfl, by decide⟩

/-- C8 (amended) — Term-reconciliation frame property: the merge changes only
the `translated` field (name, order, length, `original`, `description` and
`template` are preserved); an entry whose `original` the response does not
mention is left entirely unchanged; a filled translation is never regressed
to empty; and **provided** the response mentions only originals of entries
that lacked a translation (the translator contract) and originals are unique
in the category, every entry that already had a non-empty translation keeps
its previous `translated` value unchanged. -/
theorem c8_reconciliation_frame (cat : Category) (resp : List LLM.RTerm) :
    (LLM.translateTermsMerge cat resp).name = cat.name ∧
    (LLM.translateTermsMerge cat resp).terms.length = cat.terms.length ∧
    ∀ (i : Nat) (t t2 : Terms), cat.terms[i]? = some t →
      (LLM.translateTermsMerge cat resp).terms[i]? = some t2 →
      (t2.original = t.original ∧ t2.description = t.description ∧
       t2.template = t.template ∧
       (LLM.lastTranslation resp t.original = none → t2 = t) ∧
       (t2.translated = "" → t.translated = "") ∧
       ((cat.terms.map Terms.original).Nodup →
        (∀ r ∈ resp, r.original ∈
          (cat.terms.filter (fun u => u.translated = "")).map Terms.original) →
        t.translated ≠ "" → t2 = t)) := by
  unfold LLM.translateTermsMerge
  by_cases hf : cat.terms.filter (fun t => t.translated = "") = []
  · rw [if_pos hf]
    refine ⟨rfl, rfl, ?_⟩
    intro i t t2 h1 h2
    rw [h1] at h2
    cases h2
    exact ⟨rfl, rfl, rfl, fun _ => rfl, fun h => h, fun _ _ _ => rfl⟩
  · rw [if_neg hf]
    refine ⟨rfl, by simp, ?_⟩
    intro i t t2 h1 h2
    simp only [List.getElem?_map, h1, Option.map_some'] at h2
    have ht2 : t2 = LLM.mergeTerm resp t := by
      exact (Option.some.inj h2).symm
    subst ht2
    unfold LLM.mergeTerm
    refine ⟨rfl, rfl, rfl, ?_, ?_, ?_⟩
    · intro hnone
      rw [hnone]
    · intro hemp
      cases hlt : LLM.lastTranslation resp t.original with
      | none => rw [hlt] at hemp; exact hemp
      | some v =>
        rw [hlt] at hemp
        simp at hemp
        by_cases hv : v = ""
        · rw [if_pos hv] at hemp; exact hemp
        · rw [if_neg hv] at hemp; exact absurd hemp hv
    · intro hnd hsub hfill
      cases hlt : LLM.lastTranslation resp t.original with
      | none => simp [hlt]
      | some v =>
        exfalso
        obtain ⟨r, hr, hro⟩ := lastTranslation_some_mem hlt
        have := hsub r hr
        rw [hro] at this
        simp only [List.mem_map, List.mem_filter] at this
        obtain ⟨u, ⟨humem, huemp⟩, huo⟩ := this
        have htmem : t ∈ cat.terms := List.getElem?_mem h1
        have hinj := List.inj_on_of_nodup_map hnd
        have : u = t := hinj humem htmem (by rw [huo])
        subst this
        simp at huemp
        exact hfill huemp

/-- Witness for C8 (amended) at a concrete category and response. -/
theorem c8_reconciliation_frame_witness :
    (({ name := "C",
        terms := [{ original := "A", translated := "X", description := "",
                    template := "" },
                  { original := "B", translated := "", description := "",
                    template := "" }] } : Category).terms[0]? =
      some { original := "A", translated := "X", description := "",
             template := "" }) ∧
    ((LLM.translateTermsMerge
      { name := "C",
        terms := [{ original := "A", translated := "X", description := "",
                    template := "" },
                  { original := "B", translated := "", description := "",
                    template := "" }] }
      [{ original := "B", translated := "乙", description := "" }]).terms.map
        Terms.translated) = ["X", "乙"] :=
  ⟨rfl, rfl⟩

namespace Renderer

theorem takeWhile_drop (p : Char → Bool) (l : List Char) :
    l.drop (l.takeWhile p).length = l.dropWhile p := by
  induction l with
  | nil => rfl
  | cons c cs ih =>
    by_cases hp : p c
    · simp [List.takeWhile_cons, List.dropWhile_cons, hp, ih]
    · simp [List.takeWhile_cons, List.dropWhile_cons, hp]

theorem splitVar_decomp {cs : List Char} {inner rest2 : List Char}
    (h : splitVar cs = some (inner, rest2)) :
    cs = inner ++ cbrace :: cbrace :: rest2 ∧ inner ≠ [] := by
  unfold splitVar at h
  by_cases hi : cs.takeWhile (fun c => c ≠ cbrace) = []
  · rw [if_pos hi] at h; exact absurd h (by simp)
  · rw [if_neg hi] at h
    cases hd : cs.drop (cs.takeWhile (fun c => c ≠ cbrace)).length with
    | nil => rw [hd] at h; exact absurd h (by simp)
    | cons c1 tl =>
      cases tl with
      | nil => rw [hd] at h; exact absurd h (by simp)
      | cons c2 r2 =>
        rw [hd] at h
        dsimp only at h
        by_cases hb : c1 = cbrace ∧ c2 = cbrace
        · rw [if_pos hb] at h
          have hinj := Option.some.inj h
          have hin : inner = cs.takeWhile (fun c => c ≠ cbrace) := by
            have := congrArg Prod.fst hinj
            exact this.symm
          have hr2 : rest2 = r2 := by
            have := congrArg Prod.snd hinj
            exact this.symm
          subst hin
          subst hr2
          constructor
          · conv_lhs => rw [← List.takeWhile_append_dropWhile
              (p := fun c => decide (c ≠ cbrace)) (l := cs)]
            rw [← takeWhile_drop (fun c => c ≠ cbrace) cs, hd, hb.1, hb.2]
          · exact hi
        · rw [if_neg hb] at h; exact absurd h (by simp)

theorem scanT_flatten_aux (n : Nat) :
    ∀ cs : List Char, cs.length ≤ n →
      (scanT cs).flatMap tokText = cs := by
  induction n with
  | zero =>
    intro cs h
    have : cs = [] := List.length_eq_zero.mp (Nat.le_zero.mp h)
    subst this; rfl
  | succ n ih =>
    intro cs h
    match cs with
    | [] => rfl
    | [c] => rfl
    | c1 :: c2 :: rest =>
      rw [scanT_cons2]
      simp at h
      by_cases hb : c1 = obrace ∧ c2 = obrace
      · rw [if_pos hb]
        cases hs : splitVar rest with
        | some p =>
          obtain ⟨inner, rest2⟩ := p
          obtain ⟨hdec, hne⟩ := splitVar_decomp hs
          have hl := splitVar_length hs
          simp at hl
          dsimp only
          rw [List.flatMap_cons]
          rw [ih rest2 (by omega)]
          rw [hb.1, hb.2, hdec]
          simp [tokText]
        | none =>
          dsimp only
          rw [List.flatMap_cons, ih (c2 :: rest) (by simp; omega)]
          rfl
      · rw [if_neg hb]
        rw [List.flatMap_cons, ih (c2 :: rest) (by simp; omega)]
        rfl

theorem scanT_flatten (cs : List Char) :
    (scanT cs).flatMap tokText = cs :=
  scanT_flatten_aux cs.length cs le_rfl

theorem renderScan_eq_toks_aux (strict escape : Bool) (ctx : Ctx) (n : Nat) :
    ∀ cs : List Char, cs.length ≤ n →
      renderScan strict escape ctx cs =
        ((scanT cs).flatMap (renderTok escape ctx),
         if strict then (scanT cs).flatMap (missingTok ctx) else []) := by
  induction n with
  | zero =>
    intro cs h
    have : cs = [] := List.length_eq_zero.mp (Nat.le_zero.mp h)
    subst this
    simp [renderScan_nil, scanT_nil]
  | succ n ih =>
    intro cs h
    match cs with
    | [] => simp [renderScan_nil, scanT_nil]
    | [c] =>
      simp [renderScan_single, scanT_single, renderTok, missingTok]
    | c1 :: c2 :: rest =>
      rw [renderScan_cons2, scanT_cons2]
      by_cases hb : c1 = obrace ∧ c2 = obrace
      · rw [if_pos hb, if_pos hb]
        cases hs : splitVar rest with
        | some p =>
          obtain ⟨inner, rest2⟩ := p
          have hl := splitVar_length hs
          simp at hl
          simp at h
          dsimp only
          rw [ih rest2 (by omega)]
          cases hlk : ctxLookup ctx (jsTrim ⟨inner⟩) with
          | some v =>
            simp [renderTok, missingTok, hlk]
          | none =>
            simp [renderTok, missingTok, hlk]
            cases strict <;> simp
        | none =>
          dsimp only
          simp at h
          rw [ih (c2 :: rest) (by simp; omega)]
          simp [renderTok, missingTok]
      · rw [if_neg hb, if_neg hb]
        simp at h
        rw [ih (c2 :: rest) (by simp; omega)]
        simp [renderTok, missingTok]

theorem renderScan_eq_toks (strict escape : Bool) (ctx : Ctx) (cs : List Char) :
    renderScan strict escape ctx cs =
      ((scanT cs).flatMap (renderTok escape ctx),
       if strict then (scanT cs).flatMap (missingTok ctx) else []) :=
  renderScan_eq_toks_aux strict escape ctx cs.length cs le_rfl

end Renderer

/-- C9 — Renderer substitution semantics: the global scan `scanT` decomposes
every template exactly into literal characters and placeholder matches
(first conjunct); the default (non-strict) renderer never throws and its
output is the per-occurrence substitution of that decomposition —
`renderTok` maps a placeholder whose trimmed identifier is a context key
(however often the identifier recurs) to the context value and leaves any
other placeholder as the literal unmodified match (second conjunct); the
strict variant succeeds exactly when no identifier was missing, and
otherwise fails with the single error aggregating all missing identifiers
in occurrence order (third conjunct). -/
theorem c9_renderer_substitution (escape : Bool) (template : String)
    (ctx : Renderer.Ctx) :
    ((Renderer.scanT template.data).flatMap Renderer.tokText
        = template.data) ∧
    (Renderer.render false escape template ctx =
      .ok ⟨(Renderer.scanT template.data).flatMap
        (Renderer.renderTok escape ctx)⟩) ∧
    (Renderer.render true escape template ctx =
      if ((Renderer.scanT template.data).flatMap
          (Renderer.missingTok ctx)) = [] then
        .ok ⟨(Renderer.scanT template.data).flatMap
          (Renderer.renderTok escape ctx)⟩
      else
        .error ("Missing variables in template: " ++ String.intercalate ", "
          ((Renderer.scanT template.data).flatMap
            (Renderer.missingTok ctx)))) := by
  refine ⟨Renderer.scanT_flatten template.data, ?_, ?_⟩
  · unfold Renderer.render
    by_cases ht : template = ""
    · subst ht
      simp [Renderer.scanT_nil]
    · rw [if_neg ht]
      rw [Renderer.renderScan_eq_toks]
      simp
  · unfold Renderer.render
    by_cases ht : template = ""
    · subst ht
      simp [Renderer.scanT_nil]
    · rw [if_neg ht]
      rw [Renderer.renderScan_eq_toks]
      by_cases hm : (Renderer.scanT template.data).flatMap
          (Renderer.missingTok ctx) = []
      · simp [hm]
      · simp [hm]

namespace Dom

theorem getNode_append (p q : Path) (t : DNode) :
    getNode t (p ++ q) = (getNode t p).bind (fun n => getNode n q) := by
  induction p generalizing t with
  | nil => simp [getNode]
  | cons i p ih =>
    cases t with
    | text s => simp [getNode]
    | elem tg a o cs =>
      simp only [List.cons_append, getNode]
      cases cs[i]? with
      | none => simp
      | some c => simp [ih]

theorem accept_iff (tg : String) (a : List (String × String)) (s : String) :
    acceptTextNodeFilter tg a s = true ↔
      (¬ SKIP_TAGS.contains tg = true ∧
       getAttr a "data-translation" ≠ some "true" ∧
       normalizeStr s ≠ "" ∧ hasLetter (normalizeStr s) = true) := by
  unfold acceptTextNodeFilter
  by_cases h1 : SKIP_TAGS.contains tg
  · simp [h1]
  · rw [if_neg h1]
    by_cases h2 : getAttr a "data-translation" = some "true"
    · simp [h2, h1]
    · rw [if_neg h2]
      simp [h1, h2]
      intro _ _
      simpa using h1

mutual
theorem collectNode_sound (root : DNode) (pfx : Path) (i : Nat) (ptag : String)
    (pattrs : List (String × String)) (n : DNode)
    (hn : getNode root (pfx ++ [i]) = some n)
    (hp : ∃ o k, elemInfo root pfx = some (ptag, pattrs, o, k)) :
    ∀ q ∈ collectNode pfx i ptag pattrs n, CollectOk root q := by
  match n with
  | .text s =>
    intro q hq
    unfold collectNode at hq
    by_cases hacc : acceptTextNodeFilter ptag pattrs s
    · rw [if_pos hacc] at hq
      simp at hq
      subst hq
      refine ⟨s, ptag, pattrs, ?_, ?_, hacc⟩
      · unfold textVal
        rw [hn]
      · unfold ownerData
        rw [List.dropLast_concat]
        obtain ⟨o, k, hok⟩ := hp
        rw [hok]
    · rw [if_neg hacc] at hq
      simp at hq
  | .elem tg a o cs =>
    intro q hq
    unfold collectNode at hq
    refine collectForest_sound root (pfx ++ [i]) 0 tg a cs ?_ ?_ q hq
    · refine ⟨[], ?_, rfl⟩
      unfold childrenAt
      rw [hn]
      rfl
    · refine ⟨o, cs.length, ?_⟩
      unfold elemInfo
      rw [hn]

theorem collectForest_sound (root : DNode) (pfx : Path) (i : Nat)
    (ptag : String) (pattrs : List (String × String)) (ns : List DNode)
    (hs : ∃ pre, childrenAt root pfx = some (pre ++ ns) ∧ pre.length = i)
    (hp : ∃ o k, elemInfo root pfx = some (ptag, pattrs, o, k)) :
    ∀ q ∈ collectForest pfx i ptag pattrs ns, CollectOk root q := by
  match ns with
  | [] =>
    intro q hq
    unfold collectForest at hq
    simp at hq
  | n :: ns =>
    intro q hq
    unfold collectForest at hq
    rw [List.mem_append] at hq
    obtain ⟨pre, hcs, hlen⟩ := hs
    cases hq with
    | inl hq =>
      refine collectNode_sound root pfx i ptag pattrs n ?_ hp q hq
      rw [getNode_append]
      unfold childrenAt at hcs
      cases hg : getNode root pfx with
      | none => rw [hg] at hcs; exact absurd hcs (by simp)
      | some m =>
        rw [hg] at hcs
        cases m with
        | text s => exact absurd hcs (by simp)
        | elem tg2 a2 o2 cs2 =>
          have : cs2 = pre ++ n :: ns := by
            simpa using hcs
          subst this
          simp [getNode]
          rw [← hlen]
          rw [List.getElem?_append_right (by omega)]
          simp
    | inr hq =>
      refine collectForest_sound root pfx (i + 1) ptag pattrs ns ?_ hp q hq
      refine ⟨pre ++ [n], ?_, by simp [hlen]⟩
      simpa using hcs
end

/-- `collectTextNodes` soundness at the root. -/
theorem collectTextNodes_sound (root : DNode) :
    ∀ q ∈ collectTextNodes root, CollectOk root q := by
  match root with
  | .text s =>
    intro q hq
    unfold collectTextNodes at hq
    simp at hq
  | .elem tg a o cs =>
    intro q hq
    unfold collectTextNodes at hq
    refine collectForest_sound _ [] 0 tg a cs ⟨[], ?_, rfl⟩ ⟨o, cs.length, ?_⟩ q hq
    · rfl
    · rfl

end Dom

/-- C6 — Collector eligibility postcondition: every path returned by
`collectTextNodes` denotes a text node whose owning element exists, has a tag
outside `SKIP_TAGS`, is not currently marked `data-translation="true"` (so an
element marked `"false"` is eligible again), and whose trimmed text is
nonempty and contains at least one letter — i.e. it passed
`acceptTextNodeFilter` against its immediate owner. -/
theorem c6_collector_postcondition (root : DNode) (q : Dom.Path)
    (hq : q ∈ Dom.collectTextNodes root) :
    ∃ s tg a, Dom.textVal root q = some s ∧
      Dom.ownerData root q = some (tg, a) ∧
      ¬ Dom.SKIP_TAGS.contains tg = true ∧
      Dom.getAttr a "data-translation" ≠ some "true" ∧
      Dom.normalizeStr s ≠ "" ∧
      Dom.hasLetter (Dom.normalizeStr s) = true ∧
      Dom.acceptTextNodeFilter tg a s = true := by
  obtain ⟨s, tg, a, h1, h2, h3⟩ := Dom.collectTextNodes_sound root q hq
  have h4 := (Dom.accept_iff tg a s).mp h3
  exact ⟨s, tg, a, h1, h2, h4.1, h4.2.1, h4.2.2.1, h4.2.2.2, h3⟩

/-- Witness for C6 on a concrete two-node page
`<div>A<p>skip</p><code>nope</code></div>`-like tree. -/
theorem c6_collector_postcondition_witness :
    ([0] ∈ Dom.collectTextNodes
      (.elem "DIV" [] none
        [.text "Alpha", .elem "CODE" [] none [.text "nope"]])) ∧
    (∃ s tg a,
      Dom.textVal
        (.elem "DIV" [] none
          [.text "Alpha", .elem "CODE" [] none [.text "nope"]]) [0] = some s ∧
      Dom.ownerData
        (.elem "DIV" [] none
          [.text "Alpha", .elem "CODE" [] none [.text "nope"]]) [0] =
        some (tg, a) ∧
      ¬ Dom.SKIP_TAGS.contains tg = true ∧
      Dom.getAttr a "data-translation" ≠ some "true" ∧
      Dom.normalizeStr s ≠ "" ∧
      Dom.hasLetter (Dom.normalizeStr s) = true ∧
      Dom.acceptTextNodeFilter tg a s = true) :=
  ⟨by decide,
   c6_collector_postcondition
     (.elem "DIV" [] none
       [.text "Alpha", .elem "CODE" [] none [.text "nope"]]) [0] (by decide)⟩

namespace Dom

mutual
theorem markedNode_valid (root : DNode) (pfx : Path) (i : Nat) (n : DNode)
    (hn : getNode root (pfx ++ [i]) = some n) :
    ∀ q ∈ markedNode pfx i n, MarkedOk root q := by
  match n with
  | .text s =>
    intro q hq
    unfold markedNode at hq
    simp at hq
  | .elem tg a o cs =>
    intro q hq
    unfold markedNode at hq
    rw [List.mem_append] at hq
    cases hq with
    | inl hq =>
      by_cases hm : getAttr a "data-translation" = some "true"
      · rw [if_pos hm] at hq
        simp at hq
        subst hq
        exact ⟨tg, a, o, cs, hn, hm⟩
      · rw [if_neg hm] at hq
        simp at hq
    | inr hq =>
      refine markedForest_valid root (pfx ++ [i]) 0 cs ?_ q hq
      refine ⟨[], ?_, rfl⟩
      unfold childrenAt
      rw [hn]
      rfl

theorem markedForest_valid (root : DNode) (pfx : Path) (i : Nat)
    (ns : List DNode)
    (hs : ∃ pre, childrenAt root pfx = some (pre ++ ns) ∧ pre.length = i) :
    ∀ q ∈ markedForest pfx i ns, MarkedOk root q := by
  match ns with
  | [] =>
    intro q hq
    unfold markedForest at hq
    simp at hq
  | n :: ns =>
    intro q hq
    unfold markedForest at hq
    rw [List.mem_append] at hq
    obtain ⟨pre, hcs, hlen⟩ := hs
    cases hq with
    | inl hq =>
      refine markedNode_valid root pfx i n ?_ q hq
      rw [getNode_append]
      unfold childrenAt at hcs
      cases hg : getNode root pfx with
      | none => rw [hg] at hcs; exact absurd hcs (by simp)
      | some m =>
        rw [hg] at hcs
        cases m with
        | text s => exact absurd hcs (by simp)
        | elem tg2 a2 o2 cs2 =>
          have : cs2 = pre ++ n :: ns := by
            simpa using hcs
          subst this
          simp [getNode]
          rw [← hlen]
          rw [List.getElem?_append_right (by omega)]
          simp
    | inr hq =>
      refine markedForest_valid root pfx (i + 1) ns ?_ q hq
      refine ⟨pre ++ [n], ?_, by simp [hlen]⟩
      simpa using hcs
end

theorem markedDescPaths_valid (root : DNode) :
    ∀ q ∈ markedDescPaths root, MarkedOk root q := by
  match root with
  | .text s =>
    intro q hq
    unfold markedDescPaths at hq
    simp at hq
  | .elem tg a o cs =>
    intro q hq
    unfold markedDescPaths at hq
    refine markedForest_valid _ [] 0 cs ⟨[], ?_, rfl⟩ q hq
    rfl

theorem restoreStep_skip (t : DNode) (done : List Path) (p : Path)
    (tg : String) (a : List (String × String)) (o : Option (List DNode))
    (cs : List DNode) (helem : getNode t p = some (.elem tg a o cs))
    (hfalsy : origTruthy o = false) :
    restoreStep (t, done) p = (t, done) := by
  unfold restoreStep
  by_cases hskip : done.any (fun q => q ≠ p ∧ isPfxOfN q p)
  · rw [if_pos hskip]
  · rw [if_neg hskip]
    simp only [helem]
    rw [hfalsy]
    simp

theorem restore_noop_of_all_falsy (root : DNode)
    (h : ∀ q ∈ markedDescPaths root, ∀ tg a o cs,
      getNode root q = some (.elem tg a o cs) → origTruthy o = false) :
    restoreFromDataAttributes root = root := by
  unfold restoreFromDataAttributes
  have : ∀ l : List Path, (∀ q ∈ l, MarkedOk root q) →
      (∀ q ∈ l, ∀ tg a o cs,
        getNode root q = some (.elem tg a o cs) → origTruthy o = false) →
      l.foldl restoreStep (root, []) = (root, []) := by
    intro l
    induction l with
    | nil => intro _ _; rfl
    | cons p l ih =>
      intro hv hf
      obtain ⟨tg, a, o, cs, he, hm⟩ := hv p (by simp)
      have hfo := hf p (by simp) tg a o cs he
      simp only [List.foldl_cons]
      rw [restoreStep_skip root [] p tg a o cs he hfo]
      exact ih (fun q hq => hv q (by simp [hq])) (fun q hq => hf q (by simp [hq]))
  rw [this (markedDescPaths root) (markedDescPaths_valid root) h]

end Dom

/-- C10 — Implicit restore edge case: an element carrying
`data-translation="true"` whose stored original content is absent or
serializes to the empty string (JavaScript-falsy `data-original-text`) is
skipped by restore's per-element body — neither its content nor its flag is
touched, so the flag remains `"true"`; consequently, on a root all of whose
marked elements carry falsy stored originals, restore changes nothing at
all (an element whose captured original inner markup was empty at marking
time is never reverted). -/
theorem c10_restore_empty_original (t : DNode) (done : List Dom.Path)
    (p : Dom.Path) (tg : String) (a : List (String × String))
    (o : Option (List DNode)) (cs : List DNode)
    (helem : Dom.getNode t p = some (.elem tg a o cs))
    (hmark : Dom.getAttr a "data-translation" = some "true")
    (hfalsy : Dom.origTruthy o = false) :
    Dom.restoreStep (t, done) p = (t, done) ∧
    ∀ root : DNode,
      (∀ q ∈ Dom.markedDescPaths root, ∀ tg2 a2 o2 cs2,
        Dom.getNode root q = some (.elem tg2 a2 o2 cs2) →
          Dom.origTruthy o2 = false) →
      Dom.restoreOriginalText root = root := by
  refine ⟨Dom.restoreStep_skip t done p tg a o cs helem hfalsy, ?_⟩
  intro root hroot
  exact Dom.restore_noop_of_all_falsy root hroot

/-- Witness for C10 on a concrete tree: a marked element whose stored
original is the empty forest. -/
theorem c10_restore_empty_original_witness :
    (Dom.getNode
      (.elem "DIV" [] none
        [.elem "P" [("data-translation", "true")] (some []) [.text "X"]]) [0]
      = some (.elem "P" [("data-translation", "true")] (some []) [.text "X"])) ∧
    (Dom.restoreStep
      ((.elem "DIV" [] none
        [.elem "P" [("data-translation", "true")] (some []) [.text "X"]]), [])
      [0]
      = ((.elem "DIV" [] none
        [.elem "P" [("data-translation", "true")] (some []) [.text "X"]]), [])) :=
  ⟨rfl,
   (c10_restore_empty_original
     (.elem "DIV" [] none
       [.elem "P" [("data-translation", "true")] (some []) [.text "X"]])
     [] [0] "P" [("data-translation", "true")] (some []) [.text "X"]
     rfl rfl rfl).1⟩

namespace Dom

theorem chunkListF_eq_of_le (B f g : Nat) (hB : 0 < B) (l : List Path)
    (hf : l.length ≤ f) (hg : l.length ≤ g) :
    chunkListF f B l = chunkListF g B l := by
  induction f generalizing g l with
  | zero =>
    have : l = [] := List.length_eq_zero.mp (Nat.le_zero.mp hf)
    subst this
    cases g <;> rfl
  | succ f ih =>
    cases g with
    | zero =>
      have : l = [] := List.length_eq_zero.mp (Nat.le_zero.mp hg)
      subst this; rfl
    | succ g =>
      cases l with
      | nil => rfl
      | cons x xs =>
        unfold chunkListF
        have hd : ((x :: xs).drop B).length ≤ f := by
          simp at hf ⊢
          omega
        have hd2 : ((x :: xs).drop B).length ≤ g := by
          simp at hg ⊢
          omega
        rw [ih g ((x :: xs).drop B) hd hd2]

theorem chunkList_cons (B : Nat) (hB : 0 < B) (x : Path) (xs : List Path) :
    chunkList B (x :: xs) =
      (x :: xs).take B :: chunkList B ((x :: xs).drop B) := by
  show chunkListF (xs.length + 1) B (x :: xs) = _
  rw [show chunkListF (xs.length + 1) B (x :: xs) =
      (x :: xs).take B :: chunkListF xs.length B ((x :: xs).drop B) from rfl]
  unfold chunkList
  rw [chunkListF_eq_of_le B xs.length ((x :: xs).drop B).length hB
    ((x :: xs).drop B) (by simp; omega) le_rfl]

theorem chunkList_flatten (B : Nat) (hB : 0 < B) (l : List Path) :
    (chunkList B l).flatten = l := by
  cases l with
  | nil => rfl
  | cons x xs =>
    rw [chunkList_cons B hB x xs, List.flatten_cons,
      chunkList_flatten B hB ((x :: xs).drop B), List.take_append_drop]
termination_by l.length
decreasing_by simp; omega

theorem processBatch_acc (pf : String → List DNode) (tr : MTranslator)
    (l : List Path) (st : SessState) (acc : List NodeResult) :
    l.foldl (fun a p =>
      let r := processNode pf tr a.1 p
      (r.1, a.2 ++ [r.2])) (st, acc) =
    ((processBatch pf tr st l).1, acc ++ (processBatch pf tr st l).2) := by
  induction l generalizing st acc with
  | nil => simp [processBatch]
  | cons p l ih =>
    unfold processBatch
    simp only [List.foldl_cons]
    rw [ih, ih]
    simp

theorem processBatch_append (pf : String → List DNode) (tr : MTranslator)
    (l1 l2 : List Path) (st : SessState) :
    processBatch pf tr st (l1 ++ l2) =
      ((processBatch pf tr (processBatch pf tr st l1).1 l2).1,
       (processBatch pf tr st l1).2 ++
         (processBatch pf tr (processBatch pf tr st l1).1 l2).2) := by
  unfold processBatch
  rw [List.foldl_append]
  rw [processBatch_acc, processBatch_acc, processBatch_acc]
  simp

theorem processBatch_length (pf : String → List DNode) (tr : MTranslator)
    (l : List Path) (st : SessState) :
    (processBatch pf tr st l).2.length = l.length := by
  induction l generalizing st with
  | nil => rfl
  | cons p l ih =>
    unfold processBatch
    simp only [List.foldl_cons]
    rw [processBatch_acc]
    simp [ih]

theorem enumFrom_map_current (l : List NodeResult) :
    ∀ n c, ((List.enumFrom n l).map (fun ir => c + ir.1 + 1)) =
      List.range' (c + n + 1) l.length := by
  induction l with
  | nil => intro n c; rfl
  | cons r l ih =>
    intro n c
    rw [List.enumFrom_cons]
    simp only [List.map_cons, List.length_cons]
    rw [List.range'_succ]
    have h2 := ih (n + 1) c
    rw [show c + (n + 1) + 1 = c + n + 1 + 1 from by omega] at h2
    rw [h2]

/-- The state after `runBatches` is the state of the sequential fold over the
flattened batches, and each batch contributes one snapshot per node, in batch
order, with consecutive `current` values and the constant session total. -/
theorem runBatches_spec (pf : String → List DNode) (tr : MTranslator)
    (total : Nat) (bs : List (List Path)) :
    ∀ (st : SessState) (c : Nat),
      (runBatches pf tr total st c bs).1 =
        (processBatch pf tr st bs.flatten).1 ∧
      (runBatches pf tr total st c bs).2.length = bs.flatten.length ∧
      ((runBatches pf tr total st c bs).2.map (fun s => s.current)) =
        List.range' (c + 1) bs.flatten.length ∧
      (∀ s ∈ (runBatches pf tr total st c bs).2, s.total = total) ∧
      ((runBatches pf tr total st c bs).2.map
          (fun s => (s.currentText, s.translatedText, s.error))) =
        ((processBatch pf tr st bs.flatten).2.map
          (fun r => (some r.currentText, r.translatedText, r.error))) := by
  induction bs with
  | nil =>
    intro st c
    simp [runBatches, processBatch]
  | cons b bs ih =>
    intro st c
    unfold runBatches
    simp only [List.flatten_cons]
    rw [processBatch_append]
    obtain ⟨ih1, ih2, ih3, ih4, ih5⟩ := ih (processBatch pf tr st b).1 (c + (processBatch pf tr st b).2.length)
    simp only [processBatch_length] at ih1 ih2 ih3 ih4 ih5
    simp only [processBatch_length]
    refine ⟨by simpa using ih1, ?_, ?_, ?_, ?_⟩
    · simp only [List.length_append, List.length_map, List.enum_length, ih2,
        processBatch_length, List.flatten_cons]
    · simp only [List.map_append]
      rw [ih3]
      have henum : ((processBatch pf tr st b).2.enum.map
          (fun ir => c + ir.1 + 1)) =
          List.range' (c + 1) (processBatch pf tr st b).2.length := by
        have := enumFrom_map_current (processBatch pf tr st b).2 0 c
        simpa [List.enum] using this
      simp only [List.map_map]
      have : ((fun s => s.current) ∘ fun ir =>
          ({ current := c + ir.1 + 1, total := total,
             currentText := some ir.2.currentText,
             translatedText := ir.2.translatedText,
             usage := (processBatch pf tr st b).1.usage,
             error := ir.2.error } : Progress)) =
          (fun ir : Nat × NodeResult => c + ir.1 + 1) := rfl
      rw [this, henum, processBatch_length]
      rw [show c + b.length + 1 = c + 1 + b.length from by omega]
      rw [List.range'_append_1]
      simp [Nat.add_comm]
    · intro s hs
      rw [List.mem_append] at hs
      cases hs with
      | inl h =>
        rw [List.mem_map] at h
        obtain ⟨ir, _, hir⟩ := h
        rw [← hir]
      | inr h => exact ih4 s h
    · simp only [List.map_append]
      rw [ih5]
      congr 1
      rw [List.map_map]
      have hcomp : ((fun s : Progress =>
          (s.currentText, s.translatedText, s.error)) ∘
          fun ir : Nat × NodeResult =>
          ({ current := c + ir.1 + 1, total := total,
             currentText := some ir.2.currentText,
             translatedText := ir.2.translatedText,
             usage := (processBatch pf tr st b).1.usage,
             error := ir.2.error } : Progress)) =
          ((fun r : NodeResult =>
            (some r.currentText, r.translatedText, r.error)) ∘ Prod.snd) := rfl
      rw [hcomp, ← List.map_map, List.enum_map_snd]

theorem processBatch_cons (pf : String → List DNode) (tr : MTranslator)
    (st : SessState) (p : Path) (l : List Path) :
    processBatch pf tr st (p :: l) =
      ((processBatch pf tr (processNode pf tr st p).1 l).1,
       (processNode pf tr st p).2 ::
         (processBatch pf tr (processNode pf tr st p).1 l).2) := by
  unfold processBatch
  simp only [List.foldl_cons]
  rw [processBatch_acc]
  simp
  exact ⟨rfl, rfl⟩

theorem processBatch_get (pf : String → List DNode) (tr : MTranslator)
    (l : List Path) :
    ∀ (st : SessState) (k : Nat) (p : Path), l[k]? = some p →
      (processBatch pf tr st l).2[k]? =
        some (processNode pf tr (processBatch pf tr st (l.take k)).1 p).2 := by
  induction l with
  | nil =>
    intro st k p hp
    simp at hp
  | cons q l ih =>
    intro st k p hp
    rw [processBatch_cons]
    cases k with
    | zero =>
      simp at hp
      subst hp
      simp [processBatch]
    | succ k =>
      simp only [List.getElem?_cons_succ] at hp
      simp only [List.getElem?_cons_succ]
      rw [ih (processNode pf tr st q).1 k p hp]
      rw [List.take_succ_cons, processBatch_cons]

theorem processNode_currentText (pf : String → List DNode) (tr : MTranslator)
    (st : SessState) (p : Path) :
    (processNode pf tr st p).2.currentText =
      Renderer.jsTrim ((textVal st.tree p).getD "") := by
  unfold processNode
  by_cases hshort : Renderer.jsTrim ((textVal st.tree p).getD "") = "" ∨
      (Renderer.jsTrim ((textVal st.tree p).getD "")).length < MIN_TEXT_LENGTH
  · rw [if_pos hshort]
  · rw [if_neg hshort]
    cases tr.translateText (Renderer.jsTrim ((textVal st.tree p).getD "")) with
    | error e => rfl
    | ok out => rfl

end Dom

/-- C5 — Progress snapshot discipline: for a session over `N` eligible nodes
with a positive batch size, the snapshot sequence has length `N + 1`; it
begins with the initial snapshot `completed = 0, total = N`; every snapshot
carries the same total `N`; the per-node snapshots carry `current = 1 … N`
in the nodes' original collection order (order within each batch is the
batch's input order, `Promise.allSettled` preserving it); and the `k`-th
per-node snapshot is exactly the snapshot of processing node `k` in the
state reached after the first `k` nodes. -/
theorem c5_progress_discipline (pf : String → List DNode) (tr : Dom.MTranslator)
    (seed : List Category) (B : Nat) (root : DNode) (hB : 0 < B) :
    (Dom.translate pf tr seed B root).2.1.length =
      (Dom.collectTextNodes root).length + 1 ∧
    (Dom.translate pf tr seed B root).2.1.head? = some
      { current := 0, total := (Dom.collectTextNodes root).length,
        currentText := none, translatedText := none,
        usage := TokenUsage.zero, error := none } ∧
    (∀ s ∈ (Dom.translate pf tr seed B root).2.1,
      s.total = (Dom.collectTextNodes root).length) ∧
    ((Dom.translate pf tr seed B root).2.1.tail.map (fun s => s.current) =
      List.range' 1 (Dom.collectTextNodes root).length) ∧
    (∀ (k : Nat) (p : Dom.Path), (Dom.collectTextNodes root)[k]? = some p →
      ((Dom.translate pf tr seed B root).2.1.tail[k]?).map
          (fun s => (s.currentText, s.translatedText, s.error)) =
        some
          (some (Renderer.jsTrim ((Dom.textVal
            (Dom.processBatch pf tr
              { tree := root, terms := seed, usage := TokenUsage.zero }
              ((Dom.collectTextNodes root).take k)).1.tree p).getD "")),
           (Dom.processNode pf tr
             (Dom.processBatch pf tr
               { tree := root, terms := seed, usage := TokenUsage.zero }
               ((Dom.collectTextNodes root).take k)).1 p).2.translatedText,
           (Dom.processNode pf tr
             (Dom.processBatch pf tr
               { tree := root, terms := seed, usage := TokenUsage.zero }
               ((Dom.collectTextNodes root).take k)).1 p).2.error)) := by
  have hspec := Dom.runBatches_spec pf tr (Dom.collectTextNodes root).length
    (Dom.chunkList B (Dom.collectTextNodes root))
    { tree := root, terms := seed, usage := TokenUsage.zero } 0
  rw [Dom.chunkList_flatten B hB] at hspec
  obtain ⟨h1, h2, h3, h4, h5⟩ := hspec
  refine ⟨?_, ?_, ?_, ?_, ?_⟩
  · show (_ :: _).length = _
    simp [h2]
  · rfl
  · intro s hs
    cases hs with
    | head => rfl
    | tail _ hs => exact h4 s hs
  · show List.map _ (_ :: _).tail = _
    simpa using h3
  · intro k p hp
    show ((_ :: _).tail[k]?).map _ = _
    simp only [List.tail_cons]
    have hidx := congrArg (fun l => l[k]?) h5
    simp only [List.getElem?_map] at hidx
    rw [hidx]
    rw [Dom.processBatch_get pf tr (Dom.collectTextNodes root) _ k p hp]
    simp [Dom.processNode_currentText]

/-- Witness for C5 at a concrete two-node page and batch size 1. -/
theorem c5_progress_discipline_witness :
    (0 : Nat) < 1 ∧
    (Dom.translate (fun _ => [])
      { translateText := fun s =>
          .ok { translatedText := s ++ "!", terms := [],
                usage := TokenUsage.zero },
        translateTerms := fun c => .ok (c, TokenUsage.zero) }
      [] 1
      (.elem "DIV" [] none
        [.elem "P" [] none [.text "one"], .elem "P" [] none [.text "two"]])
      ).2.1.length =
      (Dom.collectTextNodes
        (.elem "DIV" [] none
          [.elem "P" [] none [.text "one"],
           .elem "P" [] none [.text "two"]])).length + 1 :=
  ⟨by decide,
   (c5_progress_discipline (fun _ => [])
     { translateText := fun s =>
         .ok { translatedText := s ++ "!", terms := [],
               usage := TokenUsage.zero },
       translateTerms := fun c => .ok (c, TokenUsage.zero) }
     [] 1
     (.elem "DIV" [] none
       [.elem "P" [] none [.text "one"], .elem "P" [] none [.text "two"]])
     (by decide)).1⟩

/-- C7 — Node-local failure containment: when the translator call for a node
rejects, `processNode` leaves the whole engine state untouched — the node's
DOM content is unchanged, its owning element is not marked, the glossary and
the usage counters are as before — and the settled result records the error
message for that node's progress snapshot; and regardless of which calls
fail, the session still emits one snapshot per collected node plus the
initial one (no single-node failure aborts the session). -/
theorem c7_failure_containment (pf : String → List DNode) (tr : Dom.MTranslator)
    (st : Dom.SessState) (p : Dom.Path) (e : String)
    (hlong : ¬ (Renderer.jsTrim ((Dom.textVal st.tree p).getD "") = "" ∨
      (Renderer.jsTrim ((Dom.textVal st.tree p).getD "")).length <
        Dom.MIN_TEXT_LENGTH))
    (hfail : tr.translateText
      (Renderer.jsTrim ((Dom.textVal st.tree p).getD "")) = .error e) :
    Dom.processNode pf tr st p =
      (st, { success := false,
             currentText := Renderer.jsTrim ((Dom.textVal st.tree p).getD ""),
             translatedText := none, error := some e,
             usage := TokenUsage.zero }) ∧
    ∀ (seed : List Category) (B : Nat) (root : DNode), 0 < B →
      (Dom.translate pf tr seed B root).2.1.length =
        (Dom.collectTextNodes root).length + 1 := by
  constructor
  · unfold Dom.processNode
    rw [if_neg hlong, hfail]
  · intro seed B root hB
    have hspec := Dom.runBatches_spec pf tr (Dom.collectTextNodes root).length
      (Dom.chunkList B (Dom.collectTextNodes root))
      { tree := root, terms := seed, usage := TokenUsage.zero } 0
    rw [Dom.chunkList_flatten B hB] at hspec
    show (_ :: _).length = _
    simp [hspec.2.1]

/-- Witness for C7: a rejecting translator on a concrete one-node page. -/
theorem c7_failure_containment_witness :
    (¬ (Renderer.jsTrim ((Dom.textVal
        ({ tree := .elem "DIV" [] none [.elem "P" [] none [.text "Hello world"]],
           terms := [], usage := TokenUsage.zero } : Dom.SessState).tree
        [0, 0]).getD "") = "" ∨
      (Renderer.jsTrim ((Dom.textVal
        ({ tree := .elem "DIV" [] none [.elem "P" [] none [.text "Hello world"]],
           terms := [], usage := TokenUsage.zero } : Dom.SessState).tree
        [0, 0]).getD "")).length < Dom.MIN_TEXT_LENGTH)) ∧
    Dom.processNode (fun _ => [])
      { translateText := fun _ => .error "network error",
        translateTerms := fun c => .ok (c, TokenUsage.zero) }
      { tree := .elem "DIV" [] none [.elem "P" [] none [.text "Hello world"]],
        terms := [], usage := TokenUsage.zero } [0, 0] =
      ({ tree := .elem "DIV" [] none [.elem "P" [] none [.text "Hello world"]],
         terms := [], usage := TokenUsage.zero },
       { success := false, currentText := "Hello world",
         translatedText := none, error := some "network error",
         usage := TokenUsage.zero }) :=
  ⟨by decide,
   (c7_failure_containment (fun _ => [])
     { translateText := fun _ => .error "network error",
       translateTerms := fun c => .ok (c, TokenUsage.zero) }
     { tree := .elem "DIV" [] none [.elem "P" [] none [.text "Hello world"]],
       terms := [], usage := TokenUsage.zero } [0, 0] "network error"
     (by decide) rfl).1⟩

namespace Dom

theorem listModify_length (f : DNode → DNode) (cs : List DNode) (i : Nat) :
    (listModify f cs i).length = cs.length := by
  induction cs generalizing i with
  | nil => rfl
  | cons c cs ih =>
    cases i with
    | zero => rfl
    | succ n => simp [listModify, ih]

theorem listModify_get_ne (f : DNode → DNode) (cs : List DNode) (i j : Nat)
    (h : i ≠ j) : (listModify f cs i)[j]? = cs[j]? := by
  induction cs generalizing i j with
  | nil => rfl
  | cons c cs ih =>
    cases i with
    | zero =>
      cases j with
      | zero => exact absurd rfl h
      | succ m => simp [listModify]
    | succ n =>
      cases j with
      | zero => simp [listModify]
      | succ m =>
        simp only [listModify, List.getElem?_cons_succ]
        exact ih n m (by omega)

theorem listModify_get_eq (f : DNode → DNode) (cs : List DNode) (i : Nat) :
    (listModify f cs i)[i]? = (cs[i]?).map f := by
  induction cs generalizing i with
  | nil => rfl
  | cons c cs ih =>
    cases i with
    | zero => simp [listModify]
    | succ n =>
      simp only [listModify, List.getElem?_cons_succ]
      exact ih n

theorem getNode_updateAt_self (f : DNode → DNode) (t : DNode) (p : Path)
    (n : DNode) (h : getNode t p = some n) :
    getNode (updateAt f t p) p = some (f n) := by
  induction p generalizing t with
  | nil =>
    simp only [getNode, Option.some.injEq] at h
    subst h
    cases t <;> rfl
  | cons i p ih =>
    cases t with
    | text s => simp [getNode] at h
    | elem tg a o cs =>
      simp only [getNode] at h
      cases hc : cs[i]? with
      | none => rw [hc] at h; exact absurd h (by simp)
      | some c =>
        rw [hc] at h
        show getNode (.elem tg a o (listModify (updateAt f · p) cs i)) (i :: p)
          = some (f n)
        simp only [getNode]
        rw [listModify_get_eq, hc]
        simp only [Option.map_some']
        exact ih c h

theorem getNode_updateAt_incomp (f : DNode → DNode) (p q : Path) :
    ∀ t, ¬ PIsPfx p q → ¬ PIsPfx q p →
      getNode (updateAt f t p) q = getNode t q := by
  induction p generalizing q with
  | nil => intro t h1 _; exact absurd ⟨q, rfl⟩ h1
  | cons i p ih =>
    intro t h1 h2
    cases q with
    | nil => exact absurd ⟨i :: p, rfl⟩ h2
    | cons j q =>
      cases t with
      | text s => rfl
      | elem tg a o cs =>
        show getNode (.elem tg a o (listModify (updateAt f · p) cs i)) (j :: q)
          = _
        simp only [getNode]
        by_cases hij : i = j
        · subst hij
          rw [listModify_get_eq]
          cases hc : cs[i]? with
          | none => rfl
          | some c =>
            simp only [Option.map_some']
            refine ih q c ?_ ?_
            · intro ⟨r, hr⟩
              exact h1 ⟨r, by rw [hr]; rfl⟩
            · intro ⟨r, hr⟩
              exact h2 ⟨r, by rw [hr]; rfl⟩
        · rw [listModify_get_ne _ cs i j hij]

theorem getNode_updateAt_above (f : DNode → DNode) (q r : Path) :
    ∀ t, getNode (updateAt f t (q ++ r)) q =
      (getNode t q).map (fun n => updateAt f n r) := by
  induction q with
  | nil => intro t; simp [getNode]
  | cons i q ih =>
    intro t
    cases t with
    | text s => rfl
    | elem tg a o cs =>
      show getNode (.elem tg a o (listModify (updateAt f · (q ++ r)) cs i))
        (i :: q) = _
      simp only [getNode]
      rw [listModify_get_eq]
      cases hc : cs[i]? with
      | none => rfl
      | some c => simp [ih c]

theorem updateAt_invalid (f : DNode → DNode) (t : DNode) (p : Path)
    (h : getNode t p = none) : updateAt f t p = t := by
  induction p generalizing t with
  | nil => simp [getNode] at h
  | cons i p ih =>
    cases t with
    | text s => rfl
    | elem tg a o cs =>
      simp only [getNode] at h
      show DNode.elem tg a o (listModify (updateAt f · p) cs i) = _
      congr 1
      cases hc : cs[i]? with
      | none =>
        have : i ≥ cs.length := by
          by_contra hlt
          simp at hlt
          rw [List.getElem?_eq_getElem hlt] at hc
          exact absurd hc (by simp)
        clear hc h
        induction cs generalizing i with
        | nil => rfl
        | cons c cs ih2 =>
          cases i with
          | zero => simp at this
          | succ n =>
            simp only [listModify]
            congr 1
            exact ih2 n (by simp at this ⊢; omega)
      | some c =>
        rw [hc] at h
        have hcn := ih c h
        clear h ih
        induction cs generalizing i with
        | nil => rfl
        | cons d ds ih2 =>
          cases i with
          | zero =>
            simp at hc
            subst hc
            simp [listModify, hcn]
          | succ n =>
            simp only [listModify]
            congr 1
            exact ih2 n (by simpa using hc)

theorem path_trichotomy (p q : Path) :
    q = p ∨ (∃ r, r ≠ [] ∧ q = p ++ r) ∨ (∃ r, r ≠ [] ∧ p = q ++ r) ∨
      (¬ PIsPfx p q ∧ ¬ PIsPfx q p) := by
  by_cases h1 : PIsPfx p q
  · obtain ⟨r, hr⟩ := h1
    cases hr2 : r with
    | nil => left; rw [hr, hr2]; simp
    | cons a r2 => right; left; exact ⟨r, by simp [hr2], hr⟩
  · by_cases h2 : PIsPfx q p
    · obtain ⟨r, hr⟩ := h2
      cases hr2 : r with
      | nil => left; rw [hr, hr2]; simp
      | cons a r2 => right; right; left; exact ⟨r, by simp [hr2], hr⟩
    · right; right; right; exact ⟨h1, h2⟩

theorem append_eq_self_iff (p r : Path) : p ++ r = p ↔ r = [] := by
  constructor
  · intro h
    have := congrArg List.length h
    simp at this
    exact this
  · intro h; simp [h]

theorem updateAt_text (f : DNode → DNode) (s : String) (r : Path)
    (hr : r ≠ []) : updateAt f (.text s) r = .text s := by
  cases r with
  | nil => exact absurd rfl hr
  | cons i r2 => rfl

theorem getNode_text_ne (s : String) (r : Path) (hr : r ≠ []) :
    getNode (.text s) r = none := by
  cases r with
  | nil => exact absurd rfl hr
  | cons i r2 => rfl

theorem textVal_setTextAt (t : DNode) (p : Path) (s v : String) (q : Path)
    (h : getNode t p = some (.text s)) :
    textVal (setTextAt t p v) q = if q = p then some v else textVal t q := by
  rcases path_trichotomy p q with hq | ⟨r, hr, hq⟩ | ⟨r, hr, hq⟩ | ⟨h1, h2⟩
  · subst hq
    rw [if_pos rfl]
    unfold textVal setTextAt
    rw [getNode_updateAt_self _ t q _ h]
  · rw [if_neg (by rw [hq]; intro he; exact hr ((append_eq_self_iff p r).mp he))]
    subst hq
    unfold textVal setTextAt
    rw [getNode_append, getNode_append]
    rw [getNode_updateAt_self _ t p _ h, h]
    simp only [Option.some_bind]
    rw [getNode_text_ne _ r hr, getNode_text_ne _ r hr]
  · have hne : q ≠ p := by
      rw [hq]
      intro he
      exact hr ((append_eq_self_iff q r).mp he.symm)
    rw [if_neg hne]
    subst hq
    unfold textVal setTextAt
    rw [getNode_updateAt_above]
    cases hg : getNode t q with
    | none => rfl
    | some m =>
      simp only [Option.map_some']
      cases m with
      | text u => rw [updateAt_text _ u r hr]
      | elem tg a o cs =>
        cases r with
        | nil => exact absurd rfl hr
        | cons i r2 => rfl
  · rw [if_neg (by intro he; exact h2 ⟨[], by simp [he]⟩)]
    unfold textVal setTextAt
    rw [getNode_updateAt_incomp _ _ _ t h1 h2]

theorem elemInfo_setTextAt (t : DNode) (p : Path) (s v : String) (q : Path)
    (h : getNode t p = some (.text s)) :
    elemInfo (setTextAt t p v) q = elemInfo t q := by
  rcases path_trichotomy p q with hq | ⟨r, hr, hq⟩ | ⟨r, hr, hq⟩ | ⟨h1, h2⟩
  · subst hq
    unfold elemInfo setTextAt
    rw [getNode_updateAt_self _ t q _ h, h]
  · subst hq
    unfold elemInfo setTextAt
    rw [getNode_append, getNode_append]
    rw [getNode_updateAt_self _ t p _ h, h]
    simp only [Option.some_bind]
    rw [getNode_text_ne _ r hr, getNode_text_ne _ r hr]
  · subst hq
    unfold elemInfo setTextAt
    rw [getNode_updateAt_above]
    cases hg : getNode t q with
    | none => rfl
    | some m =>
      simp only [Option.map_some']
      cases m with
      | text u => rw [updateAt_text _ u r hr]
      | elem tg a o cs =>
        cases r with
        | nil => exact absurd rfl hr
        | cons i r2 =>
          show (match (DNode.elem tg a o
            (listModify (updateAt _ · r2) cs i) : DNode) with
            | .elem tg2 a2 o2 cs2 => some (tg2, a2, o2, cs2.length)
            | _ => none) = _
          simp [listModify_length]
  · unfold elemInfo setTextAt
    rw [getNode_updateAt_incomp _ _ _ t h1 h2]

theorem textVal_updateAt_attrsLocal (f : DNode → DNode) (hf : AttrsLocal f)
    (t : DNode) (p q : Path) :
    textVal (updateAt f t p) q = textVal t q := by
  rcases path_trichotomy p q with hq | ⟨r, hr, hq⟩ | ⟨r, hr, hq⟩ | ⟨h1, h2⟩
  · subst hq
    unfold textVal
    cases hg : getNode t q with
    | none => rw [updateAt_invalid f t q hg, hg]
    | some n =>
      rw [getNode_updateAt_self f t q n hg]
      cases n with
      | text s => rw [hf.1 s]
      | elem tg a o cs =>
        obtain ⟨a2, o2, hfe⟩ := hf.2 tg a o cs
        rw [hfe]
  · subst hq
    unfold textVal
    rw [getNode_append, getNode_append]
    cases hg : getNode t p with
    | none => rw [updateAt_invalid f t p hg, hg]
    | some n =>
      rw [getNode_updateAt_self f t p n hg]
      simp only [Option.some_bind]
      cases n with
      | text s => rw [hf.1 s]
      | elem tg a o cs =>
        obtain ⟨a2, o2, hfe⟩ := hf.2 tg a o cs
        rw [hfe]
        cases r with
        | nil => exact absurd rfl hr
        | cons i r2 => rfl
  · subst hq
    unfold textVal
    rw [getNode_updateAt_above]
    cases hg : getNode t q with
    | none => rfl
    | some m =>
      simp only [Option.map_some']
      cases m with
      | text u => rw [updateAt_text _ u r hr]
      | elem tg a o cs =>
        cases r with
        | nil => exact absurd rfl hr
        | cons i r2 => rfl
  · unfold textVal
    rw [getNode_updateAt_incomp _ _ _ t h1 h2]

theorem elemInfo_updateAt_attrsLocal_ne (f : DNode → DNode)
    (hf : AttrsLocal f) (t : DNode) (p q : Path) (hne : q ≠ p) :
    elemInfo (updateAt f t p) q = elemInfo t q := by
  rcases path_trichotomy p q with hq | ⟨r, hr, hq⟩ | ⟨r, hr, hq⟩ | ⟨h1, h2⟩
  · exact absurd hq hne
  · subst hq
    unfold elemInfo
    rw [getNode_append, getNode_append]
    cases hg : getNode t p with
    | none => rw [updateAt_invalid f t p hg, hg]
    | some n =>
      rw [getNode_updateAt_self f t p n hg]
      simp only [Option.some_bind]
      cases n with
      | text s => rw [hf.1 s]
      | elem tg a o cs =>
        obtain ⟨a2, o2, hfe⟩ := hf.2 tg a o cs
        rw [hfe]
        cases r with
        | nil => exact absurd rfl hr
        | cons i r2 => rfl
  · subst hq
    unfold elemInfo
    rw [getNode_updateAt_above]
    cases hg : getNode t q with
    | none => rfl
    | some m =>
      simp only [Option.map_some']
      cases m with
      | text u => rw [updateAt_text _ u r hr]
      | elem tg a o cs =>
        cases r with
        | nil => exact absurd rfl hr
        | cons i r2 =>
          show (match (DNode.elem tg a o
            (listModify (updateAt _ · r2) cs i) : DNode) with
            | .elem tg2 a2 o2 cs2 => some (tg2, a2, o2, cs2.length)
            | _ => none) = _
          simp [listModify_length]
  · unfold elemInfo
    rw [getNode_updateAt_incomp _ _ _ t h1 h2]

theorem markElemAt_attrsLocal : AttrsLocal (fun n => match n with
    | .elem tg a o cs =>
      .elem tg (setAttr a "data-translation" "true")
        (if origTruthy o then o else some cs) cs
    | n => n) :=
  ⟨fun s => rfl, fun tg a o cs =>
    ⟨setAttr a "data-translation" "true",
     if origTruthy o then o else some cs, rfl⟩⟩

theorem setAttrAt_attrsLocal (k v : String) :
    AttrsLocal (fun n => match n with
    | .elem tg a o cs => .elem tg (setAttr a k v) o cs
    | n => n) :=
  ⟨fun s => rfl, fun tg a o cs => ⟨setAttr a k v, o, rfl⟩⟩

theorem textVal_markElemAt (t : DNode) (p q : Path) :
    textVal (markElemAt t p) q = textVal t q :=
  textVal_updateAt_attrsLocal _ markElemAt_attrsLocal t p q

theorem textVal_setAttrAt (t : DNode) (p q : Path) (k v : String) :
    textVal (setAttrAt t p k v) q = textVal t q :=
  textVal_updateAt_attrsLocal _ (setAttrAt_attrsLocal k v) t p q

theorem elemInfo_markElemAt_ne (t : DNode) (p q : Path) (hne : q ≠ p) :
    elemInfo (markElemAt t p) q = elemInfo t q :=
  elemInfo_updateAt_attrsLocal_ne _ markElemAt_attrsLocal t p q hne

theorem elemInfo_setAttrAt_ne (t : DNode) (p q : Path) (k v : String)
    (hne : q ≠ p) : elemInfo (setAttrAt t p k v) q = elemInfo t q :=
  elemInfo_updateAt_attrsLocal_ne _ (setAttrAt_attrsLocal k v) t p q hne

theorem elemInfo_markElemAt_self (t : DNode) (p : Path) (tg : String)
    (a : List (String × String)) (o : Option (List DNode)) (cs : List DNode)
    (h : getNode t p = some (.elem tg a o cs)) :
    elemInfo (markElemAt t p) p =
      some (tg, setAttr a "data-translation" "true",
        (if origTruthy o then o else some cs), cs.length) := by
  unfold elemInfo markElemAt
  rw [getNode_updateAt_self _ t p _ h]

theorem elemInfo_setAttrAt_self (t : DNode) (p : Path) (k v : String)
    (tg : String) (a : List (String × String)) (o : Option (List DNode))
    (cs : List DNode) (h : getNode t p = some (.elem tg a o cs)) :
    elemInfo (setAttrAt t p k v) p =
      some (tg, setAttr a k v, o, cs.length) := by
  unfold elemInfo setAttrAt
  rw [getNode_updateAt_self _ t p _ h]

theorem getNode_setChildrenAt_below (t : DNode) (p : Path) (ns : List DNode)
    (tg : String) (a : List (String × String)) (o : Option (List DNode))
    (cs : List DNode) (h : getNode t p = some (.elem tg a o cs)) (r : Path) :
    getNode (setChildrenAt t p ns) (p ++ r) =
      getNode (.elem tg a o ns) r := by
  rw [getNode_append]
  unfold setChildrenAt
  rw [getNode_updateAt_self _ t p _ h]
  rfl

theorem textVal_setChildrenAt_out (t : DNode) (p : Path) (ns : List DNode)
    (q : Path) (hq : ¬ PIsPfx p q) :
    textVal (setChildrenAt t p ns) q = textVal t q := by
  rcases path_trichotomy p q with h1 | ⟨r, hr, h1⟩ | ⟨r, hr, h1⟩ | ⟨h1, h2⟩
  · exact absurd ⟨[], by simp [h1]⟩ hq
  · exact absurd ⟨r, h1⟩ hq
  · subst h1
    unfold textVal setChildrenAt
    rw [getNode_updateAt_above]
    cases hg : getNode t q with
    | none => rfl
    | some m =>
      simp only [Option.map_some']
      cases m with
      | text u => rw [updateAt_text _ u r hr]
      | elem tg2 a2 o2 cs2 =>
        cases r with
        | nil => exact absurd rfl hr
        | cons i r2 => rfl
  · unfold textVal setChildrenAt
    rw [getNode_updateAt_incomp _ _ _ t h1 h2]

theorem elemInfo_setChildrenAt_out (t : DNode) (p : Path) (ns : List DNode)
    (q : Path) (hq : ¬ PIsPfx p q) :
    elemInfo (setChildrenAt t p ns) q = elemInfo t q := by
  rcases path_trichotomy p q with h1 | ⟨r, hr, h1⟩ | ⟨r, hr, h1⟩ | ⟨h1, h2⟩
  · exact absurd ⟨[], by simp [h1]⟩ hq
  · exact absurd ⟨r, h1⟩ hq
  · subst h1
    unfold elemInfo setChildrenAt
    rw [getNode_updateAt_above]
    cases hg : getNode t q with
    | none => rfl
    | some m =>
      simp only [Option.map_some']
      cases m with
      | text u => rw [updateAt_text _ u r hr]
      | elem tg2 a2 o2 cs2 =>
        cases r with
        | nil => exact absurd rfl hr
        | cons i r2 =>
          show (match (DNode.elem tg2 a2 o2
            (listModify (updateAt _ · r2) cs2 i) : DNode) with
            | .elem tg3 a3 o3 cs3 => some (tg3, a3, o3, cs3.length)
            | _ => none) = _
          simp [listModify_length]
  · unfold elemInfo setChildrenAt
    rw [getNode_updateAt_incomp _ _ _ t h1 h2]

mutual
theorem shapeEqB_refl (a : DNode) : shapeEqB a a = true := by
  match a with
  | .text s => rfl
  | .elem tg at2 o cs =>
    unfold shapeEqB
    simp [shapeForestB_refl cs]
theorem shapeForestB_refl (cs : List DNode) : shapeForestB cs cs = true := by
  match cs with
  | [] => rfl
  | n :: ns =>
    unfold shapeForestB
    simp [shapeEqB_refl n, shapeForestB_refl ns]
end

mutual
theorem shapeEqB_trans (a b c : DNode) (h1 : shapeEqB a b = true)
    (h2 : shapeEqB b c = true) : shapeEqB a c = true := by
  match a, b, c with
  | .text _, .text _, .text _ => rfl
  | .text _, .text _, .elem _ _ _ _ => exact absurd h2 (by simp [shapeEqB])
  | .text _, .elem _ _ _ _, _ => exact absurd h1 (by simp [shapeEqB])
  | .elem _ _ _ _, .text _, _ => exact absurd h1 (by simp [shapeEqB])
  | .elem _ _ _ _, .elem _ _ _ _, .text _ => exact absurd h2 (by simp [shapeEqB])
  | .elem tg1 a1 o1 cs1, .elem tg2 a2 o2 cs2, .elem tg3 a3 o3 cs3 =>
    unfold shapeEqB at h1 h2 ⊢
    simp at h1 h2
    simp [h1.1.trans h2.1, shapeForestB_trans cs1 cs2 cs3 h1.2 h2.2]
theorem shapeForestB_trans (cs ds es : List DNode)
    (h1 : shapeForestB cs ds = true) (h2 : shapeForestB ds es = true) :
    shapeForestB cs es = true := by
  match cs, ds, es with
  | [], [], [] => rfl
  | [], [], _ :: _ => exact absurd h2 (by simp [shapeForestB])
  | [], _ :: _, _ => exact absurd h1 (by simp [shapeForestB])
  | _ :: _, [], _ => exact absurd h1 (by simp [shapeForestB])
  | _ :: _, _ :: _, [] => exact absurd h2 (by simp [shapeForestB])
  | n :: ns, m :: ms, k :: ks =>
    unfold shapeForestB at h1 h2 ⊢
    simp at h1 h2
    simp [shapeEqB_trans n m k h1.1 h2.1, shapeForestB_trans ns ms ks h1.2 h2.2]
end

theorem textVal_elem_cons (tg : String) (a : List (String × String))
    (o : Option (List DNode)) (cs : List DNode) (i : Nat) (q : Path) :
    textVal (.elem tg a o cs) (i :: q) =
      (match cs[i]? with
       | some c => textVal c q
       | none => none) := by
  cases h : cs[i]? with
  | none => simp [textVal, getNode, h]
  | some c => simp [textVal, getNode, h]

theorem elemInfo_elem_cons (tg : String) (a : List (String × String))
    (o : Option (List DNode)) (cs : List DNode) (i : Nat) (q : Path) :
    elemInfo (.elem tg a o cs) (i :: q) =
      (match cs[i]? with
       | some c => elemInfo c q
       | none => none) := by
  cases h : cs[i]? with
  | none => simp [elemInfo, getNode, h]
  | some c => simp [elemInfo, getNode, h]

mutual
theorem nodeExt (a b : DNode) (hs : shapeEqB a b = true)
    (ht : ∀ q, textVal a q = textVal b q)
    (he : ∀ q, elemInfo a q = elemInfo b q) : a = b := by
  match a, b with
  | .text s, .text u =>
    have := ht []
    simp [textVal, getNode] at this
    rw [this]
  | .text _, .elem _ _ _ _ => exact absurd hs (by simp [shapeEqB])
  | .elem _ _ _ _, .text _ => exact absurd hs (by simp [shapeEqB])
  | .elem tg1 a1 o1 cs1, .elem tg2 a2 o2 cs2 =>
    have h0 := he []
    simp [elemInfo, getNode] at h0
    obtain ⟨htag, hattrs, horig, _⟩ := h0
    have hcs : cs1 = cs2 := by
      refine forestExt cs1 cs2 ?_ ?_ ?_
      · unfold shapeEqB at hs
        simp at hs
        exact hs.2
      · intro i q
        have := ht (i :: q)
        rw [textVal_elem_cons, textVal_elem_cons] at this
        exact this
      · intro i q
        have := he (i :: q)
        rw [elemInfo_elem_cons, elemInfo_elem_cons] at this
        exact this
    rw [htag, hattrs, horig, hcs]
theorem forestExt (cs ds : List DNode) (hs : shapeForestB cs ds = true)
    (ht : ∀ (i : Nat) (q : Path),
      (match cs[i]? with
       | some c => textVal c q
       | none => none) =
      (match ds[i]? with
       | some c => textVal c q
       | none => none))
    (he : ∀ (i : Nat) (q : Path),
      (match cs[i]? with
       | some c => elemInfo c q
       | none => none) =
      (match ds[i]? with
       | some c => elemInfo c q
       | none => none)) : cs = ds := by
  match cs, ds with
  | [], [] => rfl
  | [], _ :: _ => exact absurd hs (by simp [shapeForestB])
  | _ :: _, [] => exact absurd hs (by simp [shapeForestB])
  | n :: ns, m :: ms =>
    unfold shapeForestB at hs
    simp at hs
    have hn : n = m := by
      refine nodeExt n m hs.1 ?_ ?_
      · intro q
        have := ht 0 q
        simpa using this
      · intro q
        have := he 0 q
        simpa using this
    have hns : ns = ms := by
      refine forestExt ns ms hs.2 ?_ ?_
      · intro i q
        have := ht (i + 1) q
        simpa using this
      · intro i q
        have := he (i + 1) q
        simpa using this
    rw [hn, hns]
end

mutual
theorem textContentExt (a b : DNode) (hs : shapeEqB a b = true)
    (ht : ∀ q, textVal a q = textVal b q) : textContent a = textContent b := by
  match a, b with
  | .text s, .text u =>
    have := ht []
    simp [textVal, getNode] at this
    simp [textContent, this]
  | .text _, .elem _ _ _ _ => exact absurd hs (by simp [shapeEqB])
  | .elem _ _ _ _, .text _ => exact absurd hs (by simp [shapeEqB])
  | .elem tg1 a1 o1 cs1, .elem tg2 a2 o2 cs2 =>
    show textContentF cs1 = textContentF cs2
    refine textContentFExt cs1 cs2 ?_ ?_
    · unfold shapeEqB at hs
      simp at hs
      exact hs.2
    · intro i q
      have := ht (i :: q)
      rw [textVal_elem_cons, textVal_elem_cons] at this
      exact this
theorem textContentFExt (cs ds : List DNode) (hs : shapeForestB cs ds = true)
    (ht : ∀ (i : Nat) (q : Path),
      (match cs[i]? with
       | some c => textVal c q
       | none => none) =
      (match ds[i]? with
       | some c => textVal c q
       | none => none)) : textContentF cs = textContentF ds := by
  match cs, ds with
  | [], [] => rfl
  | [], _ :: _ => exact absurd hs (by simp [shapeForestB])
  | _ :: _, [] => exact absurd hs (by simp [shapeForestB])
  | n :: ns, m :: ms =>
    unfold shapeForestB at hs
    simp at hs
    show textContent n ++ textContentF ns = textContent m ++ textContentF ms
    rw [textContentExt n m hs.1 (fun q => by have := ht 0 q; simpa using this)]
    rw [textContentFExt ns ms hs.2 (fun i q => by
      have := ht (i + 1) q
      simpa using this)]
end

mutual
theorem shapeOfPointwise (a b : DNode)
    (ht : ∀ q : Path, (textVal a q).isSome = (textVal b q).isSome)
    (he : ∀ q : Path, (elemInfo a q).map (fun x => (x.1, x.2.2.2)) =
      (elemInfo b q).map (fun x => (x.1, x.2.2.2))) :
    shapeEqB a b = true := by
  match a, b with
  | .text s, .text u => rfl
  | .text s, .elem tg a2 o cs =>
    have := ht []
    simp [textVal, getNode] at this
  | .elem tg a2 o cs, .text u =>
    have := ht []
    simp [textVal, getNode] at this
  | .elem tg1 a1 o1 cs1, .elem tg2 a2 o2 cs2 =>
    have h0 := he []
    simp [elemInfo, getNode] at h0
    unfold shapeEqB
    rw [Bool.and_eq_true]
    refine ⟨by simp [h0.1], ?_⟩
    refine forestOfPointwise cs1 cs2 h0.2 ?_ ?_
    · intro i q
      have := ht (i :: q)
      rw [textVal_elem_cons, textVal_elem_cons] at this
      exact this
    · intro i q
      have := he (i :: q)
      rw [elemInfo_elem_cons, elemInfo_elem_cons] at this
      exact this
theorem forestOfPointwise (cs ds : List DNode) (hlen : cs.length = ds.length)
    (ht : ∀ (i : Nat) (q : Path),
      ((match cs[i]? with
        | some c => textVal c q
        | none => none) : Option String).isSome =
      ((match ds[i]? with
        | some c => textVal c q
        | none => none) : Option String).isSome)
    (he : ∀ (i : Nat) (q : Path),
      ((match cs[i]? with
        | some c => elemInfo c q
        | none => none :
        Option (String × List (String × String) ×
          Option (List DNode) × Nat)).map (fun x => (x.1, x.2.2.2))) =
      ((match ds[i]? with
        | some c => elemInfo c q
        | none => none :
        Option (String × List (String × String) ×
          Option (List DNode) × Nat)).map (fun x => (x.1, x.2.2.2)))) :
    shapeForestB cs ds = true := by
  match cs, ds with
  | [], [] => rfl
  | [], _ :: _ => simp at hlen
  | _ :: _, [] => simp at hlen
  | n :: ns, m :: ms =>
    unfold shapeForestB
    simp only [Bool.and_eq_true]
    constructor
    · refine shapeOfPointwise n m ?_ ?_
      · intro q
        have := ht 0 q
        simpa using this
      · intro q
        have := he 0 q
        simpa using this
    · refine forestOfPointwise ns ms (by simpa using hlen) ?_ ?_
      · intro i q
        have := ht (i + 1) q
        simpa using this
      · intro i q
        have := he (i + 1) q
        simpa using this
end

theorem shape_setTextAt (t : DNode) (p : Path) (s v : String)
    (h : getNode t p = some (.text s)) :
    shapeEqB t (setTextAt t p v) = true := by
  refine shapeOfPointwise t (setTextAt t p v) ?_ ?_
  · intro q
    rw [textVal_setTextAt t p s v q h]
    by_cases hq : q = p
    · subst hq
      rw [if_pos rfl]
      unfold textVal
      rw [h]
      rfl
    · rw [if_neg hq]
  · intro q
    rw [elemInfo_setTextAt t p s v q h]

theorem shape_attrsLocal (f : DNode → DNode) (hf : AttrsLocal f) (t : DNode)
    (p : Path) : shapeEqB t (updateAt f t p) = true := by
  refine shapeOfPointwise t (updateAt f t p) ?_ ?_
  · intro q
    rw [textVal_updateAt_attrsLocal f hf t p q]
  · intro q
    by_cases hq : q = p
    · subst hq
      unfold elemInfo
      cases hg : getNode t q with
      | none => rw [updateAt_invalid f t q hg, hg]
      | some n =>
        rw [getNode_updateAt_self f t q n hg]
        cases n with
        | text s => rw [hf.1 s]
        | elem tg a o cs =>
          obtain ⟨a2, o2, hfe⟩ := hf.2 tg a o cs
          rw [hfe]
          rfl
    · rw [elemInfo_updateAt_attrsLocal_ne f hf t p q hq]

mutual
theorem markedNode_complete (n : DNode) (pfx : Path) (i : Nat) :
    ∀ r : Path, isMarkedAt n r = true → (pfx ++ i :: r) ∈ markedNode pfx i n := by
  match n with
  | .text s =>
    intro r hr
    unfold isMarkedAt at hr
    cases r with
    | nil => simp [getNode] at hr
    | cons j r2 => simp [getNode] at hr
  | .elem tg a o cs =>
    intro r hr
    unfold markedNode
    rw [List.mem_append]
    cases r with
    | nil =>
      unfold isMarkedAt at hr
      simp only [getNode] at hr
      left
      rw [if_pos (by simpa using hr)]
      simp
    | cons j r2 =>
      right
      unfold isMarkedAt at hr
      simp only [getNode] at hr
      cases hc : cs[j]? with
      | none => rw [hc] at hr; simp at hr
      | some c =>
        rw [hc] at hr
        have := markedForest_complete cs (pfx ++ [i]) 0 j r2 c hc
          (by unfold isMarkedAt; exact hr)
        simpa using this

theorem markedForest_complete (ns : List DNode) (pfx : Path) (i : Nat) :
    ∀ (j : Nat) (r : Path) (c : DNode), ns[j]? = some c →
      isMarkedAt c r = true → (pfx ++ (i + j) :: r) ∈ markedForest pfx i ns := by
  match ns with
  | [] =>
    intro j r c hc
    simp at hc
  | n :: ns =>
    intro j r c hc hm
    unfold markedForest
    rw [List.mem_append]
    cases j with
    | zero =>
      simp at hc
      subst hc
      left
      simpa using markedNode_complete n pfx i r hm
    | succ j2 =>
      right
      simp at hc
      have := markedForest_complete ns pfx (i + 1) j2 r c hc hm
      rw [show i + (j2 + 1) = i + 1 + j2 from by omega]
      exact this
end

theorem markedDescPaths_complete (root : DNode) (q : Path)
    (hm : isMarkedAt root q = true) (hq : q ≠ []) :
    q ∈ markedDescPaths root := by
  match root with
  | .text s =>
    unfold isMarkedAt at hm
    cases q with
    | nil => simp [getNode] at hm
    | cons j r => simp [getNode] at hm
  | .elem tg a o cs =>
    cases q with
    | nil => exact absurd rfl hq
    | cons j r =>
      unfold markedDescPaths
      unfold isMarkedAt at hm
      simp only [getNode] at hm
      cases hc : cs[j]? with
      | none => rw [hc] at hm; simp at hm
      | some c =>
        rw [hc] at hm
        have := markedForest_complete cs [] 0 j r c hc
          (by unfold isMarkedAt; exact hm)
        simpa using this

mutual
theorem firstTextNode_sound (n : DNode) (i : Nat) (q : Path)
    (h : firstTextNode i n = some q) :
    ∃ r s, q = i :: r ∧ getNode n r = some (.text s) := by
  match n with
  | .text s =>
    unfold firstTextNode at h
    exact ⟨[], s, by simpa using h.symm, rfl⟩
  | .elem tg a o cs =>
    unfold firstTextNode at h
    cases hf : firstTextForest 0 cs with
    | none => rw [hf] at h; simp at h
    | some q2 =>
      rw [hf] at h
      simp at h
      obtain ⟨j, r2, c, s, hge, hq2, hc, hg⟩ := firstTextForest_sound cs 0 q2 hf
      refine ⟨q2, s, h.symm, ?_⟩
      rw [hq2]
      simp only [getNode]
      simp at hc
      rw [hc]
      exact hg

theorem firstTextForest_sound (ns : List DNode) (i : Nat) (q : Path)
    (h : firstTextForest i ns = some q) :
    ∃ j r c s, i ≤ j ∧ q = j :: r ∧ ns[j - i]? = some c ∧
      getNode c r = some (.text s) := by
  match ns with
  | [] => simp [firstTextForest] at h
  | n :: ns =>
    unfold firstTextForest at h
    cases hn : firstTextNode i n with
    | some q2 =>
      rw [hn] at h
      simp at h
      subst h
      obtain ⟨r, s, hq2, hg⟩ := firstTextNode_sound n i q2 hn
      exact ⟨i, r, n, s, le_rfl, hq2, by simp, hg⟩
    | none =>
      rw [hn] at h
      obtain ⟨j, r, c, s, hge, hq, hc, hg⟩ :=
        firstTextForest_sound ns (i + 1) q h
      refine ⟨j, r, c, s, by omega, hq, ?_, hg⟩
      rw [show j - i = (j - (i + 1)) + 1 from by omega]
      simpa using hc
end

mutual
theorem firstTextNode_shape (n m : DNode) (i : Nat)
    (hs : shapeEqB n m = true) : firstTextNode i n = firstTextNode i m := by
  match n, m with
  | .text s, .text u => rfl
  | .text _, .elem _ _ _ _ => exact absurd hs (by simp [shapeEqB])
  | .elem _ _ _ _, .text _ => exact absurd hs (by simp [shapeEqB])
  | .elem tg1 a1 o1 cs1, .elem tg2 a2 o2 cs2 =>
    unfold firstTextNode
    unfold shapeEqB at hs
    simp at hs
    rw [firstTextForest_shape cs1 cs2 0 hs.2]
theorem firstTextForest_shape (cs ds : List DNode) (i : Nat)
    (hs : shapeForestB cs ds = true) :
    firstTextForest i cs = firstTextForest i ds := by
  match cs, ds with
  | [], [] => rfl
  | [], _ :: _ => exact absurd hs (by simp [shapeForestB])
  | _ :: _, [] => exact absurd hs (by simp [shapeForestB])
  | n :: ns, m :: ms =>
    unfold shapeForestB at hs
    simp at hs
    unfold firstTextForest
    rw [firstTextNode_shape n m i hs.1, firstTextForest_shape ns ms (i + 1) hs.2]
end

theorem tok_chars_sub (cs : List Char) (tok : Renderer.Tok)
    (htok : tok ∈ Renderer.scanT cs) (c : Char)
    (hc : c ∈ Renderer.tokText tok) : c ∈ cs := by
  rw [← Renderer.scanT_flatten cs]
  exact List.mem_flatMap.mpr ⟨tok, htok, hc⟩

theorem ctxLookup_mem (ctx : Renderer.Ctx) (k v : String)
    (h : Renderer.ctxLookup ctx k = some v) : ∃ kv ∈ ctx, kv.2 = v := by
  unfold Renderer.ctxLookup at h
  cases hf : List.find? (fun p => p.1 = k) ctx with
  | none => rw [hf] at h; exact absurd h (by simp)
  | some kv =>
    rw [hf] at h
    simp at h
    exact ⟨kv, List.mem_of_find?_eq_some hf, h⟩

theorem render_ok_no_lt (template : String) (ctx : Renderer.Ctx)
    (ht : NoLt template)
    (hctx : ∀ kv ∈ ctx, NoLt kv.2) (res : String)
    (h : Renderer.render false false template ctx = .ok res) : NoLt res := by
  unfold Renderer.render at h
  by_cases he : template = ""
  · rw [if_pos he] at h
    simp at h
    subst h
    exact ht
  · rw [if_neg he] at h
    rw [Renderer.renderScan_eq_toks] at h
    simp at h
    intro c hc
    rw [← h] at hc
    show c ≠ '<'
    have hc2 : c ∈ (Renderer.scanT template.data).flatMap
        (Renderer.renderTok false ctx) := hc
    obtain ⟨tok, htok, hctok⟩ := List.mem_flatMap.mp hc2
    match tok with
    | .lit c2 =>
      simp [Renderer.renderTok] at hctok
      subst hctok
      exact ht c (tok_chars_sub template.data _ htok c (by
        simp [Renderer.tokText]))
    | .ph raw name =>
      cases hlk : Renderer.ctxLookup ctx name with
      | some v =>
        simp only [Renderer.renderTok, hlk] at hctok
        simp at hctok
        obtain ⟨kv, hkv, hv⟩ := ctxLookup_mem ctx name v hlk
        exact hctx kv hkv c (by rw [hv]; exact hctok)
      | none =>
        simp only [Renderer.renderTok, hlk] at hctok
        have : c ∈ Renderer.tokText (.ph raw name) := hctok
        exact ht c (tok_chars_sub template.data _ htok c this)

theorem ctxInsert_mem (ctx : Renderer.Ctx) (k v : String)
    (kv : String × String) (h : kv ∈ Renderer.ctxInsert ctx k v) :
    kv ∈ ctx ∨ kv = (k, v) := by
  unfold Renderer.ctxInsert at h
  by_cases hex : List.any ctx (fun p => p.1 = k)
  · rw [if_pos hex] at h
    obtain ⟨kv0, hkv0, hmap⟩ := List.mem_map.mp h
    by_cases hk : kv0.1 = k
    · rw [if_pos hk] at hmap
      right; exact hmap.symm
    · rw [if_neg hk] at hmap
      left; rw [← hmap]; exact hkv0
  · rw [if_neg hex] at h
    rcases List.mem_append.mp h with h2 | h2
    · left; exact h2
    · right; simpa using h2

theorem buildContext_values (cats : List Category) (kv : String × String)
    (h : kv ∈ buildContext cats) :
    ∃ cat ∈ cats, ∃ tm ∈ cat.terms, kv.2 = tm.translated := by
  unfold buildContext at h
  suffices hgen : ∀ (cs : List Category) (ctx0 : Renderer.Ctx),
      kv ∈ cs.foldl (fun ctx c =>
        c.terms.foldl (fun ctx t =>
          if t.translated ≠ "" ∧ t.translated ≠ t.original then
            Renderer.ctxInsert ctx (templateKey t.template) t.translated
          else ctx) ctx) ctx0 →
      kv ∈ ctx0 ∨ ∃ cat ∈ cs, ∃ tm ∈ cat.terms, kv.2 = tm.translated by
    rcases hgen cats [] h with h2 | h2
    · simp at h2
    · exact h2
  intro cs
  induction cs with
  | nil => intro ctx0 h2; left; exact h2
  | cons c cs ih =>
    intro ctx0 h2
    simp only [List.foldl_cons] at h2
    rcases ih _ h2 with h3 | h3
    · have hinner : ∀ (ts : List Terms) (ctx1 : Renderer.Ctx),
          kv ∈ ts.foldl (fun ctx t =>
            if t.translated ≠ "" ∧ t.translated ≠ t.original then
              Renderer.ctxInsert ctx (templateKey t.template) t.translated
            else ctx) ctx1 →
          kv ∈ ctx1 ∨ ∃ tm ∈ ts, kv.2 = tm.translated := by
        intro ts
        induction ts with
        | nil => intro ctx1 h4; left; exact h4
        | cons t ts ih2 =>
          intro ctx1 h4
          simp only [List.foldl_cons] at h4
          rcases ih2 _ h4 with h5 | h5
          · by_cases hcond : t.translated ≠ "" ∧ t.translated ≠ t.original
            · rw [if_pos hcond] at h5
              rcases ctxInsert_mem _ _ _ _ h5 with h6 | h6
              · left; exact h6
              · right; exact ⟨t, by simp, by rw [h6]⟩
            · rw [if_neg hcond] at h5
              left; exact h5
          · right
            obtain ⟨tm, htm, hv⟩ := h5
            exact ⟨tm, by simp [htm], hv⟩
      rcases hinner c.terms ctx0 h3 with h4 | h4
      · left; exact h4
      · right
        obtain ⟨tm, htm, hv⟩ := h4
        exact ⟨c, by simp, tm, htm, hv⟩
    · right
      obtain ⟨cat, hcat, htm⟩ := h3
      exact ⟨cat, by simp [hcat], htm⟩

theorem applyTermsReplacement_no_lt (cats : List Category) (text : String)
    (ht : NoLt text) (hcats : TermsNoLt cats) :
    NoLt (applyTermsReplacement cats text) := by
  unfold applyTermsReplacement
  cases hr : Renderer.render false false text (buildContext cats) with
  | error e => exact ht
  | ok res =>
    refine render_ok_no_lt text (buildContext cats) ht ?_ res hr
    intro kv hkv
    obtain ⟨cat, hcat, tm, htm, hv⟩ := buildContext_values cats kv hkv
    rw [hv]
    exact hcats cat hcat tm htm

theorem containsSub_false_of_no_lt (pat : List Char) (hpat : ∃ tl, pat = '<' :: tl) :
    ∀ l : List Char, (∀ c ∈ l, c ≠ '<') → containsSub pat l = false := by
  obtain ⟨tl, hp⟩ := hpat
  subst hp
  intro l
  induction l with
  | nil => intro _; rfl
  | cons c rest ih =>
    intro hl
    unfold containsSub
    rw [Bool.or_eq_false_iff]
    constructor
    · unfold isPfxOfC
      have : c ≠ '<' := hl c (by simp)
      simp [Ne.symm this]
    · exact ih (fun c2 hc2 => hl c2 (by simp [hc2]))

theorem hasSpanSig_false_of_no_lt (s : String) (h : NoLt s) :
    hasSpanSig s = false := by
  unfold hasSpanSig
  exact containsSub_false_of_no_lt spanSig.data ⟨_, rfl⟩ s.data h

theorem find?_map_set (xs : List (String × String)) (k v k' : String) :
    List.find? (fun a => a.1 = k')
        (xs.map (fun x => if x.1 = k then (k, v) else x)) =
      if k' = k then
        (List.find? (fun x => x.1 = k) xs).map (fun _ => (k, v))
      else List.find? (fun a => a.1 = k') xs := by
  induction xs with
  | nil => by_cases h : k' = k <;> simp [h]
  | cons x xs ih =>
    simp only [List.map_cons]
    by_cases hx : x.1 = k
    · by_cases hk : k' = k
      · subst hk
        rw [if_pos rfl] at ih ⊢
        rw [List.find?_cons_of_pos _ (by rw [if_pos hx]; simp),
          List.find?_cons_of_pos _ (by simpa using hx)]
        rw [if_pos hx]
        simp
      · rw [if_neg hk] at ih ⊢
        rw [List.find?_cons_of_neg _ (by rw [if_pos hx]; simpa using fun h => hk h.symm),
          List.find?_cons_of_neg _ (by simpa using fun h => hk ((hx ▸ h : k = k')).symm), ih]
    · have hfx : (if x.1 = k then (k, v) else x) = x := if_neg hx
      rw [hfx]
      by_cases hxk : x.1 = k'
      · by_cases hk : k' = k
        · exact absurd (hxk.trans hk) hx
        · rw [if_neg hk] at ih ⊢
          rw [List.find?_cons_of_pos _ (by simpa using hxk),
            List.find?_cons_of_pos _ (by simpa using hxk)]
      · rw [List.find?_cons_of_neg _ (by simpa using hxk), ih]
        by_cases hk : k' = k
        · rw [if_pos hk, if_pos hk]
          rw [List.find?_cons_of_neg _ (by simpa using (hk ▸ hxk : ¬ x.1 = k))]
        · rw [if_neg hk, if_neg hk,
            List.find?_cons_of_neg _ (by simpa using hxk)]

theorem getAttr_setAttr (a : List (String × String)) (k v k' : String) :
    getAttr (setAttr a k v) k' = if k' = k then some v else getAttr a k' := by
  unfold setAttr getAttr
  by_cases h : List.any a (fun x => x.1 = k)
  · rw [if_pos h, find?_map_set]
    by_cases hk : k' = k
    · rw [if_pos hk, if_pos hk]
      cases hfind : List.find? (fun x => x.1 = k) a with
      | none =>
        rw [List.find?_eq_none] at hfind
        rw [List.any_eq_true] at h
        obtain ⟨x, hx, hxk⟩ := h
        exact absurd hxk (by simpa using hfind x hx)
      | some y => simp
    · rw [if_neg hk, if_neg hk]
  · rw [if_neg h, List.find?_append]
    have hnone : List.find? (fun x => x.1 = k') a = none ∨ k' ≠ k := by
      by_cases hk : k' = k
      · subst hk
        left
        rw [List.find?_eq_none]
        intro x hx
        rw [Bool.not_eq_true] at h
        rw [List.any_eq_false] at h
        exact h x hx
      · right; exact hk
    by_cases hk : k' = k
    · rcases hnone with hn | hn
      · rw [hn, if_pos hk]
        simp [List.find?, hk.symm]
      · exact absurd hk hn
    · rw [if_neg hk]
      cases hfa : List.find? (fun x => x.1 = k') a with
      | some y => simp
      | none =>
        simp only [Option.none_or]
        rw [List.find?_cons_of_neg _ (by simpa using fun hh => hk hh.symm)]
        simp [List.find?]

theorem setAttr_setAttr (a : List (String × String)) (k v w : String) :
    setAttr (setAttr a k v) k w = setAttr a k w := by
  unfold setAttr
  by_cases h : List.any a (fun x => x.1 = k)
  · rw [if_pos h, if_pos h]
    have h2 : List.any (a.map (fun x => if x.1 = k then (k, v) else x))
        (fun x => x.1 = k) = true := by
      simp only [List.any_eq_true] at h ⊢
      obtain ⟨x, hx, hxk⟩ := h
      have hxk2 : x.1 = k := of_decide_eq_true hxk
      exact ⟨(k, v), List.mem_map.mpr ⟨x, hx, by rw [if_pos hxk2]⟩, by simp⟩
    rw [if_pos h2, List.map_map]
    refine List.map_congr_left ?_
    intro x hx
    by_cases hxk : x.1 = k <;> simp [Function.comp, hxk]
  · rw [if_neg h, if_neg h]
    have h2 : List.any (a ++ [(k, v)]) (fun x => x.1 = k) = true := by
      simp
    rw [if_pos h2, List.map_append]
    have h3 : a.map (fun x => if x.1 = k then (k, w) else x) = a.map id := by
      refine List.map_congr_left ?_
      intro x hx
      have hne : ¬ x.1 = k := by
        intro hc
        rw [Bool.not_eq_true, List.any_eq_false] at h
        exact h x hx (by simpa using hc)
      simp [hne]
    rw [h3, List.map_id]
    simp

theorem isPfxOfN_refl_append (q r : Path) : isPfxOfN q (q ++ r) = true := by
  induction q with
  | nil => rfl
  | cons i q ih => simp [isPfxOfN, ih]

theorem isPfxOfN_iff (q p : Path) : isPfxOfN q p = true ↔ ∃ r, p = q ++ r := by
  induction q generalizing p with
  | nil => simp [isPfxOfN]
  | cons i q ih =>
    cases p with
    | nil =>
      simp only [isPfxOfN]
      constructor
      · intro h; exact absurd h (by simp)
      · rintro ⟨r, hr⟩; exact absurd hr (by simp)
    | cons j p =>
      simp only [isPfxOfN, Bool.and_eq_true, decide_eq_true_eq]
      rw [ih]
      constructor
      · rintro ⟨hij, r, hr⟩
        exact ⟨r, by simp [hij, hr]⟩
      · rintro ⟨r, hr⟩
        simp only [List.cons_append, List.cons.injEq] at hr
        exact ⟨hr.1.symm, r, hr.2⟩

theorem pfx_comparable (p q l : Path) (hp : PIsPfx p l) (hq : PIsPfx q l) :
    PIsPfx p q ∨ PIsPfx q p := by
  obtain ⟨r, hr⟩ := hp
  obtain ⟨s, hs⟩ := hq
  induction p generalizing q l with
  | nil => exact Or.inl ⟨q, rfl⟩
  | cons i p ih =>
    cases q with
    | nil => exact Or.inr ⟨i :: p, rfl⟩
    | cons j q =>
      cases l with
      | nil => exact absurd hr (by simp)
      | cons m l =>
        simp only [List.cons_append, List.cons.injEq] at hr hs
        have hij : i = j := hr.1.symm.trans hs.1
        rcases ih q l hr.2 hs.2 with ⟨u, hu⟩ | ⟨u, hu⟩
        · exact Or.inl ⟨u, by rw [hu, ← hij]; rfl⟩
        · exact Or.inr ⟨u, by rw [hu, hij]; rfl⟩

mutual
theorem shapeEqB_symm (a b : DNode) (h : shapeEqB a b = true) :
    shapeEqB b a = true := by
  match a, b with
  | .text _, .text _ => rfl
  | .text _, .elem _ _ _ _ => exact absurd h (by simp [shapeEqB])
  | .elem _ _ _ _, .text _ => exact absurd h (by simp [shapeEqB])
  | .elem tg1 a1 o1 cs1, .elem tg2 a2 o2 cs2 =>
    unfold shapeEqB at h ⊢
    simp at h
    simp [h.1, shapeForestB_symm cs1 cs2 h.2]
theorem shapeForestB_symm (cs ds : List DNode)
    (h : shapeForestB cs ds = true) : shapeForestB ds cs = true := by
  match cs, ds with
  | [], [] => rfl
  | [], _ :: _ => exact absurd h (by simp [shapeForestB])
  | _ :: _, [] => exact absurd h (by simp [shapeForestB])
  | n :: ns, m :: ms =>
    unfold shapeForestB at h ⊢
    simp at h
    simp [shapeEqB_symm n m h.1, shapeForestB_symm ns ms h.2]
end

theorem shapeForestB_length (cs ds : List DNode)
    (h : shapeForestB cs ds = true) : cs.length = ds.length := by
  match cs, ds with
  | [], [] => rfl
  | [], _ :: _ => exact absurd h (by simp [shapeForestB])
  | _ :: _, [] => exact absurd h (by simp [shapeForestB])
  | n :: ns, m :: ms =>
    unfold shapeForestB at h
    simp at h
    simp [shapeForestB_length ns ms h.2]

theorem shapeForestB_get (cs ds : List DNode) (i : Nat) (c d : DNode)
    (h : shapeForestB cs ds = true) (hc : cs[i]? = some c)
    (hd : ds[i]? = some d) : shapeEqB c d = true := by
  match cs, ds, i with
  | [], _, _ => simp at hc
  | _ :: _, [], _ => exact absurd h (by simp [shapeForestB])
  | n :: ns, m :: ms, 0 =>
    simp at hc hd
    unfold shapeForestB at h
    simp at h
    rw [← hc, ← hd]
    exact h.1
  | n :: ns, m :: ms, i + 1 =>
    simp at hc hd
    unfold shapeForestB at h
    simp at h
    exact shapeForestB_get ns ms i c d h.2 (by simpa using hc)
      (by simpa using hd)

theorem shape_getNode (q : Path) :
    ∀ (a b na : DNode), shapeEqB a b = true → getNode a q = some na →
      ∃ nb, getNode b q = some nb ∧ shapeEqB na nb = true := by
  induction q with
  | nil =>
    intro a b na hs hg
    simp [getNode] at hg
    exact ⟨b, rfl, hg ▸ hs⟩
  | cons i q ih =>
    intro a b na hs hg
    match a, b with
    | .text _, _ => simp [getNode] at hg
    | .elem _ _ _ _, .text _ => exact absurd hs (by simp [shapeEqB])
    | .elem tg1 a1 o1 cs1, .elem tg2 a2 o2 cs2 =>
      unfold shapeEqB at hs
      simp at hs
      rw [show getNode (DNode.elem tg1 a1 o1 cs1) (i :: q) =
          (match cs1[i]? with
           | some c => getNode c q
           | none => none) from rfl] at hg
      cases hc : cs1[i]? with
      | none => rw [hc] at hg; exact absurd hg (by simp)
      | some c =>
        rw [hc] at hg
        have hlen := shapeForestB_length cs1 cs2 hs.2
        have hi : i < cs2.length := by
          rw [← hlen]
          exact (List.getElem?_eq_some_iff.mp hc).1
        cases hd : cs2[i]? with
        | none =>
          rw [List.getElem?_eq_none_iff] at hd
          omega
        | some d =>
          obtain ⟨nb, hnb, hsh⟩ :=
            ih c d na (shapeForestB_get cs1 cs2 i c d hs.2 hc hd) hg
          exact ⟨nb, by
            rw [show getNode (DNode.elem tg2 a2 o2 cs2) (i :: q) =
                (match cs2[i]? with
                 | some c => getNode c q
                 | none => none) from rfl, hd]
            exact hnb, hsh⟩

theorem getNode_isSome_shape (a b : DNode) (q : Path)
    (hs : shapeEqB a b = true) :
    (getNode a q).isSome = (getNode b q).isSome := by
  cases hga : getNode a q with
  | some na =>
    obtain ⟨nb, hnb, _⟩ := shape_getNode q a b na hs hga
    rw [hnb]
    rfl
  | none =>
    cases hgb : getNode b q with
    | none => rfl
    | some nb =>
      obtain ⟨na, hna, _⟩ := shape_getNode q b a nb (shapeEqB_symm a b hs) hgb
      rw [hna] at hga
      exact absurd hga (by simp)

theorem textVal_append_node (t : DNode) (q r : Path) (n : DNode)
    (h : getNode t q = some n) : textVal t (q ++ r) = textVal n r := by
  unfold textVal
  rw [getNode_append, h, Option.some_bind]

theorem elemInfo_append_node (t : DNode) (q r : Path) (n : DNode)
    (h : getNode t q = some n) : elemInfo t (q ++ r) = elemInfo n r := by
  unfold elemInfo
  rw [getNode_append, h, Option.some_bind]

theorem elemInfo_some_iff (t : DNode) (q : Path) (tg : String)
    (a : List (String × String)) (o : Option (List DNode)) (k : Nat) :
    elemInfo t q = some (tg, a, o, k) ↔
      ∃ cs, getNode t q = some (.elem tg a o cs) ∧ cs.length = k := by
  unfold elemInfo
  cases hg : getNode t q with
  | none => simp
  | some n =>
    cases n with
    | text s => simp
    | elem tg2 a2 o2 cs2 =>
      constructor
      · intro h
        simp only [Option.some.injEq, Prod.mk.injEq] at h
        exact ⟨cs2, by simp [h.1, h.2.1, h.2.2.1], h.2.2.2⟩
      · rintro ⟨cs, h1, h2⟩
        simp only [Option.some.injEq, DNode.elem.injEq] at h1
        simp [h1.1, h1.2.1, h1.2.2.1, h1.2.2.2, h2]

theorem isMarkedAt_iff (t : DNode) (q : Path) :
    isMarkedAt t q = true ↔
      ∃ tg a o k, elemInfo t q = some (tg, a, o, k) ∧
        getAttr a "data-translation" = some "true" := by
  unfold isMarkedAt elemInfo
  cases hg : getNode t q with
  | none => simp
  | some n =>
    cases n with
    | text s => simp
    | elem tg2 a2 o2 cs2 =>
      simp only [Option.some.injEq, Prod.mk.injEq, decide_eq_true_eq]
      constructor
      · intro h
        exact ⟨tg2, a2, o2, cs2.length, ⟨rfl, rfl, rfl, rfl⟩, h⟩
      · rintro ⟨tg, a, o, k, ⟨h1, h2, h3, h4⟩, h5⟩
        rw [h2]
        exact h5

theorem childrenAt_some_iff (t : DNode) (q : Path) (cs : List DNode) :
    childrenAt t q = some cs ↔
      ∃ tg a o, getNode t q = some (.elem tg a o cs) := by
  unfold childrenAt
  cases hg : getNode t q with
  | none => simp
  | some n =>
    cases n with
    | text s => simp
    | elem tg2 a2 o2 cs2 =>
      constructor
      · intro h
        simp at h
        exact ⟨tg2, a2, o2, by rw [h]⟩
      · rintro ⟨tg, a, o, h⟩
        simp at h
        simp [h.2.2.2]

theorem cleanForest_get (ns : List DNode) (i : Nat) (c : DNode)
    (h : cleanForest ns = true) (hc : ns[i]? = some c) :
    cleanNode c = true := by
  match ns, i with
  | [], _ => simp at hc
  | n :: ns, 0 =>
    simp at hc
    unfold cleanForest at h
    simp at h
    rw [← hc]
    exact h.1
  | n :: ns, i + 1 =>
    unfold cleanForest at h
    simp at h
    exact cleanForest_get ns i c h.2 (by simpa using hc)

theorem noLtForest_get (ns : List DNode) (i : Nat) (c : DNode)
    (h : noLtForest ns = true) (hc : ns[i]? = some c) :
    noLtNode c = true := by
  match ns, i with
  | [], _ => simp at hc
  | n :: ns, 0 =>
    simp at hc
    unfold noLtForest at h
    simp at h
    rw [← hc]
    exact h.1
  | n :: ns, i + 1 =>
    unfold noLtForest at h
    simp at h
    exact noLtForest_get ns i c h.2 (by simpa using hc)

theorem clean_getNode (q : Path) : ∀ (t n : DNode), cleanNode t = true →
    getNode t q = some n → cleanNode n = true := by
  induction q with
  | nil =>
    intro t n hc hg
    simp [getNode] at hg
    rw [← hg]
    exact hc
  | cons i q ih =>
    intro t n hc hg
    match t with
    | .text _ => simp [getNode] at hg
    | .elem tg a o cs =>
      rw [show getNode (DNode.elem tg a o cs) (i :: q) =
          (match cs[i]? with
           | some c => getNode c q
           | none => none) from rfl] at hg
      cases hcc : cs[i]? with
      | none => rw [hcc] at hg; exact absurd hg (by simp)
      | some c =>
        rw [hcc] at hg
        unfold cleanNode at hc
        simp at hc
        exact ih c n (cleanForest_get cs i c hc.2 hcc) hg

theorem noLt_getNode (q : Path) : ∀ (t n : DNode), noLtNode t = true →
    getNode t q = some n → noLtNode n = true := by
  induction q with
  | nil =>
    intro t n hc hg
    simp [getNode] at hg
    rw [← hg]
    exact hc
  | cons i q ih =>
    intro t n hc hg
    match t with
    | .text _ => simp [getNode] at hg
    | .elem tg a o cs =>
      rw [show getNode (DNode.elem tg a o cs) (i :: q) =
          (match cs[i]? with
           | some c => getNode c q
           | none => none) from rfl] at hg
      cases hcc : cs[i]? with
      | none => rw [hcc] at hg; exact absurd hg (by simp)
      | some c =>
        rw [hcc] at hg
        unfold noLtNode at hc
        exact ih c n (noLtForest_get cs i c hc hcc) hg

theorem noLt_textVal (t : DNode) (r : Path) (s : String)
    (ht : noLtNode t = true) (h : textVal t r = some s) : NoLt s := by
  unfold textVal at h
  cases hg : getNode t r with
  | none => rw [hg] at h; exact absurd h (by simp)
  | some n =>
    rw [hg] at h
    cases n with
    | elem tg a o cs => simp at h
    | text u =>
      simp at h
      have := noLt_getNode r t (.text u) ht hg
      unfold noLtNode at this
      simp only [List.all_eq_true] at this
      intro c hc
      subst h
      simpa using this c hc

theorem clean_elem (t : DNode) (q : Path) (tg : String)
    (a : List (String × String)) (o : Option (List DNode)) (cs : List DNode)
    (ht : cleanNode t = true) (h : getNode t q = some (.elem tg a o cs)) :
    getAttr a "data-translation" = none ∧ o = none := by
  have := clean_getNode q t _ ht h
  unfold cleanNode at this
  simp at this
  exact ⟨this.1.1, this.1.2⟩

mutual
theorem markedNode_pfx (pfx : Path) (i : Nat) (n : DNode) :
    ∀ q ∈ markedNode pfx i n, ∃ r, q = pfx ++ i :: r := by
  match n with
  | .text _ => intro q hq; simp [markedNode] at hq
  | .elem tg a o cs =>
    intro q hq
    unfold markedNode at hq
    rcases List.mem_append.mp hq with h | h
    · refine ⟨[], ?_⟩
      by_cases hm : getAttr a "data-translation" = some "true"
      · rw [if_pos hm] at h
        simpa using h
      · rw [if_neg hm] at h
        simp at h
    · obtain ⟨j, r, hj, hr⟩ := markedForest_pfx (pfx ++ [i]) 0 cs q h
      exact ⟨j :: r, by simp [hr]⟩
theorem markedForest_pfx (pfx : Path) (i : Nat) (ns : List DNode) :
    ∀ q ∈ markedForest pfx i ns, ∃ j r, i ≤ j ∧ q = pfx ++ j :: r := by
  match ns with
  | [] => intro q hq; simp [markedForest] at hq
  | n :: ns =>
    intro q hq
    unfold markedForest at hq
    rcases List.mem_append.mp hq with h | h
    · obtain ⟨r, hr⟩ := markedNode_pfx pfx i n q h
      exact ⟨i, r, le_rfl, hr⟩
    · obtain ⟨j, r, hj, hr⟩ := markedForest_pfx pfx (i + 1) ns q h
      exact ⟨j, r, by omega, hr⟩
end

mutual
theorem markedNode_nodup (pfx : Path) (i : Nat) (n : DNode) :
    (markedNode pfx i n).Nodup := by
  match n with
  | .text _ => simp [markedNode]
  | .elem tg a o cs =>
    unfold markedNode
    refine List.Nodup.append ?_ (markedForest_nodup (pfx ++ [i]) 0 cs) ?_
    · by_cases hm : getAttr a "data-translation" = some "true" <;>
        simp [hm]
    · intro q hq hq2
      obtain ⟨j, r, hj, hr⟩ := markedForest_pfx (pfx ++ [i]) 0 cs q hq2
      by_cases hm : getAttr a "data-translation" = some "true"
      · rw [if_pos hm] at hq
        simp at hq
        rw [hq] at hr
        have := congrArg List.length hr
        simp at this
      · rw [if_neg hm] at hq
        simp at hq
theorem markedForest_nodup (pfx : Path) (i : Nat) (ns : List DNode) :
    (markedForest pfx i ns).Nodup := by
  match ns with
  | [] => simp [markedForest]
  | n :: ns =>
    unfold markedForest
    refine List.Nodup.append (markedNode_nodup pfx i n)
      (markedForest_nodup pfx (i + 1) ns) ?_
    intro q hq hq2
    obtain ⟨r, hr⟩ := markedNode_pfx pfx i n q hq
    obtain ⟨j, r2, hj, hr2⟩ := markedForest_pfx pfx (i + 1) ns q hq2
    rw [hr] at hr2
    have := List.append_cancel_left hr2
    simp at this
    omega
end

theorem markedDescPaths_nodup (root : DNode) : (markedDescPaths root).Nodup := by
  match root with
  | .text _ => simp [markedDescPaths]
  | .elem tg a o cs => exact markedForest_nodup [] 0 cs

theorem chunkList_take_flatten (B : Nat) (hB : 0 < B) (l : List Path)
    (k : Nat) : (((chunkList B l).take k).flatten) = l.take (k * B) := by
  cases l with
  | nil => simp [chunkList, chunkListF]
  | cons x xs =>
    cases k with
    | zero => simp
    | succ k =>
      rw [chunkList_cons B hB x xs, List.take_succ_cons, List.flatten_cons,
        chunkList_take_flatten B hB ((x :: xs).drop B) k]
      rw [show (k + 1) * B = B + k * B by ring, List.take_add]
termination_by l.length
decreasing_by simp; omega

theorem processBatch_state (pf : String → List DNode) (tr : MTranslator)
    (l : List Path) : ∀ (st : SessState),
    (processBatch pf tr st l).1 =
      l.foldl (fun s p => (processNode pf tr s p).1) st := by
  unfold processBatch
  suffices h : ∀ (st : SessState) (acc : List NodeResult),
      (l.foldl (fun acc p =>
        let r := processNode pf tr acc.1 p
        (r.1, acc.2 ++ [r.2])) (st, acc)).1 =
      l.foldl (fun s p => (processNode pf tr s p).1) st by
    intro st
    exact h st []
  induction l with
  | nil => intro st acc; rfl
  | cons p l ih =>
    intro st acc
    simp only [List.foldl_cons]
    exact ih _ _

theorem elemInfo_textVal_clash (t : DNode) (q : Path)
    (x : String × List (String × String) × Option (List DNode) × Nat)
    (s : String) (he : elemInfo t q = some x) (ht : textVal t q = some s) :
    False := by
  unfold elemInfo at he
  unfold textVal at ht
  cases hg : getNode t q with
  | none => rw [hg] at he; exact absurd he (by simp)
  | some n =>
    rw [hg] at he ht
    cases n with
    | text u => exact absurd he (by simp)
    | elem tg a o cs => exact absurd ht (by simp)

theorem owners_elemInfo (t0 : DNode) (q : Path) (hq : q ∈ Owners t0) :
    ∃ tg a o k, elemInfo t0 q = some (tg, a, o, k) := by
  obtain ⟨p, hp, hpd⟩ := List.mem_map.mp hq
  obtain ⟨s, tg, a, hs, ho, hacc⟩ := collectTextNodes_sound t0 p hp
  unfold ownerData at ho
  cases he : elemInfo t0 p.dropLast with
  | none => rw [he] at ho; exact absurd ho (by simp)
  | some x =>
    rw [he] at ho
    simp at ho
    exact ⟨tg, a, x.2.2.1, x.2.2.2, by
      rw [← hpd, he, ← ho.1, ← ho.2]⟩

theorem collect_ne_nil (t0 : DNode) (p : Path)
    (hp : p ∈ collectTextNodes t0) : p ≠ [] := by
  intro he
  obtain ⟨s, tg, a, hs, ho, hacc⟩ := collectTextNodes_sound t0 p hp
  subst he
  unfold ownerData at ho
  cases hei : elemInfo t0 (List.dropLast []) with
  | none => rw [hei] at ho; exact absurd ho (by simp)
  | some x =>
    exact elemInfo_textVal_clash t0 [] x s (by simpa using hei) hs

theorem owner_children_nonempty (t0 : DNode) (q : Path) (hq : q ∈ Owners t0)
    (tg : String) (a : List (String × String)) (o : Option (List DNode))
    (cs : List DNode) (hg : getNode t0 q = some (.elem tg a o cs)) :
    serializedEmpty cs = false := by
  obtain ⟨p, hp, hpd⟩ := List.mem_map.mp hq
  obtain ⟨s, tg2, a2, hs, ho, hacc⟩ := collectTextNodes_sound t0 p hp
  have hpn : p ≠ [] := collect_ne_nil t0 p hp
  have hsplit : p.dropLast ++ [p.getLast hpn] = p :=
    List.dropLast_append_getLast hpn
  have hts : textVal t0 (p.dropLast ++ [p.getLast hpn]) = some s := by
    rw [hsplit]; exact hs
  rw [← hpd] at hg
  rw [textVal_append_node t0 p.dropLast [p.getLast hpn] _ hg] at hts
  unfold textVal at hts
  rw [show getNode (DNode.elem tg a o cs) [p.getLast hpn] =
      (match cs[p.getLast hpn]? with
       | some c => getNode c []
       | none => none) from rfl] at hts
  cases hcc : cs[p.getLast hpn]? with
  | none => rw [hcc] at hts; exact absurd hts (by simp)
  | some c =>
    rw [hcc] at hts
    simp only [getNode] at hts
    cases c with
    | elem _ _ _ _ => exact absurd hts (by simp)
    | text u =>
      simp at hts
      have hmem : DNode.text u ∈ cs := by
        have := List.getElem?_mem hcc
        exact this
      have hu : u ≠ "" := by
        have haccept := (accept_iff tg2 a2 s).mp hacc
        intro hue
        have hs0 : s = "" := by rw [← hts, hue]
        have h3 := haccept.2.2.1
        rw [hs0] at h3
        exact h3 (by decide)
      cases hse : serializedEmpty cs with
      | false => rfl
      | true =>
        unfold serializedEmpty at hse
        rw [List.all_eq_true] at hse
        have := hse _ hmem
        unfold serializedEmptyNode at this
        simp at this
        exact absurd this hu

theorem textVal_isSome_shape (a b : DNode) (q : Path)
    (hs : shapeEqB a b = true) :
    (textVal a q).isSome = (textVal b q).isSome := by
  unfold textVal
  cases hga : getNode a q with
  | none =>
    have h2 := getNode_isSome_shape a b q hs
    rw [hga] at h2
    cases hgb : getNode b q with
    | none => rfl
    | some m => rw [hgb] at h2; simp at h2
  | some n =>
    obtain ⟨m, hm, hsh⟩ := shape_getNode q a b n hs hga
    rw [hm]
    cases n with
    | text s =>
      cases m with
      | text u => rfl
      | elem _ _ _ _ => exact absurd hsh (by simp [shapeEqB])
    | elem tg a2 o cs =>
      cases m with
      | text u => exact absurd hsh (by simp [shapeEqB])
      | elem _ _ _ _ => rfl

theorem inv_getNode_frame (t0 : DNode) (pOwn M : List Path) (T : DNode)
    (inv : Inv t0 pOwn M T) (q : Path)
    (hq : ∀ q2 ∈ M, ¬ PIsPfx q2 q ∧ ¬ PIsPfx q q2) :
    getNode T q = getNode t0 q := by
  have htv : ∀ r, textVal T (q ++ r) = textVal t0 (q ++ r) := by
    intro r
    cases h0 : textVal t0 (q ++ r) with
    | some s =>
      rcases inv.texts (q ++ r) s h0 with h | ⟨q2, hq2, hpf, s2, hv, hn⟩
      · exact h
      · have hcmp := pfx_comparable q2 q (q ++ r)
          ((isPfxOfN_iff q2 (q ++ r)).mp hpf) ⟨r, rfl⟩
        rcases hcmp with h2 | h2
        · exact absurd h2 (hq q2 hq2).1
        · exact absurd h2 (hq q2 hq2).2
    | none =>
      have := textVal_isSome_shape T t0 (q ++ r) inv.shape
      rw [h0] at this
      simp at this
      exact this
  have hei : ∀ r, elemInfo T (q ++ r) = elemInfo t0 (q ++ r) := by
    intro r
    refine inv.unmark (q ++ r) ?_
    intro hmem
    exact (hq (q ++ r) hmem).2 ⟨r, rfl⟩
  cases hg0 : getNode t0 q with
  | none =>
    have h2 := getNode_isSome_shape T t0 q inv.shape
    rw [hg0] at h2
    cases hgT : getNode T q with
    | none => rfl
    | some m => rw [hgT] at h2; simp at h2
  | some n0 =>
    obtain ⟨nT, hgT, hsh⟩ :=
      shape_getNode q t0 T n0 (shapeEqB_symm T t0 inv.shape) hg0
    rw [hgT]
    refine congrArg some (nodeExt nT n0 (shapeEqB_symm n0 nT hsh) ?_ ?_)
    · intro r
      rw [← textVal_append_node T q r nT hgT,
        ← textVal_append_node t0 q r n0 hg0]
      exact htv r
    · intro r
      rw [← elemInfo_append_node T q r nT hgT,
        ← elemInfo_append_node t0 q r n0 hg0]
      exact hei r

theorem inv_texts_noLt (t0 : DNode) (pOwn M : List Path) (T : DNode)
    (inv : Inv t0 pOwn M T) (hn : noLtNode t0 = true) :
    ∀ r s, textVal T r = some s → NoLt s := by
  intro r s hv
  have hsome := textVal_isSome_shape T t0 r inv.shape
  rw [hv] at hsome
  cases h0 : textVal t0 r with
  | none => rw [h0] at hsome; simp at hsome
  | some s0 =>
    rcases inv.texts r s0 h0 with h | ⟨q2, hq2, hpf, s2, hv2, hnl⟩
    · rw [hv] at h
      simp at h
      rw [h]
      exact noLt_textVal t0 r s0 hn h0
    · rw [hv] at hv2
      simp at hv2
      rw [hv2]
      exact hnl

theorem markedOk_isMarkedAt (root : DNode) (q : Path)
    (h : MarkedOk root q) : isMarkedAt root q = true := by
  obtain ⟨tg, a, o, cs, hg, ha⟩ := h
  unfold isMarkedAt
  rw [hg]
  simp [ha]

theorem inv_marked_iff (t0 : DNode) (pOwn M : List Path) (T : DNode)
    (inv : Inv t0 pOwn M T) (hc : cleanNode t0 = true)
    (hvalid : ∀ q ∈ pOwn, ∃ tg a o k, elemInfo t0 q = some (tg, a, o, k)) :
    ∀ e, isMarkedAt T e = true ↔ e ∈ M := by
  intro e
  constructor
  · intro hm
    by_contra hne
    obtain ⟨tg, a2, o2, k, he, ha⟩ := (isMarkedAt_iff T e).mp hm
    rw [inv.unmark e hne] at he
    obtain ⟨cs, hg, hk⟩ := (elemInfo_some_iff t0 e tg a2 o2 k).mp he
    have := (clean_elem t0 e tg a2 o2 cs hc hg).1
    rw [this] at ha
    exact absurd ha (by simp)
  · intro hmem
    obtain ⟨tg, a, o, k, he⟩ := hvalid e (inv.omem e hmem)
    have h2 := inv.mark e hmem tg a o k he
    refine (isMarkedAt_iff T e).mpr
      ⟨tg, setAttr a "data-translation" "true", childrenAt t0 e, k, h2, ?_⟩
    rw [getAttr_setAttr]
    simp

theorem inv_markedDesc_iff (t0 : DNode) (pOwn M : List Path) (T : DNode)
    (inv : Inv t0 pOwn M T) (hc : cleanNode t0 = true)
    (hvalid : ∀ q ∈ pOwn, ∃ tg a o k, elemInfo t0 q = some (tg, a, o, k))
    (hnil : [] ∉ M) :
    ∀ e, e ∈ markedDescPaths T ↔ e ∈ M := by
  intro e
  constructor
  · intro hm
    exact (inv_marked_iff t0 pOwn M T inv hc hvalid e).mp
      (markedOk_isMarkedAt T e (markedDescPaths_valid T e hm))
  · intro hmem
    refine markedDescPaths_complete T e
      ((inv_marked_iff t0 pOwn M T inv hc hvalid e).mpr hmem) ?_
    intro he
    rw [he] at hmem
    exact hnil hmem

theorem pfx_trans (a b c : Path) (h1 : PIsPfx a b) (h2 : PIsPfx b c) :
    PIsPfx a c := by
  obtain ⟨r1, hr1⟩ := h1
  obtain ⟨r2, hr2⟩ := h2
  exact ⟨r1 ++ r2, by rw [hr2, hr1, List.append_assoc]⟩

theorem getNode_elem_cons (tg : String) (a : List (String × String))
    (o : Option (List DNode)) (cs : List DNode) (j : Nat) (r : Path) :
    getNode (DNode.elem tg a o cs) (j :: r) =
      (match cs[j]? with
       | some c => getNode c r
       | none => none) := rfl

theorem updateTextNode_true_eq (pf : String → List DNode) (t : DNode)
    (p : Path) (v s : String) (h : textVal t p = some s) :
    updateTextNode pf t p v true =
      if p ≠ [] ∧ s ≠ v then
        (if hasSpanSig v then
           spliceChildAt t p.dropLast (p.getLastD 0) (pf v)
         else setTextAt t p v)
      else t := by
  unfold updateTextNode
  rw [h]
  rfl

theorem updateTextNode_false_eq (pf : String → List DNode) (t : DNode)
    (p : Path) (v s : String) (h : textVal t p = some s) :
    updateTextNode pf t p v false =
      if p ≠ [] ∧ s ≠ v then
        (if hasSpanSig v then
           spliceChildAt (markElemAt t p.dropLast) p.dropLast (p.getLastD 0)
             (pf v)
         else setTextAt (markElemAt t p.dropLast) p v)
      else t := by
  unfold updateTextNode
  rw [h]
  rfl

theorem applyReplacementStep_facts (pf : String → List DNode)
    (cats : List Category) (T : DNode) (q : Path)
    (hnl : ∀ r s, textVal T r = some s → NoLt s)
    (hcats : TermsNoLt cats) :
    (∀ e, elemInfo (applyReplacementStep pf cats T q) e = elemInfo T e) ∧
    shapeEqB T (applyReplacementStep pf cats T q) = true ∧
    (∀ r s, textVal (applyReplacementStep pf cats T q) r = some s →
      NoLt s) ∧
    (∀ r, ¬ PIsPfx q r →
      textVal (applyReplacementStep pf cats T q) r = textVal T r) ∧
    (∀ e, ¬ PIsPfx q e → ¬ PIsPfx e q →
      getNode (applyReplacementStep pf cats T q) e = getNode T e) ∧
    (∀ cs rel, childrenAt T q = some cs → firstTextForest 0 cs = some rel →
      textVal (applyReplacementStep pf cats T q) (q ++ rel) =
        some (applyTermsReplacement cats ((textVal T (q ++ rel)).getD ""))) := by
  cases hc : childrenAt T q with
  | none =>
    have hstep : applyReplacementStep pf cats T q = T := by
      unfold applyReplacementStep
      rw [hc]
    rw [hstep]
    exact ⟨fun e => rfl, shapeEqB_refl T, hnl, fun r _ => rfl,
      fun e _ _ => rfl,
      fun cs rel hcs _ => absurd hcs (by simp)⟩
  | some cs =>
    cases hf : firstTextForest 0 cs with
    | none =>
      have hstep : applyReplacementStep pf cats T q = T := by
        unfold applyReplacementStep
        rw [hc]
        show (match firstTextForest 0 cs with
          | some rel => updateTextNode pf T (q ++ rel)
              (applyTermsReplacement cats ((textVal T (q ++ rel)).getD ""))
              true
          | none => T) = _
        rw [hf]
      rw [hstep]
      refine ⟨fun e => rfl, shapeEqB_refl T, hnl, fun r _ => rfl,
        fun e _ _ => rfl, fun cs2 rel hcs hrel => ?_⟩
      have hcs2 : cs = cs2 := by simpa using hcs
      rw [← hcs2] at hrel
      rw [hf] at hrel
      exact absurd hrel (by simp)
    | some rel =>
      have hstep : applyReplacementStep pf cats T q =
          updateTextNode pf T (q ++ rel)
            (applyTermsReplacement cats ((textVal T (q ++ rel)).getD ""))
            true := by
        unfold applyReplacementStep
        rw [hc]
        show (match firstTextForest 0 cs with
          | some rel => updateTextNode pf T (q ++ rel)
              (applyTermsReplacement cats ((textVal T (q ++ rel)).getD ""))
              true
          | none => T) = _
        rw [hf]
      obtain ⟨tg, a, o, hg⟩ := (childrenAt_some_iff T q cs).mp hc
      obtain ⟨j, r0, c, s, hj, hrel0, hcj, hgc⟩ :=
        firstTextForest_sound cs 0 rel hf
      have hgrel : getNode T (q ++ rel) = some (.text s) := by
        rw [getNode_append, hg, Option.some_bind, hrel0, getNode_elem_cons]
        simp at hcj
        rw [hcj]
        exact hgc
      have htv : textVal T (q ++ rel) = some s := by
        unfold textVal
        rw [hgrel]
      have hsnl : NoLt s := hnl _ _ htv
      have hvnl : NoLt (applyTermsReplacement cats s) :=
        applyTermsReplacement_no_lt cats s hsnl hcats
      by_cases heq : s = applyTermsReplacement cats s
      · have hres : applyReplacementStep pf cats T q = T := by
          rw [hstep, updateTextNode_true_eq pf T (q ++ rel) _ s htv,
            if_neg (fun hcond => hcond.2 (by
              rw [htv]
              simp only [Option.getD_some]
              exact heq))]
        rw [hres]
        refine ⟨fun e => rfl, shapeEqB_refl T, hnl, fun r _ => rfl,
          fun e _ _ => rfl, fun cs2 rel2 hcs hrel => ?_⟩
        have hcs2 : cs = cs2 := by simpa using hcs
        rw [← hcs2] at hrel
        rw [hf] at hrel
        have hrel2 : rel = rel2 := by simpa using hrel
        rw [← hrel2, htv]
        simp [← heq]
      · have hne : q ++ rel ≠ [] := by
          rw [hrel0]
          simp
        have hres : applyReplacementStep pf cats T q =
            setTextAt T (q ++ rel) (applyTermsReplacement cats s) := by
          rw [hstep, updateTextNode_true_eq pf T (q ++ rel) _ s htv,
            if_pos ⟨hne, by
              rw [htv]
              simp only [Option.getD_some]
              exact heq⟩,
            if_neg (by
              rw [htv]
              simp only [Option.getD_some]
              rw [hasSpanSig_false_of_no_lt _ hvnl]
              simp)]
          rw [htv]
          simp only [Option.getD_some]
        rw [hres]
        have helem : ∀ e, elemInfo (setTextAt T (q ++ rel)
            (applyTermsReplacement cats s)) e = elemInfo T e :=
          fun e => elemInfo_setTextAt T (q ++ rel) s _ e hgrel
        have hshape : shapeEqB T (setTextAt T (q ++ rel)
            (applyTermsReplacement cats s)) = true :=
          shape_setTextAt T (q ++ rel) s _ hgrel
        have htva : ∀ r2, textVal (setTextAt T (q ++ rel)
            (applyTermsReplacement cats s)) r2 =
            if r2 = q ++ rel then some (applyTermsReplacement cats s)
            else textVal T r2 :=
          fun r2 => textVal_setTextAt T (q ++ rel) s _ r2 hgrel
        refine ⟨helem, hshape, ?_, ?_, ?_, ?_⟩
        · intro r2 s2 hv2
          rw [htva r2] at hv2
          by_cases hr2 : r2 = q ++ rel
          · rw [if_pos hr2] at hv2
            simp at hv2
            rw [← hv2]
            exact hvnl
          · rw [if_neg hr2] at hv2
            exact hnl r2 s2 hv2
        · intro r2 hnp
          rw [htva r2,
            if_neg (fun h => hnp (show PIsPfx q r2 from by
              rw [h]; exact ⟨rel, rfl⟩))]
        · intro e h1 h2
          unfold setTextAt
          refine getNode_updateAt_incomp _ (q ++ rel) e T ?_ ?_
          · intro hp
            exact h1 (pfx_trans q (q ++ rel) e ⟨rel, rfl⟩ hp)
          · intro hp
            rcases pfx_comparable e q (q ++ rel) hp ⟨rel, rfl⟩ with h3 | h3
            · exact h2 h3
            · exact h1 h3
        · intro cs2 rel2 hcs hrel
          have hcs2 : cs = cs2 := by simpa using hcs
          rw [← hcs2] at hrel
          rw [hf] at hrel
          have hrel2 : rel = rel2 := by simpa using hrel
          rw [← hrel2]
          rw [htv, htva, if_pos rfl]
          simp

theorem applyAllFold (pf : String → List DNode) (cats : List Category)
    (hcats : TermsNoLt cats) :
    ∀ (l : List Path) (T : DNode),
    (∀ r s, textVal T r = some s → NoLt s) →
    l.Pairwise (fun a b => ¬ PIsPfx a b ∧ ¬ PIsPfx b a) →
    (∀ e, elemInfo (l.foldl (applyReplacementStep pf cats) T) e =
      elemInfo T e) ∧
    shapeEqB T (l.foldl (applyReplacementStep pf cats) T) = true ∧
    (∀ r s, textVal (l.foldl (applyReplacementStep pf cats) T) r = some s →
      NoLt s) ∧
    (∀ r, (∀ q ∈ l, ¬ PIsPfx q r) →
      textVal (l.foldl (applyReplacementStep pf cats) T) r = textVal T r) ∧
    (∀ q ∈ l, ∀ cs rel, childrenAt T q = some cs →
      firstTextForest 0 cs = some rel →
      textVal (l.foldl (applyReplacementStep pf cats) T) (q ++ rel) =
        some (applyTermsReplacement cats ((textVal T (q ++ rel)).getD ""))) := by
  intro l
  induction l with
  | nil =>
    intro T hnl _
    exact ⟨fun e => rfl, shapeEqB_refl T, hnl, fun r _ => rfl,
      fun q hq => absurd hq (by simp)⟩
  | cons q l ih =>
    intro T hnl hpair
    obtain ⟨hq, htail⟩ := List.pairwise_cons.mp hpair
    obtain ⟨sElem, sShape, sNoLt, sFrame, sNode, sMain⟩ :=
      applyReplacementStep_facts pf cats T q hnl hcats
    obtain ⟨iElem, iShape, iNoLt, iFrame, iMain⟩ :=
      ih (applyReplacementStep pf cats T q) sNoLt htail
    simp only [List.foldl_cons]
    refine ⟨?_, ?_, iNoLt, ?_, ?_⟩
    · intro e
      rw [iElem e, sElem e]
    · exact shapeEqB_trans T _ _ sShape iShape
    · intro r hr
      rw [iFrame r (fun q2 hq2 => hr q2 (by simp [hq2])),
        sFrame r (hr q (by simp))]
    · intro q2 hq2 cs rel hcs hrel
      rcases List.mem_cons.mp hq2 with hq2e | hq2l
      · subst hq2e
        rw [iFrame (q2 ++ rel) ?_]
        · exact sMain cs rel hcs hrel
        · intro b hb hpb
          rcases pfx_comparable b q2 (q2 ++ rel) hpb ⟨rel, rfl⟩ with h3 | h3
          · exact (hq b hb).2 h3
          · exact (hq b hb).1 h3
      · have hinc := hq q2 hq2l
        have hgn : getNode (applyReplacementStep pf cats T q) q2 =
            getNode T q2 := sNode q2 hinc.1 hinc.2
        have hca : childrenAt (applyReplacementStep pf cats T q) q2 =
            some cs := by
          unfold childrenAt
          rw [hgn]
          exact hcs
        have htv2 : textVal (applyReplacementStep pf cats T q) (q2 ++ rel) =
            textVal T (q2 ++ rel) := by
          refine sFrame (q2 ++ rel) ?_
          intro hp
          rcases pfx_comparable q q2 (q2 ++ rel) hp ⟨rel, rfl⟩ with h3 | h3
          · exact hinc.1 h3
          · exact hinc.2 h3
        rw [← htv2]
        exact iMain q2 hq2l cs rel hca hrel

theorem termsNoLt_set (cats : List Category) (i : Nat) (upd : Category)
    (h1 : TermsNoLt cats) (h2 : ∀ tm ∈ upd.terms, NoLt tm.translated) :
    TermsNoLt (cats.set i upd) := by
  intro cat hcat tm htm
  rcases List.mem_or_eq_of_mem_set hcat with h | h
  · exact h1 cat h tm htm
  · subst h
    exact h2 tm htm

theorem termsNoLt_insertTerm (gIdx : Nat) (acc : List Category × Bool)
    (t : Terms) (h1 : TermsNoLt acc.1) (h2 : NoLt t.translated) :
    TermsNoLt (Glossary.insertTerm gIdx acc t).1 := by
  unfold Glossary.insertTerm
  cases hg : acc.1[gIdx]? with
  | none => exact h1
  | some g =>
    show TermsNoLt
      (if g.terms.any (fun u => u.original = t.original) then acc
       else (acc.1.set gIdx { g with terms := g.terms ++ [t] }, true)).1
    by_cases hany : g.terms.any (fun u => u.original = t.original)
    · rw [if_pos hany]
      exact h1
    · rw [if_neg hany]
      refine termsNoLt_set acc.1 gIdx _ h1 ?_
      intro tm htm
      simp at htm
      rcases htm with h | h
      · exact h1 g (List.getElem?_mem hg) tm h
      · rw [h]
        exact h2

theorem termsNoLt_insert_fold (new : List Terms) :
    ∀ (acc : List Category × Bool) (gIdx : Nat), TermsNoLt acc.1 →
    (∀ tm ∈ new, NoLt tm.translated) →
    TermsNoLt (new.foldl (Glossary.insertTerm gIdx) acc).1 := by
  induction new with
  | nil => intro acc _ h1 _; exact h1
  | cons t new ih =>
    intro acc gIdx h1 h2
    simp only [List.foldl_cons]
    exact ih _ gIdx
      (termsNoLt_insertTerm gIdx acc t h1 (h2 t (by simp)))
      (fun tm htm => h2 tm (by simp [htm]))

theorem termsNoLt_addNewTerms (cats : List Category) (new : List Terms)
    (h1 : TermsNoLt cats) (h2 : ∀ tm ∈ new, NoLt tm.translated) :
    TermsNoLt (Glossary.addNewTerms cats new).1 := by
  unfold Glossary.addNewTerms
  by_cases hn : new = []
  · rw [if_pos hn]
    exact h1
  · rw [if_neg hn]
    cases hfind : cats.findIdx? (fun c => c.name = "General") with
    | some i =>
      exact termsNoLt_insert_fold new (cats, false) i h1 h2
    | none =>
      refine termsNoLt_insert_fold new _ cats.length ?_ h2
      intro cat hcat tm htm
      rcases List.mem_append.mp hcat with h | h
      · exact h1 cat h tm htm
      · simp at h
        rw [h] at htm
        simp at htm

theorem sessFold_tree (f : SessState → Nat → SessState)
    (h : ∀ st i, (f st i).tree = st.tree) :
    ∀ (l : List Nat) (st : SessState), (l.foldl f st).tree = st.tree := by
  intro l
  induction l with
  | nil => intro st; rfl
  | cons i l ih =>
    intro st
    simp only [List.foldl_cons]
    rw [ih (f st i), h st i]

theorem sessFold_pred (P : SessState → Prop) (f : SessState → Nat → SessState)
    (h : ∀ st i, P st → P (f st i)) :
    ∀ (l : List Nat) (st : SessState), P st → P (l.foldl f st) := by
  intro l
  induction l with
  | nil => intro st hp; exact hp
  | cons i l ih =>
    intro st hp
    simp only [List.foldl_cons]
    exact ih (f st i) (h st i hp)

theorem translateAllTerms_tree (tr : MTranslator) (st : SessState) :
    (translateAllTerms tr st).tree = st.tree := by
  unfold translateAllTerms
  refine sessFold_tree _ ?_ _ st
  intro st2 i
  cases hcat : st2.terms[i]? with
  | none => simp only [hcat]
  | some cat =>
    simp only [hcat]
    by_cases hfil : cat.terms.filter (fun t => t.translated = "") = []
    · rw [if_pos hfil]
    · rw [if_neg hfil]
      cases htr : tr.translateTerms cat with
      | error e => simp only [htr]
      | ok r => simp only [htr]

theorem translateAllTerms_noLt (tr : MTranslator) (st : SessState)
    (htr : TrOk tr) (h : TermsNoLt st.terms) :
    TermsNoLt (translateAllTerms tr st).terms := by
  unfold translateAllTerms
  refine sessFold_pred (fun s => TermsNoLt s.terms) _ ?_ _ st h
  intro st2 i hp
  cases hcat : st2.terms[i]? with
  | none => simp only [hcat]; exact hp
  | some cat =>
    simp only [hcat]
    by_cases hfil : cat.terms.filter (fun t => t.translated = "") = []
    · rw [if_pos hfil]
      exact hp
    · rw [if_neg hfil]
      cases htc : tr.translateTerms cat with
      | error e => simp only [htc]; exact hp
      | ok r =>
        simp only [htc]
        exact termsNoLt_set st2.terms i r.1 hp (htr.2 cat r htc)

theorem applyAll_inv (pf : String → List DNode) (cats : List Category)
    (t0 : DNode) (pOwn M : List Path) (T : DNode)
    (inv : Inv t0 pOwn M T) (hcats : TermsNoLt cats)
    (hclean : cleanNode t0 = true) (hnolt : noLtNode t0 = true)
    (hvalid : ∀ e ∈ pOwn, ∃ tg a o k, elemInfo t0 e = some (tg, a, o, k))
    (hnn : ∀ a ∈ pOwn, ∀ b ∈ pOwn, a ≠ b → ¬ PIsPfx a b) :
    Inv t0 pOwn M (applyTermsReplacementToAllNodes pf cats T) := by
  unfold applyTermsReplacementToAllNodes
  have hmem : ∀ e ∈ markedDescPaths T, e ∈ M := by
    intro e he
    exact (inv_marked_iff t0 pOwn M T inv hclean hvalid e).mp
      (markedOk_isMarkedAt T e (markedDescPaths_valid T e he))
  have hpair : (markedDescPaths T).Pairwise
      (fun a b => ¬ PIsPfx a b ∧ ¬ PIsPfx b a) := by
    refine List.Pairwise.imp_of_mem ?_ (markedDescPaths_nodup T)
    intro a b ha hb hne
    exact ⟨hnn a (inv.omem a (hmem a ha)) b (inv.omem b (hmem b hb)) hne,
      hnn b (inv.omem b (hmem b hb)) a (inv.omem a (hmem a ha))
        (fun h => hne h.symm)⟩
  obtain ⟨fElem, fShape, fNoLt, fFrame, fMain⟩ :=
    applyAllFold pf cats hcats (markedDescPaths T) T
      (inv_texts_noLt t0 pOwn M T inv hnolt) hpair
  refine ⟨?_, inv.omem, ?_, ?_, ?_⟩
  · exact shapeEqB_trans _ T t0 (shapeEqB_symm T _ fShape) inv.shape
  · intro q hq tg a o k he
    rw [fElem q]
    exact inv.mark q hq tg a o k he
  · intro e he
    rw [fElem e]
    exact inv.unmark e he
  · intro r s h0
    by_cases hall : ∀ q ∈ markedDescPaths T, ¬ PIsPfx q r
    · rw [fFrame r hall]
      exact inv.texts r s h0
    · push_neg at hall
      obtain ⟨q, hq, hpq⟩ := hall
      have hsome : (textVal ((markedDescPaths T).foldl
          (applyReplacementStep pf cats) T) r).isSome = true := by
        rw [← textVal_isSome_shape T _ r fShape]
        have h2 := textVal_isSome_shape T t0 r inv.shape
        rw [h0] at h2
        rw [h2]
        rfl
      obtain ⟨s2, hs2⟩ := Option.isSome_iff_exists.mp hsome
      refine Or.inr ⟨q, hmem q hq, (isPfxOfN_iff q r).mpr hpq, s2, hs2,
        fNoLt r s2 hs2⟩

theorem textVal_some_getNode (t : DNode) (p : Path) (s : String)
    (h : textVal t p = some s) : getNode t p = some (.text s) := by
  unfold textVal at h
  cases hg : getNode t p with
  | none => rw [hg] at h; exact absurd h (by simp)
  | some n =>
    rw [hg] at h
    cases n with
    | elem tg a o cs => exact absurd h (by simp)
    | text u =>
      simp at h
      rw [h]

theorem inv_mono (t0 : DNode) (pOwn pOwn2 M : List Path) (T : DNode)
    (h : ∀ e ∈ pOwn, e ∈ pOwn2) (inv : Inv t0 pOwn M T) :
    Inv t0 pOwn2 M T :=
  ⟨inv.shape, fun q hq => h q (inv.omem q hq), inv.mark, inv.unmark,
    inv.texts⟩

theorem markElemAt_inv (t0 : DNode) (pOwn M : List Path) (T : DNode)
    (inv : Inv t0 pOwn M T) (q : Path)
    (hclean : cleanNode t0 = true)
    (hq : q ∈ pOwn)
    (hvalid : ∀ e ∈ pOwn, ∃ tg a o k, elemInfo t0 e = some (tg, a, o, k))
    (hOwn : q ∈ Owners t0)
    (hnn : ∀ b ∈ M, b ≠ q → ¬ PIsPfx b q ∧ ¬ PIsPfx q b) :
    ∃ M2, (∀ b, b ∈ M2 ↔ b = q ∨ b ∈ M) ∧
      Inv t0 pOwn M2 (markElemAt T q) := by
  obtain ⟨tg, a0, o0, k, he0⟩ := hvalid q hq
  obtain ⟨cs0, hg0, hk0⟩ := (elemInfo_some_iff t0 q tg a0 o0 k).mp he0
  have hch : childrenAt t0 q = some cs0 := by
    unfold childrenAt
    rw [hg0]
  have hshape : shapeEqB T (markElemAt T q) = true :=
    shape_attrsLocal _ markElemAt_attrsLocal T q
  have hshape2 : shapeEqB (markElemAt T q) t0 = true :=
    shapeEqB_trans _ T t0 (shapeEqB_symm T _ hshape) inv.shape
  by_cases hqm : q ∈ M
  · refine ⟨M, fun b => ⟨fun hb => Or.inr hb,
      fun hb => hb.elim (fun h => h ▸ hqm) id⟩, ?_⟩
    have hmq := inv.mark q hqm tg a0 o0 k he0
    obtain ⟨csT, hgT, hkT⟩ := (elemInfo_some_iff T q tg
      (setAttr a0 "data-translation" "true") (childrenAt t0 q) k).mp hmq
    have htruthy : origTruthy (childrenAt t0 q) = true := by
      rw [hch]
      show (!serializedEmpty cs0) = true
      rw [owner_children_nonempty t0 q hOwn tg a0 o0 cs0 hg0]
      rfl
    refine ⟨hshape2, inv.omem, ?_, ?_, ?_⟩
    · intro b hb tg2 a2 o2 k2 he2
      by_cases hbq : b = q
      · subst hbq
        rw [he0] at he2
        simp at he2
        rw [elemInfo_markElemAt_self T b tg
          (setAttr a0 "data-translation" "true") (childrenAt t0 b) csT hgT,
          if_pos htruthy, setAttr_setAttr, hkT]
        rw [← he2.1, ← he2.2.1, ← he2.2.2.2]
      · rw [elemInfo_markElemAt_ne T q b hbq]
        exact inv.mark b hb tg2 a2 o2 k2 he2
    · intro e hne
      rw [elemInfo_markElemAt_ne T q e (fun h => hne (h ▸ hqm))]
      exact inv.unmark e hne
    · intro r s h0
      rw [textVal_markElemAt T q r]
      exact inv.texts r s h0
  · refine ⟨q :: M, fun b => by simp, ?_⟩
    have hgT : getNode T q = some (.elem tg a0 o0 cs0) := by
      rw [inv_getNode_frame t0 pOwn M T inv q
        (fun q2 hq2 => hnn q2 hq2 (fun h => hqm (h ▸ hq2)))]
      exact hg0
    obtain ⟨hattr, ho0⟩ := clean_elem t0 q tg a0 o0 cs0 hclean hg0
    have hfalsy : origTruthy o0 = false := by
      rw [ho0]
      rfl
    refine ⟨hshape2, ?_, ?_, ?_, ?_⟩
    · intro b hb
      rcases List.mem_cons.mp hb with h | h
      · subst h; exact hq
      · exact inv.omem b h
    · intro b hb tg2 a2 o2 k2 he2
      rcases List.mem_cons.mp hb with hbq | hbM
      · subst hbq
        rw [he0] at he2
        simp at he2
        rw [elemInfo_markElemAt_self T b tg a0 o0 cs0 hgT, if_neg (by
          rw [hfalsy]; simp)]
        rw [← he2.1, ← he2.2.1, ← he2.2.2.2, hch]
        rw [← hk0]
      · have hbq : b ≠ q := by
          intro h
          subst h
          exact hqm hbM
        rw [elemInfo_markElemAt_ne T q b hbq]
        exact inv.mark b hbM tg2 a2 o2 k2 he2
    · intro e hne
      have hq2 : e ≠ q := fun h => hne (by simp [h])
      have hm2 : e ∉ M := fun h => hne (by simp [h])
      rw [elemInfo_markElemAt_ne T q e hq2]
      exact inv.unmark e hm2
    · intro r s h0
      rw [textVal_markElemAt T q r]
      rcases inv.texts r s h0 with h | ⟨q2, hq2, hpf2, s2, hv2, hn2⟩
      · exact Or.inl h
      · exact Or.inr ⟨q2, by simp [hq2], hpf2, s2, hv2, hn2⟩

theorem setTextAt_inv (t0 : DNode) (pOwn M : List Path) (T : DNode)
    (inv : Inv t0 pOwn M T) (p : Path) (v old : String)
    (hv : NoLt v) (hpn : p ≠ []) (hq : p.dropLast ∈ M)
    (hold : getNode T p = some (.text old)) :
    Inv t0 pOwn M (setTextAt T p v) := by
  have hshape : shapeEqB T (setTextAt T p v) = true :=
    shape_setTextAt T p old v hold
  refine ⟨shapeEqB_trans _ T t0 (shapeEqB_symm T _ hshape) inv.shape,
    inv.omem, ?_, ?_, ?_⟩
  · intro b hb tg2 a2 o2 k2 he2
    rw [elemInfo_setTextAt T p old v b hold]
    exact inv.mark b hb tg2 a2 o2 k2 he2
  · intro e hne
    rw [elemInfo_setTextAt T p old v e hold]
    exact inv.unmark e hne
  · intro r s h0
    rw [textVal_setTextAt T p old v r hold]
    by_cases hrp : r = p
    · subst hrp
      rw [if_pos rfl]
      refine Or.inr ⟨r.dropLast, hq, ?_, v, rfl, hv⟩
      have : r.dropLast ++ [r.getLast hpn] = r :=
        List.dropLast_append_getLast hpn
      rw [show r = r.dropLast ++ [r.getLast hpn] from this.symm]
      rw [List.dropLast_concat]
      exact isPfxOfN_refl_append _ _
    · rw [if_neg hrp]
      exact inv.texts r s h0

theorem translateNewTermsStep_inv (pf : String → List DNode)
    (tr : MTranslator) (t0 : DNode) (pOwn M : List Path) (st : SessState)
    (newTerms : List Terms)
    (inv : Inv t0 pOwn M st.tree) (hterms : TermsNoLt st.terms)
    (htr : TrOk tr)
    (hclean : cleanNode t0 = true) (hnolt : noLtNode t0 = true)
    (hvalid : ∀ e ∈ pOwn, ∃ tg a o k, elemInfo t0 e = some (tg, a, o, k))
    (hnn : ∀ a ∈ pOwn, ∀ b ∈ pOwn, a ≠ b → ¬ PIsPfx a b) :
    Inv t0 pOwn M (translateNewTermsStep pf tr st newTerms).tree ∧
    TermsNoLt (translateNewTermsStep pf tr st newTerms).terms := by
  unfold translateNewTermsStep
  by_cases h1 : newTerms = []
  · rw [if_pos h1]
    exact ⟨inv, hterms⟩
  · rw [if_neg h1]
    split
    · exact ⟨inv, hterms⟩
    · split
      · exact ⟨inv, hterms⟩
      · split
        · exact ⟨inv, hterms⟩
        · split
          · exact ⟨inv, hterms⟩
          · rename_i x2 gi heq2 x1 g heq1 hfil x upd u hok
            have hT2 : TermsNoLt (st.terms.set gi upd) :=
              termsNoLt_set st.terms gi upd hterms (htr.2 g (upd, u) hok)
            exact ⟨applyAll_inv pf (st.terms.set gi upd) t0 pOwn M st.tree
              inv hT2 hclean hnolt hvalid hnn, hT2⟩

theorem updateTextNode_inv (pf : String → List DNode) (t0 : DNode)
    (pOwn M : List Path) (T : DNode) (p : Path) (v : String)
    (inv : Inv t0 pOwn M T) (hv : NoLt v)
    (hp : p ∈ collectTextNodes t0)
    (hq : p.dropLast ∈ pOwn)
    (hclean : cleanNode t0 = true) (hnolt : noLtNode t0 = true)
    (hvalid : ∀ e ∈ pOwn, ∃ tg a o k, elemInfo t0 e = some (tg, a, o, k))
    (hOwn : p.dropLast ∈ Owners t0)
    (hpOwn : ∀ e ∈ pOwn, e ∈ Owners t0)
    (hnn0 : HNN t0) :
    ∃ M2, (∀ b ∈ M2, b = p.dropLast ∨ b ∈ M) ∧
      Inv t0 pOwn M2 (updateTextNode pf T p v false) := by
  obtain ⟨s0, tg0, a00, hs0, ho0, hacc0⟩ := collectTextNodes_sound t0 p hp
  have hsome := textVal_isSome_shape T t0 p inv.shape
  rw [hs0] at hsome
  obtain ⟨old, hold⟩ := Option.isSome_iff_exists.mp (by rw [hsome]; rfl)
  rw [updateTextNode_false_eq pf T p v old hold]
  by_cases hcond : p ≠ [] ∧ old ≠ v
  · rw [if_pos hcond,
      if_neg (by rw [hasSpanSig_false_of_no_lt v hv]; simp)]
    have hnnM : ∀ b ∈ M, b ≠ p.dropLast →
        ¬ PIsPfx b p.dropLast ∧ ¬ PIsPfx p.dropLast b := by
      intro b hb hne
      have hbO : b ∈ Owners t0 := hpOwn b (inv.omem b hb)
      constructor
      · intro hpf
        exact absurd ((isPfxOfN_iff b _).mpr hpf)
          (by rw [hnn0 b hbO p.dropLast hOwn hne]; simp)
      · intro hpf
        exact absurd ((isPfxOfN_iff _ b).mpr hpf)
          (by rw [hnn0 p.dropLast hOwn b hbO (fun h => hne h.symm)]; simp)
    obtain ⟨M2, hM2, invM⟩ :=
      markElemAt_inv t0 pOwn M T inv p.dropLast hclean hq hvalid hOwn hnnM
    have hqM2 : p.dropLast ∈ M2 := (hM2 _).mpr (Or.inl rfl)
    have holdM : getNode (markElemAt T p.dropLast) p = some (.text old) :=
      textVal_some_getNode _ p old (by rw [textVal_markElemAt]; exact hold)
    exact ⟨M2, fun b hb => (hM2 b).mp hb,
      setTextAt_inv t0 pOwn M2 _ invM p v old hv hcond.1 hqM2 holdM⟩
  · rw [if_neg hcond]
    exact ⟨M, fun b hb => Or.inr hb, inv⟩

theorem processNode_inv (pf : String → List DNode) (tr : MTranslator)
    (t0 : DNode) (pOwn M : List Path) (st : SessState) (p : Path)
    (inv : Inv t0 pOwn M st.tree) (hterms : TermsNoLt st.terms)
    (htr : TrOk tr)
    (hclean : cleanNode t0 = true) (hnolt : noLtNode t0 = true)
    (hnn0 : HNN t0) (hnr : HNR t0)
    (hp : p ∈ collectTextNodes t0)
    (hpOwn : ∀ e ∈ pOwn, e ∈ Owners t0) :
    ∃ M2, Inv t0 (p.dropLast :: pOwn) M2 (processNode pf tr st p).1.tree ∧
      TermsNoLt (processNode pf tr st p).1.terms := by
  have hdlO : p.dropLast ∈ Owners t0 := List.mem_map.mpr ⟨p, hp, rfl⟩
  have hpOwn2 : ∀ e ∈ p.dropLast :: pOwn, e ∈ Owners t0 := by
    intro e he
    rcases List.mem_cons.mp he with h | h
    · rw [h]; exact hdlO
    · exact hpOwn e h
  have hvalid2 : ∀ e ∈ p.dropLast :: pOwn,
      ∃ tg a o k, elemInfo t0 e = some (tg, a, o, k) :=
    fun e he => owners_elemInfo t0 e (hpOwn2 e he)
  have hnn2 : ∀ a ∈ p.dropLast :: pOwn, ∀ b ∈ p.dropLast :: pOwn,
      a ≠ b → ¬ PIsPfx a b := by
    intro a ha b hb hne hpf
    exact absurd ((isPfxOfN_iff a b).mpr hpf)
      (by rw [hnn0 a (hpOwn2 a ha) b (hpOwn2 b hb) hne]; simp)
  have invP : Inv t0 (p.dropLast :: pOwn) M st.tree :=
    inv_mono t0 pOwn _ M st.tree (fun e he => by simp [he]) inv
  unfold processNode
  dsimp only
  split
  · exact ⟨M, invP, hterms⟩
  · split
    · exact ⟨M, invP, hterms⟩
    · rename_i hlong x out hok
      have houtNL := htr.1 _ out hok
      have hst1 : ∃ M1, Inv t0 (p.dropLast :: pOwn) M1
          (if out.terms ≠ [] then
            (translateNewTermsStep pf tr
              (if (Glossary.addNewTerms st.terms out.terms).2 then
                { tree := applyTermsReplacementToAllNodes pf
                    (Glossary.addNewTerms st.terms out.terms).1 st.tree,
                  terms := (Glossary.addNewTerms st.terms out.terms).1,
                  usage := st.usage }
               else { st with
                 terms := (Glossary.addNewTerms st.terms out.terms).1 })
              out.terms)
           else st).tree ∧
          TermsNoLt (if out.terms ≠ [] then
            (translateNewTermsStep pf tr
              (if (Glossary.addNewTerms st.terms out.terms).2 then
                { tree := applyTermsReplacementToAllNodes pf
                    (Glossary.addNewTerms st.terms out.terms).1 st.tree,
                  terms := (Glossary.addNewTerms st.terms out.terms).1,
                  usage := st.usage }
               else { st with
                 terms := (Glossary.addNewTerms st.terms out.terms).1 })
              out.terms)
           else st).terms := by
        by_cases hot : out.terms ≠ []
        · rw [if_pos hot]
          have hA : TermsNoLt (Glossary.addNewTerms st.terms out.terms).1 :=
            termsNoLt_addNewTerms st.terms out.terms hterms houtNL.2
          by_cases hr2 : (Glossary.addNewTerms st.terms out.terms).2
          · rw [if_pos hr2]
            have invB : Inv t0 (p.dropLast :: pOwn) M
                (applyTermsReplacementToAllNodes pf
                  (Glossary.addNewTerms st.terms out.terms).1 st.tree) :=
              applyAll_inv pf _ t0 _ M st.tree invP hA hclean hnolt
                hvalid2 hnn2
            obtain ⟨h1, h2⟩ := translateNewTermsStep_inv pf tr t0
              (p.dropLast :: pOwn) M
              { tree := applyTermsReplacementToAllNodes pf
                  (Glossary.addNewTerms st.terms out.terms).1 st.tree,
                terms := (Glossary.addNewTerms st.terms out.terms).1,
                usage := st.usage }
              out.terms invB hA htr hclean hnolt hvalid2 hnn2
            exact ⟨M, h1, h2⟩
          · rw [if_neg hr2]
            obtain ⟨h1, h2⟩ := translateNewTermsStep_inv pf tr t0
              (p.dropLast :: pOwn) M
              { st with terms := (Glossary.addNewTerms st.terms out.terms).1 }
              out.terms invP hA htr hclean hnolt hvalid2 hnn2
            exact ⟨M, h1, h2⟩
        · rw [if_neg hot]
          exact ⟨M, invP, hterms⟩
      obtain ⟨M1, invS1, hT1⟩ := hst1
      obtain ⟨M2, hM2sub, invF⟩ := updateTextNode_inv pf t0
        (p.dropLast :: pOwn) M1 _ p out.translatedText invS1 houtNL.1 hp
        (by simp) hclean hnolt hvalid2 hdlO hpOwn2 hnn0
      exact ⟨M2, invF, hT1⟩

theorem inv_init (t0 : DNode) (pOwn : List Path) : Inv t0 pOwn [] t0 :=
  ⟨shapeEqB_refl t0, fun q hq => absurd hq (by simp),
   fun q hq => absurd hq (by simp), fun e _ => rfl,
   fun r s h => Or.inl h⟩

theorem processList_inv (pf : String → List DNode) (tr : MTranslator)
    (t0 : DNode) (htr : TrOk tr)
    (hclean : cleanNode t0 = true) (hnolt : noLtNode t0 = true)
    (hnn0 : HNN t0) (hnr : HNR t0) :
    ∀ (l : List Path) (pOwn M : List Path) (st : SessState),
    (∀ p ∈ l, p ∈ collectTextNodes t0) →
    (∀ e ∈ pOwn, e ∈ Owners t0) →
    Inv t0 pOwn M st.tree → TermsNoLt st.terms →
    ∃ M2, Inv t0 (l.map (fun p => p.dropLast) ++ pOwn) M2
      (l.foldl (fun s p => (processNode pf tr s p).1) st).tree ∧
      TermsNoLt (l.foldl (fun s p => (processNode pf tr s p).1) st).terms := by
  intro l
  induction l with
  | nil =>
    intro pOwn M st _ _ inv hterms
    exact ⟨M, inv, hterms⟩
  | cons p l ih =>
    intro pOwn M st hl hpOwn inv hterms
    obtain ⟨M1, inv1, hT1⟩ := processNode_inv pf tr t0 pOwn M st p inv
      hterms htr hclean hnolt hnn0 hnr (hl p (by simp)) hpOwn
    have hpOwn1 : ∀ e ∈ p.dropLast :: pOwn, e ∈ Owners t0 := by
      intro e he
      rcases List.mem_cons.mp he with h | h
      · rw [h]
        exact List.mem_map.mpr ⟨p, hl p (by simp), rfl⟩
      · exact hpOwn e h
    obtain ⟨M2, inv2, hT2⟩ := ih (p.dropLast :: pOwn) M1 _
      (fun p2 hp2 => hl p2 (by simp [hp2])) hpOwn1 inv1 hT1
    simp only [List.foldl_cons]
    refine ⟨M2, inv_mono t0 _ _ M2 _ ?_ inv2, hT2⟩
    intro e he
    simp only [List.map_cons, List.cons_append]
    rcases List.mem_append.mp he with h | h
    · exact List.mem_cons.mpr (Or.inr (List.mem_append.mpr (Or.inl h)))
    · rcases List.mem_cons.mp h with h2 | h2
      · exact List.mem_cons.mpr (Or.inl h2)
      · exact List.mem_cons.mpr (Or.inr (List.mem_append.mpr (Or.inr h2)))

theorem translate_decomp (pf : String → List DNode) (tr : MTranslator)
    (seed : List Category) (B : Nat) (root : DNode) :
    (translate pf tr seed B root).1.tree =
      applyTermsReplacementToAllNodes pf
        (translatePre pf tr seed B root).terms
        (translatePre pf tr seed B root).tree ∧
    (translate pf tr seed B root).1.terms =
      (translatePre pf tr seed B root).terms :=
  ⟨rfl, rfl⟩

theorem translatePre_inv (pf : String → List DNode) (tr : MTranslator)
    (seed : List Category) (B : Nat) (t0 : DNode) (hB : 0 < B)
    (hS : SessionOk t0) (htr : TrOk tr) (hseed : TermsNoLt seed) :
    ∃ M, Inv t0 (Owners t0) M (translatePre pf tr seed B t0).tree ∧
      TermsNoLt (translatePre pf tr seed B t0).terms := by
  obtain ⟨hclean, hnolt, hnr, hnn0⟩ := hS
  have hstate : (runBatches pf tr (collectTextNodes t0).length
      { tree := t0, terms := seed, usage := TokenUsage.zero } 0
      (chunkList B (collectTextNodes t0))).1 =
      (collectTextNodes t0).foldl
        (fun s p => (processNode pf tr s p).1)
        { tree := t0, terms := seed, usage := TokenUsage.zero } := by
    rw [(runBatches_spec pf tr (collectTextNodes t0).length
        (chunkList B (collectTextNodes t0)) _ 0).1,
      processBatch_state, chunkList_flatten B hB]
  obtain ⟨M, inv, hterms⟩ := processList_inv pf tr t0 htr hclean hnolt
    hnn0 hnr (collectTextNodes t0) [] []
    { tree := t0, terms := seed, usage := TokenUsage.zero }
    (fun p hp => hp) (fun e he => absurd he (by simp))
    (inv_init t0 []) hseed
  refine ⟨M, ?_, ?_⟩
  · unfold translatePre
    rw [translateAllTerms_tree, hstate]
    refine inv_mono t0 _ _ M _ ?_ inv
    intro e he
    unfold Owners
    simpa using he
  · unfold translatePre
    refine translateAllTerms_noLt tr _ htr ?_
    rw [hstate]
    exact hterms

theorem translate_inv (pf : String → List DNode) (tr : MTranslator)
    (seed : List Category) (B : Nat) (t0 : DNode) (hB : 0 < B)
    (hS : SessionOk t0) (htr : TrOk tr) (hseed : TermsNoLt seed) :
    ∃ M, Inv t0 (Owners t0) M (translate pf tr seed B t0).1.tree ∧
      TermsNoLt (translate pf tr seed B t0).1.terms := by
  obtain ⟨hclean, hnolt, hnr, hnn0⟩ := hS
  obtain ⟨M, inv, hterms⟩ :=
    translatePre_inv pf tr seed B t0 hB ⟨hclean, hnolt, hnr, hnn0⟩ htr hseed
  refine ⟨M, ?_, ?_⟩
  · rw [(translate_decomp pf tr seed B t0).1]
    refine applyAll_inv pf _ t0 (Owners t0) M _ inv hterms hclean hnolt
      (fun e he => owners_elemInfo t0 e he) ?_
    intro a ha b hb hne hpf
    exact absurd ((isPfxOfN_iff a b).mpr hpf)
      (by rw [hnn0 a ha b hb hne]; simp)
  · rw [(translate_decomp pf tr seed B t0).2]
    exact hterms

theorem elemInfo_congr (a b : DNode) (e : Path)
    (h : getNode a e = getNode b e) : elemInfo a e = elemInfo b e := by
  unfold elemInfo
  rw [h]

theorem textVal_congr (a b : DNode) (e : Path)
    (h : getNode a e = getNode b e) : textVal a e = textVal b e := by
  unfold textVal
  rw [h]

theorem textVal_updateAt_strict_above (f : DNode → DNode) (t : DNode)
    (e : Path) (r : Path) (hr : r ≠ []) :
    textVal (updateAt f t (e ++ r)) e = textVal t e := by
  unfold textVal
  rw [getNode_updateAt_above f e r t]
  cases hg : getNode t e with
  | none => rfl
  | some n =>
    simp only [Option.map_some']
    cases r with
    | nil => exact absurd rfl hr
    | cons i rr =>
      cases n with
      | text s => rfl
      | elem tg a o cs => rfl

theorem elemInfo_updateAt_strict_above (f : DNode → DNode) (t : DNode)
    (e : Path) (r : Path) (hr : r ≠ []) :
    elemInfo (updateAt f t (e ++ r)) e = elemInfo t e := by
  unfold elemInfo
  rw [getNode_updateAt_above f e r t]
  cases hg : getNode t e with
  | none => rfl
  | some n =>
    simp only [Option.map_some']
    cases r with
    | nil => exact absurd rfl hr
    | cons i rr =>
      cases n with
      | text s => rfl
      | elem tg a o cs =>
        show (match DNode.elem tg a o
            (listModify (fun c => updateAt f c rr) cs i) with
          | DNode.elem tg a o cs => some (tg, a, o, cs.length)
          | _ => none) =
          (match DNode.elem tg a o cs with
          | DNode.elem tg a o cs => some (tg, a, o, cs.length)
          | _ => none)
        simp [listModify_length]

theorem elemInfo_shape_proj (a b : DNode) (q : Path)
    (hs : shapeEqB a b = true) :
    (elemInfo a q).map (fun x => (x.1, x.2.2.2)) =
      (elemInfo b q).map (fun x => (x.1, x.2.2.2)) := by
  unfold elemInfo
  cases hga : getNode a q with
  | none =>
    have h2 := getNode_isSome_shape a b q hs
    rw [hga] at h2
    cases hgb : getNode b q with
    | none => rfl
    | some m => rw [hgb] at h2; simp at h2
  | some n =>
    obtain ⟨m, hm, hsh⟩ := shape_getNode q a b n hs hga
    rw [hm]
    cases n with
    | text s =>
      cases m with
      | text u => rfl
      | elem _ _ _ _ => exact absurd hsh (by simp [shapeEqB])
    | elem tg a2 o cs =>
      cases m with
      | text u => exact absurd hsh (by simp [shapeEqB])
      | elem tg2 a3 o2 cs2 =>
        unfold shapeEqB at hsh
        simp at hsh
        simp [hsh.1, shapeForestB_length cs cs2 hsh.2]

theorem getNode_elem_children (tg1 tg2 : String)
    (a1 a2 : List (String × String)) (o1 o2 : Option (List DNode))
    (cs : List DNode) (r : Path) (hr : r ≠ []) :
    getNode (DNode.elem tg1 a1 o1 cs) r =
      getNode (DNode.elem tg2 a2 o2 cs) r := by
  cases r with
  | nil => exact absurd rfl hr
  | cons i rr => rfl

theorem rinv_init (t0 : DNode) (M : List Path) (T : DNode)
    (inv : Inv t0 (Owners t0) M T) : RInv t0 M [] T := by
  refine ⟨inv.shape, fun q hq => absurd hq (by simp),
    fun q hq _ => inv.mark q hq, inv.unmark, ?_,
    fun q hq => absurd hq (by simp)⟩
  intro r s h0
  rcases inv.texts r s h0 with h | ⟨q, hq, hpf, s2, hv, hn⟩
  · exact Or.inl h
  · exact Or.inr ⟨q, hq, by simp, hpf, by rw [hv]; rfl⟩

theorem restoreStep_rinv (t0 : DNode) (M : List Path) (done : List Path)
    (C : DNode) (q : Path)
    (rinv : RInv t0 M done C)
    (hclean : cleanNode t0 = true)
    (hMOwn : ∀ b ∈ M, b ∈ Owners t0)
    (hnn0 : HNN t0)
    (hqM : q ∈ M) (hqd : q ∉ done) :
    restoreStep (C, done) q = ((restoreStep (C, done) q).1, q :: done) ∧
    RInv t0 M (q :: done) (restoreStep (C, done) q).1 := by
  have hnnq : ∀ b, b ∈ M → b ≠ q → ¬ PIsPfx b q ∧ ¬ PIsPfx q b := by
    intro b hb hne
    have hz1 : isPfxOfN b q = false :=
      hnn0 b (hMOwn b hb) q (hMOwn q hqM) hne
    have hz2 : isPfxOfN q b = false :=
      hnn0 q (hMOwn q hqM) b (hMOwn b hb) (fun h => hne h.symm)
    constructor
    · intro hpf
      exact absurd ((isPfxOfN_iff b q).mpr hpf) (by rw [hz1]; simp)
    · intro hpf
      exact absurd ((isPfxOfN_iff q b).mpr hpf) (by rw [hz2]; simp)
  obtain ⟨tg, a0, o0, k, he0⟩ := owners_elemInfo t0 q (hMOwn q hqM)
  obtain ⟨cs0, hg0, hk0⟩ := (elemInfo_some_iff t0 q tg a0 o0 k).mp he0
  have hch : childrenAt t0 q = some cs0 := by
    unfold childrenAt
    rw [hg0]
  have heC := rinv.unrest q hqM hqd tg a0 o0 k he0
  rw [hch] at heC
  obtain ⟨csC, hgC, hkC⟩ := (elemInfo_some_iff C q tg
    (setAttr a0 "data-translation" "true") (some cs0) k).mp heC
  have hguard : done.any (fun q2 => q2 ≠ q ∧ isPfxOfN q2 q) = false := by
    rw [List.any_eq_false]
    intro q2 hq2 hcontra
    have h2 : q2 ≠ q ∧ isPfxOfN q2 q = true := by simpa using hcontra
    exact (hnnq q2 (rinv.doneM q2 hq2) h2.1).1 ((isPfxOfN_iff q2 q).mp h2.2)
  have htruthy : origTruthy (some cs0) = true := by
    show (!serializedEmpty cs0) = true
    rw [owner_children_nonempty t0 q (hMOwn q hqM) tg a0 o0 cs0 hg0]
    rfl
  have hres : restoreStep (C, done) q =
      (setAttrAt (setChildrenAt C q ((some cs0).getD [])) q
        "data-translation" "false", q :: done) := by
    unfold restoreStep
    rw [if_neg (by rw [hguard]; simp)]
    show (match getNode C q with
      | some (.elem _ _ o _) =>
        if origTruthy o then
          (setAttrAt (setChildrenAt C q (o.getD [])) q "data-translation"
            "false", q :: done)
        else (C, done)
      | _ => (C, done)) = _
    rw [hgC]
    show (if origTruthy (some cs0) then
        (setAttrAt (setChildrenAt C q ((some cs0).getD [])) q
          "data-translation" "false", q :: done)
      else (C, done)) = _
    rw [if_pos htruthy]
  have hgC2 : getNode (setChildrenAt C q cs0) q =
      some (.elem tg (setAttr a0 "data-translation" "true") (some cs0)
        cs0) := by
    unfold setChildrenAt
    rw [getNode_updateAt_self _ C q _ hgC]
  have hgC3 : getNode (restoreStep (C, done) q).1 q =
      some (.elem tg (setAttr a0 "data-translation" "false") (some cs0)
        cs0) := by
    rw [hres]
    show getNode (setAttrAt (setChildrenAt C q ((some cs0).getD [])) q
      "data-translation" "false") q = _
    unfold setAttrAt
    rw [getNode_updateAt_self _ _ q _ (by simpa using hgC2)]
    show some (DNode.elem tg
      (setAttr (setAttr a0 "data-translation" "true") "data-translation"
        "false") (some cs0) cs0) = _
    rw [setAttr_setAttr]
  have hframe : ∀ e, ¬ PIsPfx q e → ¬ PIsPfx e q →
      getNode (restoreStep (C, done) q).1 e = getNode C e := by
    intro e h1 h2
    rw [hres]
    show getNode (setAttrAt (setChildrenAt C q ((some cs0).getD [])) q
      "data-translation" "false") e = _
    unfold setAttrAt setChildrenAt
    rw [getNode_updateAt_incomp _ q e _ h1 h2,
      getNode_updateAt_incomp _ q e _ h1 h2]
  have hbelow : ∀ r, r ≠ [] →
      getNode (restoreStep (C, done) q).1 (q ++ r) = getNode t0 (q ++ r) := by
    intro r hr
    rw [getNode_append, hgC3, Option.some_bind,
      getNode_elem_children tg tg (setAttr a0 "data-translation" "false") a0
        (some cs0) o0 cs0 r hr, ← Option.some_bind (DNode.elem tg a0 o0 cs0)
        (fun n => getNode n r), ← hg0, ← getNode_append]
  have habove : ∀ e r, r ≠ [] → q = e ++ r →
      elemInfo (restoreStep (C, done) q).1 e = elemInfo C e ∧
      textVal (restoreStep (C, done) q).1 e = textVal C e := by
    intro e r hr hq
    rw [hres]
    constructor
    · show elemInfo (setAttrAt (setChildrenAt C q ((some cs0).getD [])) q
        "data-translation" "false") e = _
      unfold setAttrAt setChildrenAt
      rw [hq, elemInfo_updateAt_strict_above _ _ e r hr,
        elemInfo_updateAt_strict_above _ _ e r hr]
    · show textVal (setAttrAt (setChildrenAt C q ((some cs0).getD [])) q
        "data-translation" "false") e = _
      unfold setAttrAt setChildrenAt
      rw [hq, textVal_updateAt_strict_above _ _ e r hr,
        textVal_updateAt_strict_above _ _ e r hr]
  have htextq : textVal t0 q = none := by
    unfold textVal
    rw [hg0]
  have htextqC : textVal (restoreStep (C, done) q).1 q = none := by
    unfold textVal
    rw [hgC3]
  have hshape : shapeEqB (restoreStep (C, done) q).1 t0 = true := by
    refine shapeOfPointwise _ t0 ?_ ?_
    · intro r
      rcases path_trichotomy q r with hr | ⟨rr, hrr, hr⟩ | ⟨rr, hrr, hr⟩ |
          ⟨h1, h2⟩
      · subst hr
        rw [htextqC, htextq]
      · subst hr
        rw [textVal_congr _ t0 (q ++ rr) (hbelow rr hrr)]
      · subst hr
        rw [(habove r rr hrr rfl).2,
          textVal_isSome_shape C t0 r rinv.shape]
      · rw [textVal_congr _ C r (hframe r h1 h2),
          textVal_isSome_shape C t0 r rinv.shape]
    · intro r
      rcases path_trichotomy q r with hr | ⟨rr, hrr, hr⟩ | ⟨rr, hrr, hr⟩ |
          ⟨h1, h2⟩
      · subst hr
        unfold elemInfo
        rw [hgC3, hg0]
        simp [hk0]
      · subst hr
        rw [elemInfo_congr _ t0 (q ++ rr) (hbelow rr hrr)]
      · subst hr
        rw [(habove r rr hrr rfl).1,
          elemInfo_shape_proj C t0 r rinv.shape]
      · rw [elemInfo_congr _ C r (hframe r h1 h2),
          elemInfo_shape_proj C t0 r rinv.shape]
  refine ⟨by rw [hres], hshape, ?_, ?_, ?_, ?_, ?_⟩
  · intro q2 hq2 tg2 a2 o2 cs2 hg2
    rcases List.mem_cons.mp hq2 with hq2q | hq2d
    · subst hq2q
      rw [hg0] at hg2
      simp at hg2
      rw [hgC3, hg2.1, hg2.2.1, hg2.2.2.2]
    · have hne : q2 ≠ q := fun h => hqd (h ▸ hq2d)
      rw [hframe q2 (hnnq q2 (rinv.doneM q2 hq2d) hne).2
        (hnnq q2 (rinv.doneM q2 hq2d) hne).1]
      exact rinv.rest q2 hq2d tg2 a2 o2 cs2 hg2
  · intro q3 hq3 hq3d tg3 a3 o3 k3 he3
    have hne : q3 ≠ q := fun h => hq3d (by simp [h])
    have hq3d2 : q3 ∉ done := fun h => hq3d (by simp [h])
    rw [elemInfo_congr _ C q3 (hframe q3 (hnnq q3 hq3 hne).2
      (hnnq q3 hq3 hne).1)]
    exact rinv.unrest q3 hq3 hq3d2 tg3 a3 o3 k3 he3
  · intro e he
    rcases path_trichotomy q e with hr | ⟨rr, hrr, hr⟩ | ⟨rr, hrr, hr⟩ |
        ⟨h1, h2⟩
    · exact absurd (hr ▸ hqM) he
    · subst hr
      rw [elemInfo_congr _ t0 (q ++ rr) (hbelow rr hrr)]
    · subst hr
      rw [(habove e rr hrr rfl).1]
      exact rinv.outside e he
    · rw [elemInfo_congr _ C e (hframe e h1 h2)]
      exact rinv.outside e he
  · intro r s h0
    rcases path_trichotomy q r with hr | ⟨rr, hrr, hr⟩ | ⟨rr, hrr, hr⟩ |
        ⟨h1, h2⟩
    · subst hr
      rw [htextq] at h0
      exact absurd h0 (by simp)
    · subst hr
      rw [textVal_congr _ t0 (q ++ rr) (hbelow rr hrr)]
      exact Or.inl h0
    · subst hr
      exfalso
      have hgq := hg0
      rw [getNode_append, textVal_some_getNode t0 r s h0,
        Option.some_bind] at hgq
      cases rr with
      | nil => exact hrr rfl
      | cons i rrr => simp [getNode] at hgq
    · rw [textVal_congr _ C r (hframe r h1 h2)]
      rcases rinv.texts r s h0 with h | ⟨q2, hq2, hq2d, hpf2, hsome2⟩
      · exact Or.inl h
      · have hne : q2 ≠ q := by
          intro he
          subst he
          exact h1 ((isPfxOfN_iff q2 r).mp hpf2)
        exact Or.inr ⟨q2, hq2, fun h => (List.mem_cons.mp h).elim
          (fun h2 => hne h2) (fun h2 => hq2d h2), hpf2, hsome2⟩
  · intro q2 hq2
    rcases List.mem_cons.mp hq2 with h | h
    · exact h ▸ hqM
    · exact rinv.doneM q2 h

theorem restoreFold_rinv (t0 : DNode) (M : List Path)
    (hclean : cleanNode t0 = true)
    (hMOwn : ∀ b ∈ M, b ∈ Owners t0) (hnn0 : HNN t0) :
    ∀ (l : List Path) (C : DNode) (done : List Path),
    (∀ b ∈ l, b ∈ M ∧ b ∉ done) → l.Nodup →
    RInv t0 M done C →
    RInv t0 M (l.foldl restoreStep (C, done)).2
      (l.foldl restoreStep (C, done)).1 ∧
    (∀ b, b ∈ (l.foldl restoreStep (C, done)).2 ↔ b ∈ l ∨ b ∈ done) := by
  intro l
  induction l with
  | nil =>
    intro C done _ _ rinv
    exact ⟨rinv, fun b => by simp⟩
  | cons q l ih =>
    intro C done hl hdup rinv
    obtain ⟨hstep, rinv2⟩ := restoreStep_rinv t0 M done C q rinv hclean
      hMOwn hnn0 (hl q (by simp)).1 (hl q (by simp)).2
    have hl2 : ∀ b ∈ l, b ∈ M ∧ b ∉ q :: done := by
      intro b hb
      refine ⟨(hl b (by simp [hb])).1, ?_⟩
      intro hmem
      rcases List.mem_cons.mp hmem with h | h
      · subst h
        exact (List.nodup_cons.mp hdup).1 hb
      · exact (hl b (by simp [hb])).2 h
    obtain ⟨rinv3, hmem3⟩ := ih (restoreStep (C, done) q).1 (q :: done) hl2
      (List.nodup_cons.mp hdup).2 rinv2
    simp only [List.foldl_cons]
    rw [hstep]
    refine ⟨rinv3, ?_⟩
    intro b
    rw [hmem3 b]
    simp
    tauto

theorem restore_after_inv (t0 : DNode) (M : List Path) (T : DNode)
    (inv : Inv t0 (Owners t0) M T)
    (hclean : cleanNode t0 = true) (hnolt : noLtNode t0 = true)
    (hnn0 : HNN t0) (hnr : HNR t0) :
    textContent (restoreOriginalText T) = textContent t0 ∧
    restoreOriginalText (restoreOriginalText T) = restoreOriginalText T := by
  have hMOwn : ∀ b ∈ M, b ∈ Owners t0 := fun b hb => inv.omem b hb
  have hnil : [] ∉ M := fun h => hnr [] (hMOwn [] h) rfl
  have hvalid : ∀ e ∈ Owners t0, ∃ tg a o k,
      elemInfo t0 e = some (tg, a, o, k) :=
    fun e he => owners_elemInfo t0 e he
  have hLM := inv_markedDesc_iff t0 (Owners t0) M T inv hclean hvalid hnil
  obtain ⟨rinvF, hmemF⟩ := restoreFold_rinv t0 M hclean hMOwn hnn0
    (markedDescPaths T) T []
    (fun b hb => ⟨(hLM b).mp hb, by simp⟩)
    (markedDescPaths_nodup T) (rinv_init t0 M T inv)
  have hFdef : restoreOriginalText T =
      ((markedDescPaths T).foldl restoreStep (T, [])).1 := rfl
  have hdoneM : ∀ b ∈ M,
      b ∈ ((markedDescPaths T).foldl restoreStep (T, [])).2 := by
    intro b hb
    rw [hmemF b]
    exact Or.inl ((hLM b).mpr hb)
  have htexts : ∀ r, textVal (restoreOriginalText T) r = textVal t0 r := by
    intro r
    rw [hFdef]
    cases h0 : textVal t0 r with
    | some s =>
      rcases rinvF.texts r s h0 with h | ⟨q, hq, hqd, _, _⟩
      · exact h
      · exact absurd (hdoneM q hq) hqd
    | none =>
      have h2 := textVal_isSome_shape
        ((markedDescPaths T).foldl restoreStep (T, [])).1 t0 r rinvF.shape
      rw [h0] at h2
      cases h3 : textVal ((markedDescPaths T).foldl restoreStep (T, [])).1
          r with
      | none => rfl
      | some s2 => rw [h3] at h2; simp at h2
  have hnomark : ∀ e, isMarkedAt (restoreOriginalText T) e = false := by
    intro e
    rw [← Bool.not_eq_true]
    intro hm
    obtain ⟨tg, a, o, k, heF, ha⟩ :=
      (isMarkedAt_iff (restoreOriginalText T) e).mp hm
    by_cases heM : e ∈ M
    · obtain ⟨tg0, a0, o0, k0, he0⟩ := hvalid e (hMOwn e heM)
      obtain ⟨cs0, hg0, hk0⟩ := (elemInfo_some_iff t0 e tg0 a0 o0 k0).mp he0
      have hrest := rinvF.rest e (hdoneM e heM) tg0 a0 o0 cs0 hg0
      rw [hFdef] at heF
      unfold elemInfo at heF
      rw [hrest] at heF
      simp at heF
      rw [← heF.2.1] at ha
      rw [getAttr_setAttr] at ha
      simp at ha
    · rw [hFdef] at heF
      rw [rinvF.outside e heM] at heF
      obtain ⟨cs, hg, hk⟩ := (elemInfo_some_iff t0 e tg a o k).mp heF
      have := (clean_elem t0 e tg a o cs hclean hg).1
      rw [this] at ha
      exact absurd ha (by simp)
  have hempty : markedDescPaths (restoreOriginalText T) = [] := by
    rw [List.eq_nil_iff_forall_not_mem]
    intro e he
    have := markedOk_isMarkedAt _ e (markedDescPaths_valid _ e he)
    rw [hnomark e] at this
    exact absurd this (by simp)
  constructor
  · refine textContentExt (restoreOriginalText T) t0 ?_ htexts
    rw [hFdef]
    exact rinvF.shape
  · show restoreFromDataAttributes (restoreOriginalText T) = _
    unfold restoreFromDataAttributes
    rw [hempty]
    rfl

mutual
theorem collectNode_complete (root : DNode) (pfx : Path) (i : Nat)
    (ptag : String) (pattrs : List (String × String)) (n : DNode)
    (hn : getNode root (pfx ++ [i]) = some n)
    (hp : ∃ o k, elemInfo root pfx = some (ptag, pattrs, o, k)) :
    ∀ q, CollectOk root q → PIsPfx (pfx ++ [i]) q →
      q ∈ collectNode pfx i ptag pattrs n := by
  match n with
  | .text s =>
    intro q hok ⟨rest, hrest⟩
    obtain ⟨s2, tg2, a2, hs2, ho2, hacc2⟩ := hok
    have hq : q = pfx ++ [i] := by
      cases hr : rest with
      | nil => rw [hrest, hr, List.append_nil]
      | cons x xs =>
        exfalso
        have := textVal_some_getNode root q s2 hs2
        rw [hrest, hr, getNode_append, hn, Option.some_bind] at this
        simp [getNode] at this
    subst hq
    have hs : s2 = s := by
      have := textVal_some_getNode root (pfx ++ [i]) s2 hs2
      rw [hn] at this
      simpa using this.symm
    have howner : tg2 = ptag ∧ a2 = pattrs := by
      unfold ownerData at ho2
      rw [List.dropLast_concat] at ho2
      obtain ⟨o, k, hok2⟩ := hp
      rw [hok2] at ho2
      simp at ho2
      exact ⟨ho2.1.symm, ho2.2.symm⟩
    unfold collectNode
    rw [if_pos (by rw [← howner.1, ← howner.2, ← hs]; exact hacc2)]
    simp
  | .elem tg a o2 cs =>
    intro q hok ⟨rest, hrest⟩
    obtain ⟨s2, tg2, a2, hs2, ho2, hacc2⟩ := hok
    have hgq := textVal_some_getNode root q s2 hs2
    cases hr : rest with
    | nil =>
      exfalso
      rw [hrest, hr, List.append_nil] at hgq
      rw [hgq] at hn
      simp at hn
    | cons j r =>
      unfold collectNode
      have hjr : j < cs.length := by
        rw [hrest, hr, getNode_append, hn, Option.some_bind,
          getNode_elem_cons] at hgq
        cases hcj : cs[j]? with
        | none => rw [hcj] at hgq; exact absurd hgq (by simp)
        | some c =>
          exact (List.getElem?_eq_some_iff.mp hcj).1
      refine collectForest_complete root (pfx ++ [i]) 0 tg a cs ?_ ?_ q
        ⟨s2, tg2, a2, hs2, ho2, hacc2⟩
        ⟨j, r, by omega, by simpa using hjr, by rw [hrest, hr]⟩
      · refine ⟨[], ?_, rfl⟩
        unfold childrenAt
        rw [hn]
        rfl
      · refine ⟨o2, cs.length, ?_⟩
        unfold elemInfo
        rw [hn]

theorem collectForest_complete (root : DNode) (pfx : Path) (i : Nat)
    (ptag : String) (pattrs : List (String × String)) (ns : List DNode)
    (hs : ∃ pre, childrenAt root pfx = some (pre ++ ns) ∧ pre.length = i)
    (hp : ∃ o k, elemInfo root pfx = some (ptag, pattrs, o, k)) :
    ∀ q, CollectOk root q →
      (∃ j r, i ≤ j ∧ j - i < ns.length ∧ q = pfx ++ j :: r) →
      q ∈ collectForest pfx i ptag pattrs ns := by
  match ns with
  | [] =>
    intro q hok ⟨j, r, hij, hlt, hq⟩
    simp at hlt
  | n :: ns =>
    intro q hok ⟨j, r, hij, hlt, hq⟩
    obtain ⟨pre, hcs, hlen⟩ := hs
    have hgn : ∀ m c, (n :: ns)[m]? = some c →
        getNode root (pfx ++ [i + m]) = some c := by
      intro m c hc
      rw [getNode_append]
      unfold childrenAt at hcs
      cases hg : getNode root pfx with
      | none => rw [hg] at hcs; exact absurd hcs (by simp)
      | some t =>
        rw [hg] at hcs
        cases t with
        | text s => exact absurd hcs (by simp)
        | elem tg2 a2 o2 cs2 =>
          have hcs2 : cs2 = pre ++ n :: ns := by simpa using hcs
          subst hcs2
          rw [Option.some_bind, getNode_elem_cons,
            List.getElem?_append_right (by omega),
            show i + m - pre.length = m from by omega, hc]
          show getNode c [] = some c
          rfl
    unfold collectForest
    rw [List.mem_append]
    by_cases hji : j = i
    · subst hji
      left
      refine collectNode_complete root pfx j ptag pattrs n ?_ hp q hok ?_
      · have := hgn 0 n (by simp)
        simpa using this
      · exact ⟨r, by rw [hq]; simp⟩
    · right
      refine collectForest_complete root pfx (i + 1) ptag pattrs ns
        ⟨pre ++ [n], by simpa using hcs, by simp [hlen]⟩ hp q hok
        ⟨j, r, by omega, by simp at hlt; omega, hq⟩
end

theorem collectTextNodes_complete (root : DNode) (q : Path)
    (hok : CollectOk root q) : q ∈ collectTextNodes root := by
  obtain ⟨s2, tg2, a2, hs2, ho2, hacc2⟩ := hok
  match root with
  | .text s =>
    exfalso
    unfold ownerData at ho2
    cases he : elemInfo (DNode.text s) q.dropLast with
    | none => rw [he] at ho2; exact absurd ho2 (by simp)
    | some x =>
      unfold elemInfo at he
      cases hq : q.dropLast with
      | nil => rw [hq] at he; simp [getNode] at he
      | cons a b => rw [hq] at he; simp [getNode] at he
  | .elem tg a o cs =>
    have hgq := textVal_some_getNode _ q s2 hs2
    cases q with
    | nil => simp [getNode] at hgq
    | cons j r =>
      unfold collectTextNodes
      show j :: r ∈ collectForest [] 0 tg a cs
      have hjr : j < cs.length := by
        rw [getNode_elem_cons] at hgq
        cases hcj : cs[j]? with
        | none => rw [hcj] at hgq; exact absurd hgq (by simp)
        | some c => exact (List.getElem?_eq_some_iff.mp hcj).1
      refine collectForest_complete _ [] 0 tg a cs ⟨[], by rfl, rfl⟩
        ⟨o, cs.length, by rfl⟩ (j :: r) ⟨s2, tg2, a2, hs2, ho2, hacc2⟩
        ⟨j, r, by omega, by simpa using hjr, by rfl⟩

theorem firstTextForest_isSome (ns : List DNode) :
    ∀ (i j : Nat) (s : String), ns[j]? = some (.text s) →
      ∃ rel, firstTextForest i ns = some rel := by
  induction ns with
  | nil => intro i j s h; simp at h
  | cons n ns ih =>
    intro i j s h
    cases hj : j with
    | zero =>
      rw [hj] at h
      simp at h
      refine ⟨[i], ?_⟩
      unfold firstTextForest
      rw [h]
      rfl
    | succ j2 =>
      rw [hj] at h
      simp at h
      unfold firstTextForest
      cases hn : firstTextNode i n with
      | some q => exact ⟨q, rfl⟩
      | none => exact ih (i + 1) j2 s (by simpa using h)

theorem pfx_length (a b : Path) (h : PIsPfx a b) : a.length ≤ b.length := by
  obtain ⟨r, hr⟩ := h
  rw [hr]
  simp

theorem pfx_eq_of_length (a b : Path) (h : PIsPfx a b)
    (hl : b.length ≤ a.length) : a = b := by
  obtain ⟨r, hr⟩ := h
  have : r = [] := by
    have h2 := congrArg List.length hr
    simp at h2
    rw [← List.length_eq_zero]
    omega
  rw [hr, this, List.append_nil]

theorem dropLast_pfx (p : Path) (hp : p ≠ []) : PIsPfx p.dropLast p :=
  ⟨[p.getLast hp], (List.dropLast_append_getLast hp).symm⟩

theorem translateCancelled_state (pf : String → List DNode)
    (tr : MTranslator) (seed : List Category) (B : Nat) (root : DNode)
    (j : Nat) (hB : 0 < B) :
    (translateCancelled pf tr seed B root j).1 =
      ((collectTextNodes root).take (((j + B - 1) / B) * B)).foldl
        (fun s p => (processNode pf tr s p).1)
        { tree := root, terms := seed, usage := TokenUsage.zero } := by
  show (runBatches pf tr (collectTextNodes root).length
      { tree := root, terms := seed, usage := TokenUsage.zero } 0
      ((chunkList B (collectTextNodes root)).take ((j + B - 1) / B))).1 = _
  rw [(runBatches_spec pf tr (collectTextNodes root).length
      ((chunkList B (collectTextNodes root)).take ((j + B - 1) / B)) _ 0).1,
    processBatch_state, chunkList_take_flatten B hB]

/-- C2 — counterexample to the claimed unconditional round-trip: a text node
owned directly by the root is marked on the root itself, which the
restore pass (a `querySelectorAll` over strict descendants) never visits, so
after a complete session plus restore the root's `textContent` is the
translator's output, not the original text. -/
theorem c2_roundtrip_counterexample :
    textContent (restoreOriginalText
      (translate (fun _ => [])
        ⟨fun _ => Except.ok ⟨"X", [], TokenUsage.zero⟩,
         fun _ => Except.error "e"⟩
        [] 5 (.elem "DIV" [] none [.text "Hello world"])).1.tree) ≠
    textContent (DNode.elem "DIV" [] none [.text "Hello world"]) := by
  decide

/-- C2 (amended) — restore round-trip for well-behaved sessions: on a clean
tree with `<`-free text whose collected text nodes have pairwise non-nested
owners, none of them the root, and a translator producing `<`-free output,
a complete session followed by restore recovers the original `textContent`,
and a second restore changes nothing. -/
theorem c2_restore_roundtrip (pf : String → List DNode) (tr : MTranslator)
    (seed : List Category) (B : Nat) (t0 : DNode) (hB : 0 < B)
    (hS : SessionOk t0) (htr : TrOk tr) (hseed : TermsNoLt seed) :
    textContent (restoreOriginalText (translate pf tr seed B t0).1.tree) =
      textContent t0 ∧
    restoreOriginalText
        (restoreOriginalText (translate pf tr seed B t0).1.tree) =
      restoreOriginalText (translate pf tr seed B t0).1.tree := by
  obtain ⟨M, inv, _⟩ := translate_inv pf tr seed B t0 hB hS htr hseed
  exact restore_after_inv t0 M _ inv hS.1 hS.2.1 hS.2.2.2 hS.2.2.1

theorem c2_restore_roundtrip_witness :
    (0 < 1 ∧
     SessionOk (.elem "DIV" [] none [.elem "P" [] none [.text "ab"]]) ∧
     TrOk ⟨fun _ => Except.ok ⟨"X", [], TokenUsage.zero⟩,
           fun _ => Except.error "e"⟩ ∧
     TermsNoLt []) ∧
    (textContent (restoreOriginalText
        (translate (fun _ => [])
          ⟨fun _ => Except.ok ⟨"X", [], TokenUsage.zero⟩,
           fun _ => Except.error "e"⟩ [] 1
          (.elem "DIV" [] none [.elem "P" [] none [.text "ab"]])).1.tree) =
      textContent (DNode.elem "DIV" [] none
        [.elem "P" [] none [.text "ab"]]) ∧
     restoreOriginalText (restoreOriginalText
        (translate (fun _ => [])
          ⟨fun _ => Except.ok ⟨"X", [], TokenUsage.zero⟩,
           fun _ => Except.error "e"⟩ [] 1
          (.elem "DIV" [] none [.elem "P" [] none [.text "ab"]])).1.tree) =
      restoreOriginalText
        (translate (fun _ => [])
          ⟨fun _ => Except.ok ⟨"X", [], TokenUsage.zero⟩,
           fun _ => Except.error "e"⟩ [] 1
          (.elem "DIV" [] none [.elem "P" [] none [.text "ab"]])).1.tree) := by
  have hS : SessionOk (.elem "DIV" [] none [.elem "P" [] none [.text "ab"]]) :=
    ⟨by decide, by decide, by unfold HNR; decide, by unfold HNN; decide⟩
  have htr : TrOk ⟨fun _ => Except.ok ⟨"X", [], TokenUsage.zero⟩,
      fun _ => Except.error "e"⟩ := by
    constructor
    · intro s out h
      cases h
      constructor
      · show NoLt "X"
        unfold NoLt
        decide
      · intro tm htm
        simp at htm
    · intro c r h
      exact absurd h (by simp)
  have hseed : TermsNoLt [] := fun cat hcat => absurd hcat (by simp)
  exact ⟨⟨by decide, hS, htr, hseed⟩,
    c2_restore_roundtrip (fun _ => [])
      ⟨fun _ => Except.ok ⟨"X", [], TokenUsage.zero⟩,
       fun _ => Except.error "e"⟩ [] 1
      (.elem "DIV" [] none [.elem "P" [] none [.text "ab"]])
      (by decide) hS htr hseed⟩

/-- C1 — counterexample to unconditional retroactive propagation: a text node
owned by the root is marked on the root itself, which the final
re-application pass (a `querySelectorAll` over strict descendants) never
visits, so its rendered output keeps the raw placeholder even though the
final glossary resolves it. -/
theorem c1_retroactive_counterexample :
    textVal (translate (fun _ => [])
        ⟨fun _ => Except.ok ⟨"ab \x7b\x7bT\x7d\x7d",
           [⟨"cd", "XX", "", "\x7b\x7bT\x7d\x7d"⟩], TokenUsage.zero⟩,
         fun _ => Except.error "e"⟩
        [] 5 (.elem "DIV" [] none [.text "ab cd"])).1.tree [0] =
      some "ab \x7b\x7bT\x7d\x7d" ∧
    isMarkedAt (translate (fun _ => [])
        ⟨fun _ => Except.ok ⟨"ab \x7b\x7bT\x7d\x7d",
           [⟨"cd", "XX", "", "\x7b\x7bT\x7d\x7d"⟩], TokenUsage.zero⟩,
         fun _ => Except.error "e"⟩
        [] 5 (.elem "DIV" [] none [.text "ab cd"])).1.tree [] = true ∧
    applyTermsReplacement (translate (fun _ => [])
        ⟨fun _ => Except.ok ⟨"ab \x7b\x7bT\x7d\x7d",
           [⟨"cd", "XX", "", "\x7b\x7bT\x7d\x7d"⟩], TokenUsage.zero⟩,
         fun _ => Except.error "e"⟩
        [] 5 (.elem "DIV" [] none [.text "ab cd"])).1.terms
      "ab \x7b\x7bT\x7d\x7d" = "ab XX" ∧
    "ab \x7b\x7bT\x7d\x7d" ≠ "ab XX" := by
  refine ⟨by decide, by decide, by decide, by decide⟩

/-- C1 (amended) — retroactive term propagation over the marked strict
descendants: for a well-behaved session, the closing pass rewrites every
currently marked element's first text node with the glossary substitution
taken from the final term list, so a term discovered while translating a
later node is reflected in every earlier-marked element's output. -/
theorem c1_retroactive_propagation (pf : String → List DNode)
    (tr : MTranslator) (seed : List Category) (B : Nat) (t0 : DNode)
    (hB : 0 < B) (hS : SessionOk t0) (htr : TrOk tr)
    (hseed : TermsNoLt seed) :
    (translate pf tr seed B t0).1.terms =
      (translatePre pf tr seed B t0).terms ∧
    ∀ q ∈ markedDescPaths (translatePre pf tr seed B t0).tree,
      ∃ cs rel, childrenAt (translatePre pf tr seed B t0).tree q = some cs ∧
        firstTextForest 0 cs = some rel ∧
        textVal (translate pf tr seed B t0).1.tree (q ++ rel) =
          some (applyTermsReplacement (translate pf tr seed B t0).1.terms
            ((textVal (translatePre pf tr seed B t0).tree (q ++ rel)).getD
              "")) := by
  obtain ⟨hclean, hnolt, hnr, hnn0⟩ := hS
  obtain ⟨M, inv, hterms⟩ :=
    translatePre_inv pf tr seed B t0 hB ⟨hclean, hnolt, hnr, hnn0⟩ htr hseed
  refine ⟨(translate_decomp pf tr seed B t0).2, ?_⟩
  intro q hq
  have hvalid : ∀ e ∈ Owners t0, ∃ tg a o k,
      elemInfo t0 e = some (tg, a, o, k) :=
    fun e he => owners_elemInfo t0 e he
  have hqM : q ∈ M :=
    (inv_marked_iff t0 (Owners t0) M _ inv hclean hvalid q).mp
      (markedOk_isMarkedAt _ q (markedDescPaths_valid _ q hq))
  obtain ⟨tg, a0, o0, k, he0⟩ := hvalid q (inv.omem q hqM)
  have hmark := inv.mark q hqM tg a0 o0 k he0
  obtain ⟨csT, hgT, hkT⟩ := (elemInfo_some_iff _ q tg
    (setAttr a0 "data-translation" "true") (childrenAt t0 q) k).mp hmark
  have hch : childrenAt (translatePre pf tr seed B t0).tree q = some csT := by
    unfold childrenAt
    rw [hgT]
  obtain ⟨p, hp, hpd⟩ := List.mem_map.mp (inv.omem q hqM)
  obtain ⟨s0, tgp, ap, hs0, hop, haccp⟩ := collectTextNodes_sound t0 p hp
  have hpn : p ≠ [] := collect_ne_nil t0 p hp
  have hpsplit : q ++ [p.getLast hpn] = p := by
    rw [← hpd]
    exact List.dropLast_append_getLast hpn
  have hsome := textVal_isSome_shape
    (translatePre pf tr seed B t0).tree t0 p inv.shape
  rw [hs0] at hsome
  obtain ⟨old, hold⟩ := Option.isSome_iff_exists.mp (by rw [hsome]; rfl)
  have hgp : getNode (translatePre pf tr seed B t0).tree p =
      some (.text old) := textVal_some_getNode _ p old hold
  have hcsj : csT[p.getLast hpn]? = some (.text old) := by
    rw [← hpsplit, getNode_append, hgT, Option.some_bind,
      getNode_elem_cons] at hgp
    cases hcj : csT[p.getLast hpn]? with
    | none => rw [hcj] at hgp; exact absurd hgp (by simp)
    | some c =>
      rw [hcj] at hgp
      have : getNode c [] = some (.text old) := hgp
      simp [getNode] at this
      rw [this]
  obtain ⟨rel, hrel⟩ :=
    firstTextForest_isSome csT 0 (p.getLast hpn) old hcsj
  have hmem : ∀ e ∈ markedDescPaths (translatePre pf tr seed B t0).tree,
      e ∈ M := by
    intro e he
    exact (inv_marked_iff t0 (Owners t0) M _ inv hclean hvalid e).mp
      (markedOk_isMarkedAt _ e (markedDescPaths_valid _ e he))
  have hpair : (markedDescPaths (translatePre pf tr seed B t0).tree).Pairwise
      (fun a b => ¬ PIsPfx a b ∧ ¬ PIsPfx b a) := by
    refine List.Pairwise.imp_of_mem ?_ (markedDescPaths_nodup _)
    intro a b ha hb hne
    have haO := inv.omem a (hmem a ha)
    have hbO := inv.omem b (hmem b hb)
    constructor
    · intro hpf
      exact absurd ((isPfxOfN_iff a b).mpr hpf)
        (by rw [hnn0 a haO b hbO hne]; simp)
    · intro hpf
      exact absurd ((isPfxOfN_iff b a).mpr hpf)
        (by rw [hnn0 b hbO a haO (fun h => hne h.symm)]; simp)
  obtain ⟨_, _, _, _, fMain⟩ := applyAllFold pf
    (translatePre pf tr seed B t0).terms hterms
    (markedDescPaths (translatePre pf tr seed B t0).tree)
    (translatePre pf tr seed B t0).tree
    (inv_texts_noLt t0 (Owners t0) M _ inv hnolt) hpair
  refine ⟨csT, rel, hch, hrel, ?_⟩
  rw [(translate_decomp pf tr seed B t0).1,
    (translate_decomp pf tr seed B t0).2]
  exact fMain q hq csT rel hch hrel

theorem c1_retroactive_propagation_witness :
    (0 < 1 ∧
     SessionOk (.elem "DIV" [] none [.elem "P" [] none [.text "ab"]]) ∧
     TrOk ⟨fun _ => Except.ok ⟨"XY", [], TokenUsage.zero⟩,
           fun _ => Except.error "e"⟩ ∧
     TermsNoLt []) ∧
    ((translate (fun _ => [])
        ⟨fun _ => Except.ok ⟨"XY", [], TokenUsage.zero⟩,
         fun _ => Except.error "e"⟩ [] 1
        (.elem "DIV" [] none [.elem "P" [] none [.text "ab"]])).1.terms =
      (translatePre (fun _ => [])
        ⟨fun _ => Except.ok ⟨"XY", [], TokenUsage.zero⟩,
         fun _ => Except.error "e"⟩ [] 1
        (.elem "DIV" [] none [.elem "P" [] none [.text "ab"]])).terms ∧
     ∀ q ∈ markedDescPaths (translatePre (fun _ => [])
        ⟨fun _ => Except.ok ⟨"XY", [], TokenUsage.zero⟩,
         fun _ => Except.error "e"⟩ [] 1
        (.elem "DIV" [] none [.elem "P" [] none [.text "ab"]])).tree,
      ∃ cs rel, childrenAt (translatePre (fun _ => [])
          ⟨fun _ => Except.ok ⟨"XY", [], TokenUsage.zero⟩,
           fun _ => Except.error "e"⟩ [] 1
          (.elem "DIV" [] none [.elem "P" [] none [.text "ab"]])).tree q =
          some cs ∧
        firstTextForest 0 cs = some rel ∧
        textVal (translate (fun _ => [])
            ⟨fun _ => Except.ok ⟨"XY", [], TokenUsage.zero⟩,
             fun _ => Except.error "e"⟩ [] 1
            (.elem "DIV" [] none
              [.elem "P" [] none [.text "ab"]])).1.tree (q ++ rel) =
          some (applyTermsReplacement (translate (fun _ => [])
              ⟨fun _ => Except.ok ⟨"XY", [], TokenUsage.zero⟩,
               fun _ => Except.error "e"⟩ [] 1
              (.elem "DIV" [] none
                [.elem "P" [] none [.text "ab"]])).1.terms
            ((textVal (translatePre (fun _ => [])
                ⟨fun _ => Except.ok ⟨"XY", [], TokenUsage.zero⟩,
                 fun _ => Except.error "e"⟩ [] 1
                (.elem "DIV" [] none
                  [.elem "P" [] none [.text "ab"]])).tree
              (q ++ rel)).getD ""))) := by
  have hS : SessionOk (.elem "DIV" [] none [.elem "P" [] none [.text "ab"]]) :=
    ⟨by decide, by decide, by unfold HNR; decide, by unfold HNN; decide⟩
  have htr : TrOk ⟨fun _ => Except.ok ⟨"XY", [], TokenUsage.zero⟩,
      fun _ => Except.error "e"⟩ := by
    constructor
    · intro s out h
      cases h
      constructor
      · show NoLt "XY"
        unfold NoLt
        decide
      · intro tm htm
        simp at htm
    · intro c r h
      exact absurd h (by simp)
  have hseed : TermsNoLt [] := fun cat hcat => absurd hcat (by simp)
  exact ⟨⟨by decide, hS, htr, hseed⟩,
    c1_retroactive_propagation (fun _ => [])
      ⟨fun _ => Except.ok ⟨"XY", [], TokenUsage.zero⟩,
       fun _ => Except.error "e"⟩ [] 1
      (.elem "DIV" [] none [.elem "P" [] none [.text "ab"]])
      (by decide) hS htr hseed⟩

/-- C4 — counterexample to the claimed eligibility of unprocessed nodes: with
batch size 1, cancelling after the first snapshot leaves the sibling text
node's content untouched, but its shared owning element was already marked
while processing the first text node, so the unprocessed node is no longer
collected (it would need a restore before a future session can pick it
up). -/
theorem c4_cancellation_counterexample :
    textVal (translateCancelled (fun _ => [])
        ⟨fun _ => Except.ok ⟨"XY", [], TokenUsage.zero⟩,
         fun _ => Except.error "e"⟩ [] 1
        (.elem "DIV" [] none
          [.elem "P" [] none
            [.text "ab", .elem "BR" [] none [], .text "cd"]]) 1).1.tree
      [0, 2] = some "cd" ∧
    isMarkedAt (translateCancelled (fun _ => [])
        ⟨fun _ => Except.ok ⟨"XY", [], TokenUsage.zero⟩,
         fun _ => Except.error "e"⟩ [] 1
        (.elem "DIV" [] none
          [.elem "P" [] none
            [.text "ab", .elem "BR" [] none [], .text "cd"]]) 1).1.tree
      [0] = true ∧
    collectTextNodes (translateCancelled (fun _ => [])
        ⟨fun _ => Except.ok ⟨"XY", [], TokenUsage.zero⟩,
         fun _ => Except.error "e"⟩ [] 1
        (.elem "DIV" [] none
          [.elem "P" [] none
            [.text "ab", .elem "BR" [] none [], .text "cd"]]) 1).1.tree
      = [] ∧
    [0, 2] ∈ collectTextNodes (DNode.elem "DIV" [] none
        [.elem "P" [] none
          [.text "ab", .elem "BR" [] none [], .text "cd"]]) := by
  refine ⟨by decide, by decide, by decide, by decide⟩

/-- C4 (amended) — cancellation contract for nodes with private owners: a
cancelled session runs exactly the first `⌈j / B⌉` batches; every collected
node that was not processed and whose owning element is not shared with any
processed node keeps its original text, its owner stays unmarked, and the
node is still collected by a fresh `collectTextNodes` walk (eligible for a
future session without restoration). -/
theorem c4_cancellation_contract (pf : String → List DNode)
    (tr : MTranslator) (seed : List Category) (B : Nat) (t0 : DNode)
    (j : Nat) (hB : 0 < B) (hS : SessionOk t0) (htr : TrOk tr)
    (hseed : TermsNoLt seed) :
    ∀ p ∈ collectTextNodes t0,
      p.dropLast ∉ ((collectTextNodes t0).take (((j + B - 1) / B) * B)).map
        (fun p2 => p2.dropLast) →
      textVal (translateCancelled pf tr seed B t0 j).1.tree p =
        textVal t0 p ∧
      isMarkedAt (translateCancelled pf tr seed B t0 j).1.tree p.dropLast =
        false ∧
      p ∈ collectTextNodes (translateCancelled pf tr seed B t0 j).1.tree := by
  obtain ⟨hclean, hnolt, hnr, hnn0⟩ := hS
  intro p hp hpd
  obtain ⟨s0, tgp, ap, hs0, hop, haccp⟩ := collectTextNodes_sound t0 p hp
  have hpn : p ≠ [] := collect_ne_nil t0 p hp
  have hstate := translateCancelled_state pf tr seed B t0 j hB
  obtain ⟨M, inv, hterms⟩ := processList_inv pf tr t0 htr hclean hnolt
    hnn0 hnr ((collectTextNodes t0).take (((j + B - 1) / B) * B)) [] []
    { tree := t0, terms := seed, usage := TokenUsage.zero }
    (fun x hx => List.take_subset _ _ hx) (fun e he => absurd he (by simp))
    (inv_init t0 []) hseed
  rw [hstate]
  have hMow : ∀ b ∈ M,
      b ∈ ((collectTextNodes t0).take (((j + B - 1) / B) * B)).map
        (fun p2 => p2.dropLast) := by
    intro b hb
    have := inv.omem b hb
    simpa using this
  have hMO : ∀ b ∈ M, b ∈ Owners t0 := by
    intro b hb
    obtain ⟨p2, hp2, hpd2⟩ := List.mem_map.mp (hMow b hb)
    exact List.mem_map.mpr ⟨p2, List.take_subset _ _ hp2, hpd2⟩
  have hpdM : p.dropLast ∉ M := fun h => hpd (hMow _ h)
  have hpdO : p.dropLast ∈ Owners t0 := List.mem_map.mpr ⟨p, hp, rfl⟩
  have hnoPfx : ∀ qq ∈ M, ¬ PIsPfx qq p := by
    intro qq hqq hpf
    have hqO : qq ∈ Owners t0 := hMO qq hqq
    have hqne : qq ≠ p := by
      intro he
      obtain ⟨tg, a, o, k, he2⟩ := owners_elemInfo t0 qq hqO
      exact elemInfo_textVal_clash t0 p (tg, a, o, k) s0 (he ▸ he2) hs0
    have hqlt : qq.length < p.length := by
      have h1 := pfx_length qq p hpf
      rcases Nat.lt_or_ge qq.length p.length with h | h
      · exact h
      · exact absurd (pfx_eq_of_length qq p hpf h) hqne
    have hdl : p.dropLast.length = p.length - 1 := by simp
    rcases pfx_comparable qq p.dropLast p hpf (dropLast_pfx p hpn) with
        h2 | h2
    · by_cases hqe : qq = p.dropLast
      · exact hpd (hqe ▸ hMow qq hqq)
      · exact absurd ((isPfxOfN_iff qq p.dropLast).mpr h2)
          (by rw [hnn0 qq hqO p.dropLast hpdO hqe]; simp)
    · have hle : qq.length ≤ p.dropLast.length := by omega
      have := pfx_eq_of_length p.dropLast qq h2 hle
      exact hpd (this ▸ hMow qq hqq)
  have htv : textVal ((((collectTextNodes t0).take
        (((j + B - 1) / B) * B))).foldl
      (fun s p => (processNode pf tr s p).1)
      { tree := t0, terms := seed, usage := TokenUsage.zero }).tree p =
      some s0 := by
    rcases inv.texts p s0 hs0 with h | ⟨qq, hqq, hpf, _, _, _⟩
    · exact h
    · exact absurd ((isPfxOfN_iff qq p).mp hpf) (hnoPfx qq hqq)
  have hvalid : ∀ e ∈ ((collectTextNodes t0).take
      (((j + B - 1) / B) * B)).map (fun p2 => p2.dropLast) ++ [],
      ∃ tg a o k, elemInfo t0 e = some (tg, a, o, k) := by
    intro e he
    simp only [List.append_nil] at he
    obtain ⟨p2, hp2, hpd2⟩ := List.mem_map.mp he
    exact owners_elemInfo t0 e
      (hpd2 ▸ List.mem_map.mpr ⟨p2, List.take_subset _ _ hp2, rfl⟩)
  refine ⟨by rw [htv, hs0], ?_, ?_⟩
  · rw [← Bool.not_eq_true]
    intro hm
    exact hpdM ((inv_marked_iff t0 _ M _ inv hclean hvalid p.dropLast).mp hm)
  · refine collectTextNodes_complete _ p ⟨s0, tgp, ap, htv, ?_, haccp⟩
    unfold ownerData
    rw [inv.unmark p.dropLast hpdM]
    unfold ownerData at hop
    exact hop

theorem c4_cancellation_contract_witness :
    (0 < 1 ∧
     SessionOk (.elem "DIV" [] none
       [.elem "P" [] none [.text "ab"], .elem "Q" [] none [.text "cd"]]) ∧
     TrOk ⟨fun _ => Except.ok ⟨"XY", [], TokenUsage.zero⟩,
           fun _ => Except.error "e"⟩ ∧
     TermsNoLt [] ∧
     [1, 0] ∈ collectTextNodes (DNode.elem "DIV" [] none
       [.elem "P" [] none [.text "ab"], .elem "Q" [] none [.text "cd"]]) ∧
     List.dropLast [1, 0] ∉
       ((collectTextNodes (DNode.elem "DIV" [] none
         [.elem "P" [] none [.text "ab"],
          .elem "Q" [] none [.text "cd"]])).take
            (((1 + 1 - 1) / 1) * 1)).map (fun p2 => p2.dropLast)) ∧
    (textVal (translateCancelled (fun _ => [])
        ⟨fun _ => Except.ok ⟨"XY", [], TokenUsage.zero⟩,
         fun _ => Except.error "e"⟩ [] 1
        (.elem "DIV" [] none
          [.elem "P" [] none [.text "ab"],
           .elem "Q" [] none [.text "cd"]]) 1).1.tree [1, 0] =
      textVal (DNode.elem "DIV" [] none
        [.elem "P" [] none [.text "ab"],
         .elem "Q" [] none [.text "cd"]]) [1, 0] ∧
     isMarkedAt (translateCancelled (fun _ => [])
        ⟨fun _ => Except.ok ⟨"XY", [], TokenUsage.zero⟩,
         fun _ => Except.error "e"⟩ [] 1
        (.elem "DIV" [] none
          [.elem "P" [] none [.text "ab"],
           .elem "Q" [] none [.text "cd"]]) 1).1.tree
        (List.dropLast [1, 0]) = false ∧
     [1, 0] ∈ collectTextNodes (translateCancelled (fun _ => [])
        ⟨fun _ => Except.ok ⟨"XY", [], TokenUsage.zero⟩,
         fun _ => Except.error "e"⟩ [] 1
        (.elem "DIV" [] none
          [.elem "P" [] none [.text "ab"],
           .elem "Q" [] none [.text "cd"]]) 1).1.tree) := by
  have hS : SessionOk (.elem "DIV" [] none
      [.elem "P" [] none [.text "ab"], .elem "Q" [] none [.text "cd"]]) :=
    ⟨by decide, by decide, by unfold HNR; decide, by unfold HNN; decide⟩
  have htr : TrOk ⟨fun _ => Except.ok ⟨"XY", [], TokenUsage.zero⟩,
      fun _ => Except.error "e"⟩ := by
    constructor
    · intro s out h
      cases h
      constructor
      · show NoLt "XY"
        unfold NoLt
        decide
      · intro tm htm
        simp at htm
    · intro c r h
      exact absurd h (by simp)
  have hseed : TermsNoLt [] := fun cat hcat => absurd hcat (by simp)
  exact ⟨⟨by decide, hS, htr, hseed, by decide, by decide⟩,
    c4_cancellation_contract (fun _ => [])
      ⟨fun _ => Except.ok ⟨"XY", [], TokenUsage.zero⟩,
       fun _ => Except.error "e"⟩ [] 1
      (.elem "DIV" [] none
        [.elem "P" [] none [.text "ab"], .elem "Q" [] none [.text "cd"]]) 1
      (by decide) hS htr hseed [1, 0] (by decide) (by decide)⟩

end Dom

